import Mathlib

/-!
# Verification of the Cycles BVH builder core

A shallow embedding, over exact rationals, of the bounding-box utilities,
the object/spatial split evaluators, the binned object split, the packed-array
refit pass and the top-level instance merge of the `bvh/` subsystem
(`src/util/boundbox.h`, `src/bvh/split.h`, `bvh/split.cpp`, `bvh/bvh2.cpp`,
`bvh/binning.cpp`, `src/bvh/sort.cpp`).

Machine `float` values are modelled as exact rationals; `FLT_MAX` is the
rational value of the IEEE single-precision maximum.  The handful of helpers
whose definitions live in headers absent from the source tree
(`util/math` scalar/vector `min`/`max`, `bvh/params.h` constants,
`bvh/binning.h` `get_bin`/`blocks`) are either modelled from the spec (and
said so in their doc comments) or kept as parameters of the embedding when
no claim depends on their internals.
-/

namespace Cycles

/-- Rational value of `FLT_MAX` (IEEE-754 binary32 maximum, `(2^24 - 1) * 2^104`). -/
def FLT_MAX : ℚ := (2 ^ 24 - 1) * 2 ^ 104

/-- 3-component vector of exact rationals, standing for `float3`
(component `0`/`1`/`2` is `.x`/`.y`/`.z`). -/
def Vec3 : Type := Fin 3 → ℚ

instance : DecidableEq Vec3 := by unfold Vec3; infer_instance

/-- `make_float3(a, b, c)`. -/
def mkVec3 (a b c : ℚ) : Vec3 := fun i => if i = 0 then a else if i = 1 then b else c

/-- `make_float3(f)` (same value in all components). -/
def splatVec3 (f : ℚ) : Vec3 := fun _ => f

/-- Componentwise vector sum, `float3 operator+`. -/
def vadd (a b : Vec3) : Vec3 := fun i => a i + b i

/-- Componentwise vector difference, `float3 operator-`. -/
def vsub (a b : Vec3) : Vec3 := fun i => a i - b i

/-- Componentwise vector product, `float3 operator*`. -/
def vmul (a b : Vec3) : Vec3 := fun i => a i * b i

/-- Scalar-vector product, `float operator* float3`. -/
def smul (t : ℚ) (a : Vec3) : Vec3 := fun i => t * a i

/-- Scalar `ccl::min`.  Modelled from the spec: the scalar helper lives in
`util/math.h`, which is absent from the tree; `boundbox.h` documents that
"the order of arguments to min is such that if pt is nan, it will not
influence the resulting bounding box", i.e. `min(a, b) = (a < b) ? a : b`.
On rationals (no NaN) this is the ordinary minimum. -/
def cclmin (a b : ℚ) : ℚ := if a < b then a else b

/-- Scalar `ccl::max`, `(a > b) ? a : b` (see `cclmin`). -/
def cclmax (a b : ℚ) : ℚ := if a > b then a else b

theorem cclmin_eq_min (a b : ℚ) : cclmin a b = min a b := by
  rcases lt_trichotomy a b with h | h | h
  · simp [cclmin, h, min_def, le_of_lt h]
  · simp [cclmin, h, min_def]
  · simp [cclmin, not_lt.mpr (le_of_lt h), min_def, not_le.mpr h]

theorem cclmax_eq_max (a b : ℚ) : cclmax a b = max a b := by
  rcases lt_trichotomy a b with h | h | h
  · simp [cclmax, not_lt.mpr (le_of_lt h), max_def, le_of_lt h]
  · simp [cclmax, h, max_def]
  · simp [cclmax, h, max_def, not_le.mpr h]

/-- Componentwise `ccl::min` on `float3`. -/
def vmin (a b : Vec3) : Vec3 := fun i => cclmin (a i) (b i)

/-- Componentwise `ccl::max` on `float3`. -/
def vmax (a b : Vec3) : Vec3 := fun i => cclmax (a i) (b i)

/-- `BoundBox` (`util/boundbox.h`): axis-aligned box with `min`/`max` corners. -/
structure BBox where
  bmin : Vec3
  bmax : Vec3
deriving DecidableEq

/-- The canonical empty box `BoundBox(BoundBox::empty)`:
`min = +FLT_MAX` and `max = -FLT_MAX` in all components. -/
def BBox.empty : BBox := ⟨splatVec3 FLT_MAX, splatVec3 (-FLT_MAX)⟩

/-- `BoundBox::grow(const float3 &pt)`. -/
def BBox.grow (b : BBox) (pt : Vec3) : BBox :=
  ⟨vmin pt b.bmin, vmax pt b.bmax⟩

/-- `BoundBox::grow(const float3 &pt, float border)`. -/
def BBox.growBorder (b : BBox) (pt : Vec3) (border : ℚ) : BBox :=
  ⟨vmin (vsub pt (splatVec3 border)) b.bmin, vmax (vadd pt (splatVec3 border)) b.bmax⟩

/-- `BoundBox::grow(const BoundBox &bbox)`. -/
def BBox.growBox (b other : BBox) : BBox :=
  ⟨vmin other.bmin b.bmin, vmax other.bmax b.bmax⟩

/-- `BoundBox::intersect(const BoundBox &bbox)`. -/
def BBox.intersect (b other : BBox) : BBox :=
  ⟨vmax b.bmin other.bmin, vmin b.bmax other.bmax⟩

/-- `BoundBox::half_area()`. -/
def BBox.half_area (b : BBox) : ℚ :=
  let d : Vec3 := vsub b.bmax b.bmin
  d 0 * d 2 + d 1 * d 2 + d 0 * d 1

/-- `BoundBox::area()`. -/
def BBox.area (b : BBox) : ℚ := b.half_area * 2

/-- `BoundBox::safe_area()`: `0` unless `min ≤ max` componentwise. -/
def BBox.safe_area (b : BBox) : ℚ :=
  if b.bmin 0 ≤ b.bmax 0 ∧ b.bmin 1 ≤ b.bmax 1 ∧ b.bmin 2 ≤ b.bmax 2 then b.area else 0

/-- `BoundBox::center2()` (`min + max`, twice the center). -/
def BBox.center2 (b : BBox) : Vec3 := vadd b.bmin b.bmax

/-- `BoundBox::size()` (`max - min`). -/
def BBox.size (b : BBox) : Vec3 := vsub b.bmax b.bmin

/-- Free function `merge(a, b)` of `boundbox.h`. -/
def mergeB (a b : BBox) : BBox := ⟨vmin a.bmin b.bmin, vmax a.bmax b.bmax⟩

/-- Membership of a point in a box (componentwise interval membership). -/
def BBox.mem (b : BBox) (p : Vec3) : Prop :=
  ∀ i : Fin 3, b.bmin i ≤ p i ∧ p i ≤ b.bmax i

instance (b : BBox) (p : Vec3) : Decidable (b.mem p) := by
  unfold BBox.mem; infer_instance

/-- Box `inner` is contained componentwise in box `outer`
(`outer.min ≤ inner.min` and `inner.max ≤ outer.max`). -/
def BBox.containedIn (inner outer : BBox) : Prop :=
  ∀ i : Fin 3, outer.bmin i ≤ inner.bmin i ∧ inner.bmax i ≤ outer.bmax i

instance (a b : BBox) : Decidable (a.containedIn b) := by
  unfold BBox.containedIn; infer_instance

/-! ## Floats with NaN (for the NaN-safety claim about `BoundBox::grow`)

`BoundBox::grow` is documented (`boundbox.h:37`) to rely on the argument
order of `ccl::min`/`ccl::max` so that a NaN point component does not
influence the box.  To state that claim we refine the scalar model to a
rational with an explicit NaN, with every comparison against NaN false,
as in IEEE-754. -/

/-- A `float` as used by `BoundBox::grow`: either NaN or a (rational) value. -/
inductive F where
  | nan : F
  | val : ℚ → F
deriving DecidableEq

/-- IEEE `<` : any comparison involving NaN is false. -/
def F.lt : F → F → Prop
  | F.val a, F.val b => a < b
  | _, _ => False

instance : ∀ a b : F, Decidable (F.lt a b)
  | F.nan, _ => isFalse (fun h => h)
  | F.val _, F.nan => isFalse (fun h => h)
  | F.val a, F.val b => if h : a < b then isTrue h else isFalse h

/-- IEEE addition: NaN absorbs. -/
def F.add : F → F → F
  | F.val a, F.val b => F.val (a + b)
  | _, _ => F.nan

/-- IEEE subtraction: NaN absorbs. -/
def F.sub : F → F → F
  | F.val a, F.val b => F.val (a - b)
  | _, _ => F.nan

/-- Scalar `ccl::min` on floats.  Modelled from the spec: `util/math.h` is
absent from the tree; the spec ("grow uses NaN-safe min/max so a bad point
is ignored rather than poisoning the box") together with the argument-order
comment in `boundbox.h` fixes it as `(a < b) ? a : b`. -/
def F.fmin (a b : F) : F := if F.lt a b then a else b

/-- Scalar `ccl::max` on floats, `(a > b) ? a : b` (see `F.fmin`). -/
def F.fmax (a b : F) : F := if F.lt b a then a else b

/-- `float3` over floats-with-NaN. -/
def FVec3 : Type := Fin 3 → F

instance : DecidableEq FVec3 := by unfold FVec3; infer_instance

/-- Componentwise float `min`. -/
def fvmin (a b : FVec3) : FVec3 := fun i => F.fmin (a i) (b i)

/-- Componentwise float `max`. -/
def fvmax (a b : FVec3) : FVec3 := fun i => F.fmax (a i) (b i)

/-- Componentwise float vector sum. -/
def fvadd (a b : FVec3) : FVec3 := fun i => F.add (a i) (b i)

/-- Componentwise float vector difference. -/
def fvsub (a b : FVec3) : FVec3 := fun i => F.sub (a i) (b i)

/-- `BoundBox` over floats-with-NaN. -/
structure FBox where
  bmin : FVec3
  bmax : FVec3
deriving DecidableEq

/-- `BoundBox::grow(const float3 &pt)`: note the argument order,
`min = ccl::min(pt, min)` and `max = ccl::max(pt, max)` (`boundbox.h:35`). -/
def FBox.grow (b : FBox) (pt : FVec3) : FBox :=
  ⟨fvmin pt b.bmin, fvmax pt b.bmax⟩

/-- `BoundBox::grow(const float3 &pt, float border)` (`boundbox.h:43`). -/
def FBox.growBorder (b : FBox) (pt : FVec3) (border : F) : FBox :=
  let shift : FVec3 := fun _ => border
  ⟨fvmin (fvsub pt shift) b.bmin, fvmax (fvadd pt shift) b.bmax⟩

/-- `BoundBox::grow(const BoundBox &bbox)` (`boundbox.h:50`). -/
def FBox.growBox (b other : FBox) : FBox :=
  ⟨fvmin other.bmin b.bmin, fvmax other.bmax b.bmax⟩

/-- **C8.** For every `BoundBox` and every grow operation
(`BoundBox::grow(pt)`, `grow(pt, border)`, `grow(bbox)`), an argument with a
NaN component never corrupts the result: the argument order of the NaN-safe
`min`/`max` makes the NaN component be ignored, leaving the corresponding
component of the box unchanged. -/
theorem grow_nan_component_ignored (b other : FBox) (pt : FVec3) (border : F)
    (i : Fin 3) (hpt : pt i = F.nan)
    (hmin : other.bmin i = F.nan) (hmax : other.bmax i = F.nan) :
    ((b.grow pt).bmin i = b.bmin i ∧ (b.grow pt).bmax i = b.bmax i) ∧
    ((b.growBorder pt border).bmin i = b.bmin i ∧
      (b.growBorder pt border).bmax i = b.bmax i) ∧
    ((b.growBox other).bmin i = b.bmin i ∧ (b.growBox other).bmax i = b.bmax i) := by
  refine ⟨⟨?_, ?_⟩, ⟨?_, ?_⟩, ⟨?_, ?_⟩⟩ <;>
    simp only [FBox.grow, FBox.growBorder, FBox.growBox,
      fvmin, fvmax, fvadd, fvsub, hpt, hmin, hmax] <;>
    cases border <;> simp [F.fmin, F.fmax, F.add, F.sub, F.lt]

/-- Witness for `grow_nan_component_ignored` at a concrete box and a point
whose `x` component is NaN. -/
theorem grow_nan_component_ignored_witness :
    (let b : FBox := ⟨fun _ => F.val 0, fun _ => F.val 1⟩
     let other : FBox := ⟨fun _ => F.nan, fun _ => F.nan⟩
     let pt : FVec3 := fun i => if i = 0 then F.nan else F.val 5
     pt 0 = F.nan ∧ other.bmin 0 = F.nan ∧ other.bmax 0 = F.nan ∧
     (((b.grow pt).bmin 0 = b.bmin 0 ∧ (b.grow pt).bmax 0 = b.bmax 0) ∧
      ((b.growBorder pt (F.val 2)).bmin 0 = b.bmin 0 ∧
        (b.growBorder pt (F.val 2)).bmax 0 = b.bmax 0) ∧
      ((b.growBox other).bmin 0 = b.bmin 0 ∧ (b.growBox other).bmax 0 = b.bmax 0))) :=
  ⟨by decide, by decide, by decide,
    grow_nan_component_ignored _ _ _ (F.val 2) 0 (by decide) (by decide) (by decide)⟩

/-! ## `BVHSpatialSplit::split_reference` (`bvh/split.cpp`)

The reference-clipping kernel of the spatial split.  `split_reference`
dispatches on the primitive kind and computes the clipped left/right bounds
from the primitive's geometry, then clamps both to the split plane and
intersects them with the original reference bounds.  We model the three leaf
primitive kinds (triangle, curve segment, point); the object-instance branch
merely folds the same three kernels over the instanced geometry's primitives.
The embedding fixes the `aligned_space_ == nullptr` path, in which
`get_unaligned_point` is the identity. -/

/-- Scalar `clamp(a, mn, mx)`.  Modelled from the spec: the helper lives in
the absent `util/math.h`; the standard meaning `min(max(a, mn), mx)` is used. -/
def qclamp (a mn mx : ℚ) : ℚ := cclmin (cclmax a mn) mx

/-- `mix(a, b, t) = a + t * (b - a)` on `float3`.  Modelled from the spec:
the helper lives in the absent `util/math.h`; linear interpolation is the
only reading consistent with its use for edge/plane intersection. -/
def vmix (a b : Vec3) (t : ℚ) : Vec3 := vadd a (smul t (vsub b a))

/-- A primitive as seen by the clipping kernels: a triangle's three vertices,
a curve segment's two keys (plus its radius, which the clip ignores), or a
point with its radius. -/
inductive Prim where
  | tri (v : Fin 3 → Vec3)
  | curve (v0 v1 : Vec3) (radius : ℚ)
  | point (center : Vec3) (radius : ℚ)

/-- One iteration of the edge loop of
`BVHSpatialSplit::split_triangle_primitive`: grow the boxes with the edge
source vertex according to its side, and with the edge/plane intersection
point when the edge straddles the plane. -/
def splitTriEdge (dim : Fin 3) (pos : ℚ) (v0 v1 : Vec3) (s : BBox × BBox) :
    BBox × BBox :=
  let v0p := v0 dim
  let v1p := v1 dim
  let lb := if v0p ≤ pos then s.1.grow v0 else s.1
  let rb := if v0p ≥ pos then s.2.grow v0 else s.2
  if (v0p < pos ∧ v1p > pos) ∨ (v0p > pos ∧ v1p < pos) then
    let t := vmix v0 v1 (qclamp ((pos - v0p) / (v1p - v0p)) 0 1)
    (lb.grow t, rb.grow t)
  else
    (lb, rb)

/-- `BVHSpatialSplit::split_triangle_primitive` (null transform): the edge
loop visits edges `v2→v0`, `v0→v1`, `v1→v2`. -/
def split_triangle_primitive (v : Fin 3 → Vec3) (dim : Fin 3) (pos : ℚ)
    (lb rb : BBox) : BBox × BBox :=
  splitTriEdge dim pos (v 1) (v 2)
    (splitTriEdge dim pos (v 0) (v 1)
      (splitTriEdge dim pos (v 2) (v 0) (lb, rb)))

/-- `BVHSpatialSplit::split_curve_primitive` (null transform).  NOTE of the
source: "Currently ignores curve width". -/
def split_curve_primitive (v0 v1 : Vec3) (dim : Fin 3) (pos : ℚ)
    (lb rb : BBox) : BBox × BBox :=
  let v0p := v0 dim
  let v1p := v1 dim
  let lb := if v0p ≤ pos then lb.grow v0 else lb
  let rb := if v0p ≥ pos then rb.grow v0 else rb
  let lb := if v1p ≤ pos then lb.grow v1 else lb
  let rb := if v1p ≥ pos then rb.grow v1 else rb
  if (v0p < pos ∧ v1p > pos) ∨ (v0p > pos ∧ v1p < pos) then
    let t := vmix v0 v1 (qclamp ((pos - v0p) / (v1p - v0p)) 0 1)
    (lb.grow t, rb.grow t)
  else
    (lb, rb)

/-- `BVHSpatialSplit::split_point_primitive` (null transform): points are
never clipped, only classified by their center. -/
def split_point_primitive (center : Vec3) (radius : ℚ) (dim : Fin 3) (pos : ℚ)
    (lb rb : BBox) : BBox × BBox :=
  let lb := if center dim ≤ pos then lb.growBorder center radius else lb
  let rb := if center dim ≥ pos then rb.growBorder center radius else rb
  (lb, rb)

/-- Dispatch of `BVHSpatialSplit::split_reference` on the primitive kind
(the geometry lookup through `builder.objects[ref.prim_object()]` is inlined
into the `Prim` argument). -/
def splitPrimDispatch (p : Prim) (dim : Fin 3) (pos : ℚ) (lb rb : BBox) :
    BBox × BBox :=
  match p with
  | Prim.tri v => split_triangle_primitive v dim pos lb rb
  | Prim.curve v0 v1 _ => split_curve_primitive v0 v1 dim pos lb rb
  | Prim.point c r => split_point_primitive c r dim pos lb rb

/-- `BVHSpatialSplit::split_reference`: clip from empty boxes, clamp each
side to the split plane (`left_bounds.max[dim] = pos`,
`right_bounds.min[dim] = pos`), then intersect with the original reference
bounds.  Returns the bounds of the left and right output references. -/
def split_reference (p : Prim) (refBounds : BBox) (dim : Fin 3) (pos : ℚ) :
    BBox × BBox :=
  let clipped := splitPrimDispatch p dim pos BBox.empty BBox.empty
  let lb : BBox := ⟨clipped.1.bmin, Function.update clipped.1.bmax dim pos⟩
  let rb : BBox := ⟨Function.update clipped.2.bmin dim pos, clipped.2.bmax⟩
  (lb.intersect refBounds, rb.intersect refBounds)

/-- **C10.** After `split_reference` at axis `dim` and position `pos`, the
left output reference's bounds satisfy `max[dim] ≤ pos` and the right output
reference's bounds satisfy `min[dim] ≥ pos`: the clamp of each side to the
split plane is applied before intersecting with the original bounds, so the
two halves never extend past the split plane on the split axis. -/
theorem split_reference_respects_plane (p : Prim) (refBounds : BBox)
    (dim : Fin 3) (pos : ℚ) :
    (split_reference p refBounds dim pos).1.bmax dim ≤ pos ∧
    pos ≤ (split_reference p refBounds dim pos).2.bmin dim := by
  simp only [split_reference, BBox.intersect, vmin, vmax]
  constructor
  · rw [cclmin_eq_min, Function.update_same]
    exact min_le_left _ _
  · rw [cclmax_eq_max, Function.update_same]
    exact le_max_left _ _

/-! ### Membership and convexity toolbox for the clipping proof -/

theorem BBox.mem_grow_self (b : BBox) (p : Vec3) : (b.grow p).mem p := by
  intro i
  simp only [BBox.grow, vmin, vmax, cclmin_eq_min, cclmax_eq_max]
  exact ⟨min_le_left _ _, le_max_left _ _⟩

theorem BBox.mem_grow_mono (b : BBox) (p q : Vec3) (h : b.mem q) :
    (b.grow p).mem q := by
  intro i
  simp only [BBox.grow, vmin, vmax, cclmin_eq_min, cclmax_eq_max]
  exact ⟨le_trans (min_le_right _ _) (h i).1, le_trans (h i).2 (le_max_right _ _)⟩

theorem BBox.mem_intersect (a b : BBox) (p : Vec3) (ha : a.mem p) (hb : b.mem p) :
    (a.intersect b).mem p := by
  intro i
  simp only [BBox.intersect, vmin, vmax, cclmin_eq_min, cclmax_eq_max]
  exact ⟨max_le (ha i).1 (hb i).1, le_min (ha i).2 (hb i).2⟩

theorem BBox.mem_congr (b : BBox) (p q : Vec3) (h : ∀ j, p j = q j)
    (hp : b.mem p) : b.mem q := by
  intro i
  rw [← h i]
  exact hp i

/-- Membership survives clamping the `dim` upper bound to `pos` when the
point is on the left of the plane. -/
theorem BBox.mem_clampMax (b : BBox) (p : Vec3) (d : Fin 3) (pos : ℚ)
    (h : b.mem p) (hp : p d ≤ pos) :
    (BBox.mk b.bmin (Function.update b.bmax d pos)).mem p := by
  intro i
  refine ⟨(h i).1, ?_⟩
  show p i ≤ Function.update b.bmax d pos i
  by_cases hi : i = d
  · subst hi; rw [Function.update_same]; exact hp
  · rw [Function.update_noteq hi]; exact (h i).2

/-- Membership survives clamping the `dim` lower bound to `pos` when the
point is on the right of the plane. -/
theorem BBox.mem_clampMin (b : BBox) (p : Vec3) (d : Fin 3) (pos : ℚ)
    (h : b.mem p) (hp : pos ≤ p d) :
    (BBox.mk (Function.update b.bmin d pos) b.bmax).mem p := by
  intro i
  refine ⟨?_, (h i).2⟩
  show Function.update b.bmin d pos i ≤ p i
  by_cases hi : i = d
  · subst hi; rw [Function.update_same]; exact hp
  · rw [Function.update_noteq hi]; exact (h i).1

/-- Convex combination of three points, componentwise. -/
def tcomb (a b c : ℚ) (u v w : Vec3) : Vec3 :=
  fun j => a * u j + b * v j + c * w j

/-- Convex combination of four points, componentwise. -/
def qcomb (a b c d : ℚ) (u v w x : Vec3) : Vec3 :=
  fun j => a * u j + b * v j + c * w j + d * x j

/-- A box contains every convex combination of four contained points. -/
theorem BBox.mem_qcomb (bx : BBox) (u v w x : Vec3) (a b c d : ℚ)
    (ha : 0 ≤ a) (hb : 0 ≤ b) (hc : 0 ≤ c) (hd : 0 ≤ d)
    (hsum : a + b + c + d = 1)
    (hu : bx.mem u) (hv : bx.mem v) (hw : bx.mem w) (hx : bx.mem x) :
    bx.mem (qcomb a b c d u v w x) := by
  intro i
  constructor
  · have : bx.bmin i = a * bx.bmin i + b * bx.bmin i + c * bx.bmin i + d * bx.bmin i := by
      rw [← add_mul, ← add_mul, ← add_mul, hsum, one_mul]
    rw [this]
    exact add_le_add (add_le_add (add_le_add
      (mul_le_mul_of_nonneg_left (hu i).1 ha)
      (mul_le_mul_of_nonneg_left (hv i).1 hb))
      (mul_le_mul_of_nonneg_left (hw i).1 hc))
      (mul_le_mul_of_nonneg_left (hx i).1 hd)
  · have : bx.bmax i = a * bx.bmax i + b * bx.bmax i + c * bx.bmax i + d * bx.bmax i := by
      rw [← add_mul, ← add_mul, ← add_mul, hsum, one_mul]
    rw [this]
    exact add_le_add (add_le_add (add_le_add
      (mul_le_mul_of_nonneg_left (hu i).2 ha)
      (mul_le_mul_of_nonneg_left (hv i).2 hb))
      (mul_le_mul_of_nonneg_left (hw i).2 hc))
      (mul_le_mul_of_nonneg_left (hx i).2 hd)

/-- A box contains every convex combination of three contained points. -/
theorem BBox.mem_tcomb (bx : BBox) (u v w : Vec3) (a b c : ℚ)
    (ha : 0 ≤ a) (hb : 0 ≤ b) (hc : 0 ≤ c) (hsum : a + b + c = 1)
    (hu : bx.mem u) (hv : bx.mem v) (hw : bx.mem w) :
    bx.mem (tcomb a b c u v w) := by
  have h := bx.mem_qcomb u v w w a b c 0 ha hb hc le_rfl (by linarith) hu hv hw hw
  exact bx.mem_congr _ _ (fun j => by simp [qcomb, tcomb]) h

/-! ### What the triangle edge loop grows into each side -/

theorem splitTriEdge_mono_left (d : Fin 3) (pos : ℚ) (a b : Vec3)
    (s : BBox × BBox) (q : Vec3) (h : s.1.mem q) :
    (splitTriEdge d pos a b s).1.mem q := by
  simp only [splitTriEdge]
  split_ifs <;>
    first
    | exact h
    | exact BBox.mem_grow_mono _ _ _ h
    | exact BBox.mem_grow_mono _ _ _ (BBox.mem_grow_mono _ _ _ h)

theorem splitTriEdge_mono_right (d : Fin 3) (pos : ℚ) (a b : Vec3)
    (s : BBox × BBox) (q : Vec3) (h : s.2.mem q) :
    (splitTriEdge d pos a b s).2.mem q := by
  simp only [splitTriEdge]
  split_ifs <;>
    first
    | exact h
    | exact BBox.mem_grow_mono _ _ _ h
    | exact BBox.mem_grow_mono _ _ _ (BBox.mem_grow_mono _ _ _ h)

theorem splitTriEdge_left_self (d : Fin 3) (pos : ℚ) (a b : Vec3)
    (s : BBox × BBox) (h : a d ≤ pos) :
    (splitTriEdge d pos a b s).1.mem a := by
  simp only [splitTriEdge, if_pos h]
  by_cases hs : (a d < pos ∧ b d > pos) ∨ (a d > pos ∧ b d < pos)
  · simp only [if_pos hs]
    exact BBox.mem_grow_mono _ _ _ (BBox.mem_grow_self _ _)
  · simp only [if_neg hs]
    exact BBox.mem_grow_self _ _

theorem splitTriEdge_right_self (d : Fin 3) (pos : ℚ) (a b : Vec3)
    (s : BBox × BBox) (h : a d ≥ pos) :
    (splitTriEdge d pos a b s).2.mem a := by
  simp only [splitTriEdge, if_pos h]
  by_cases hs : (a d < pos ∧ b d > pos) ∨ (a d > pos ∧ b d < pos)
  · simp only [if_pos hs]
    exact BBox.mem_grow_mono _ _ _ (BBox.mem_grow_self _ _)
  · simp only [if_neg hs]
    exact BBox.mem_grow_self _ _

theorem splitTriEdge_edgepoint (d : Fin 3) (pos : ℚ) (a b : Vec3)
    (s : BBox × BBox)
    (h : (a d < pos ∧ b d > pos) ∨ (a d > pos ∧ b d < pos)) :
    (splitTriEdge d pos a b s).1.mem
        (vmix a b (qclamp ((pos - a d) / (b d - a d)) 0 1)) ∧
    (splitTriEdge d pos a b s).2.mem
        (vmix a b (qclamp ((pos - a d) / (b d - a d)) 0 1)) := by
  simp only [splitTriEdge, if_pos h]
  constructor <;> split_ifs <;> exact BBox.mem_grow_self _ _

/-- `clamp(x, 0, 1)` is the identity on `[0, 1]`. -/
theorem qclamp_of_unit (x : ℚ) (h0 : 0 ≤ x) (h1 : x ≤ 1) : qclamp x 0 1 = x := by
  simp only [qclamp, cclmin_eq_min, cclmax_eq_max]
  rw [max_eq_left h0, min_eq_left h1]

theorem vmix_rev (a b : Vec3) (t : ℚ) : vmix a b t = vmix b a (1 - t) := by
  funext j
  simp only [vmix, vadd, smul, vsub]
  ring

/-- The edge/plane parameter computed by the code lies in `[0, 1]` for a
strictly straddling edge, and the clamp is the identity there. -/
theorem straddle_param_unit (ad bd pos : ℚ) (h : ad < pos) (h' : pos < bd) :
    qclamp ((pos - ad) / (bd - ad)) 0 1 = (pos - ad) / (bd - ad) := by
  have hd : 0 < bd - ad := by linarith
  refine qclamp_of_unit _ (div_nonneg (by linarith) (le_of_lt hd)) ?_
  rw [div_le_one hd]
  linarith

/-- Reversing the straddling edge yields the same intersection point. -/
theorem straddle_point_rev (a b : Vec3) (d : Fin 3) (pos : ℚ)
    (h : b d < pos) (h' : pos < a d) :
    vmix a b (qclamp ((pos - a d) / (b d - a d)) 0 1) =
      vmix b a ((pos - b d) / (a d - b d)) := by
  have hd : b d - a d < 0 := by linarith
  have hd' : b d - a d ≠ 0 := ne_of_lt hd
  have ha' : a d - b d ≠ 0 := by intro hz; apply hd'; linarith
  have h0 : 0 ≤ (pos - a d) / (b d - a d) :=
    div_nonneg_iff.mpr (Or.inr ⟨by linarith, le_of_lt hd⟩)
  have h1 : (pos - a d) / (b d - a d) ≤ 1 := by
    rw [div_le_one_iff]
    exact Or.inr (Or.inr ⟨hd, by linarith⟩)
  rw [qclamp_of_unit _ h0 h1, vmix_rev]
  have hp : 1 - (pos - a d) / (b d - a d) = (pos - b d) / (a d - b d) := by
    field_simp
    ring
  rw [hp]

/-- The edge/plane intersection point, referred from its left endpoint. -/
def edgePoint (a b : Vec3) (d : Fin 3) (pos : ℚ) : Vec3 :=
  vmix a b ((pos - a d) / (b d - a d))

theorem fin3_cases (k : Fin 3) : k = 0 ∨ k = 1 ∨ k = 2 := by
  revert k
  decide

theorem tri_left_mem_vertex (v : Fin 3 → Vec3) (d : Fin 3) (pos : ℚ)
    (lb rb : BBox) (k : Fin 3) (h : v k d ≤ pos) :
    (split_triangle_primitive v d pos lb rb).1.mem (v k) := by
  unfold split_triangle_primitive
  rcases fin3_cases k with rfl | rfl | rfl
  · exact splitTriEdge_mono_left _ _ _ _ _ _ (splitTriEdge_left_self _ _ _ _ _ h)
  · exact splitTriEdge_left_self _ _ _ _ _ h
  · exact splitTriEdge_mono_left _ _ _ _ _ _
      (splitTriEdge_mono_left _ _ _ _ _ _ (splitTriEdge_left_self _ _ _ _ _ h))

theorem tri_right_mem_vertex (v : Fin 3 → Vec3) (d : Fin 3) (pos : ℚ)
    (lb rb : BBox) (k : Fin 3) (h : v k d ≥ pos) :
    (split_triangle_primitive v d pos lb rb).2.mem (v k) := by
  unfold split_triangle_primitive
  rcases fin3_cases k with rfl | rfl | rfl
  · exact splitTriEdge_mono_right _ _ _ _ _ _ (splitTriEdge_right_self _ _ _ _ _ h)
  · exact splitTriEdge_right_self _ _ _ _ _ h
  · exact splitTriEdge_mono_right _ _ _ _ _ _
      (splitTriEdge_mono_right _ _ _ _ _ _ (splitTriEdge_right_self _ _ _ _ _ h))

theorem tri_mem_edgepoint (v : Fin 3 → Vec3) (d : Fin 3) (pos : ℚ)
    (lb rb : BBox) (k l : Fin 3) (hk : v k d < pos) (hl : pos < v l d) :
    (split_triangle_primitive v d pos lb rb).1.mem (edgePoint (v k) (v l) d pos) ∧
    (split_triangle_primitive v d pos lb rb).2.mem (edgePoint (v k) (v l) d pos) := by
  unfold split_triangle_primitive edgePoint
  rcases fin3_cases k with rfl | rfl | rfl <;> rcases fin3_cases l with rfl | rfl | rfl
  · exact absurd (lt_trans hk hl) (lt_irrefl _)
  · -- edge v0 → v1, forward
    have h := splitTriEdge_edgepoint d pos (v 0) (v 1)
      (splitTriEdge d pos (v 2) (v 0) (lb, rb)) (Or.inl ⟨hk, hl⟩)
    rw [straddle_param_unit _ _ _ hk hl] at h
    exact ⟨splitTriEdge_mono_left _ _ _ _ _ _ h.1,
      splitTriEdge_mono_right _ _ _ _ _ _ h.2⟩
  · -- edge v2 → v0, backward (v0 left, v2 right)
    have h := splitTriEdge_edgepoint d pos (v 2) (v 0) (lb, rb) (Or.inr ⟨hl, hk⟩)
    rw [straddle_point_rev _ _ _ _ hk hl] at h
    exact ⟨splitTriEdge_mono_left _ _ _ _ _ _
        (splitTriEdge_mono_left _ _ _ _ _ _ h.1),
      splitTriEdge_mono_right _ _ _ _ _ _
        (splitTriEdge_mono_right _ _ _ _ _ _ h.2)⟩
  · -- edge v0 → v1, backward (v1 left, v0 right)
    have h := splitTriEdge_edgepoint d pos (v 0) (v 1)
      (splitTriEdge d pos (v 2) (v 0) (lb, rb)) (Or.inr ⟨hl, hk⟩)
    rw [straddle_point_rev _ _ _ _ hk hl] at h
    exact ⟨splitTriEdge_mono_left _ _ _ _ _ _ h.1,
      splitTriEdge_mono_right _ _ _ _ _ _ h.2⟩
  · exact absurd (lt_trans hk hl) (lt_irrefl _)
  · -- edge v1 → v2, forward
    have h := splitTriEdge_edgepoint d pos (v 1) (v 2)
      (splitTriEdge d pos (v 0) (v 1)
        (splitTriEdge d pos (v 2) (v 0) (lb, rb))) (Or.inl ⟨hk, hl⟩)
    rw [straddle_param_unit _ _ _ hk hl] at h
    exact h
  · -- edge v2 → v0, forward
    have h := splitTriEdge_edgepoint d pos (v 2) (v 0) (lb, rb) (Or.inl ⟨hk, hl⟩)
    rw [straddle_param_unit _ _ _ hk hl] at h
    exact ⟨splitTriEdge_mono_left _ _ _ _ _ _
        (splitTriEdge_mono_left _ _ _ _ _ _ h.1),
      splitTriEdge_mono_right _ _ _ _ _ _
        (splitTriEdge_mono_right _ _ _ _ _ _ h.2)⟩
  · -- edge v1 → v2, backward (v2 left, v1 right)
    have h := splitTriEdge_edgepoint d pos (v 1) (v 2)
      (splitTriEdge d pos (v 0) (v 1)
        (splitTriEdge d pos (v 2) (v 0) (lb, rb))) (Or.inr ⟨hl, hk⟩)
    rw [straddle_point_rev _ _ _ _ hk hl] at h
    exact h
  · exact absurd (lt_trans hk hl) (lt_irrefl _)

/-! ### Covering the clipped half of the triangle

`cover_one_left` and `cover_two_left` show that any point of the triangle on
the left of the plane is a convex combination of points grown into the left
box (the left vertices and the edge/plane intersection points), and hence is
inside that box. -/

theorem cover_one_left (bx : BBox) (d : Fin 3) (pos : ℚ) (a b c : Vec3)
    (ca cb cc : ℚ) (hca : 0 ≤ ca) (hcb : 0 ≤ cb) (hcc : 0 ≤ cc)
    (hsum : ca + cb + cc = 1)
    (had : a d ≤ pos) (hbd : pos < b d) (hcd : pos < c d)
    (hpd : ca * a d + cb * b d + cc * c d ≤ pos)
    (hma : bx.mem a)
    (hIb : a d < pos → bx.mem (edgePoint a b d pos))
    (hIc : a d < pos → bx.mem (edgePoint a c d pos)) :
    bx.mem (tcomb ca cb cc a b c) := by
  have hca' : ca = 1 - cb - cc := by linarith
  by_cases hstrict : a d < pos
  · -- route the right-vertex weights through the two edge intersections
    have hu : (0:ℚ) < pos - a d := by linarith
    have hdb : (0:ℚ) < b d - a d := by linarith
    have hdc : (0:ℚ) < c d - a d := by linarith
    have hu0 : pos - a d ≠ 0 := ne_of_gt hu
    have hdb0 : b d - a d ≠ 0 := ne_of_gt hdb
    have hdc0 : c d - a d ≠ 0 := ne_of_gt hdc
    set x1 : ℚ := cb * (b d - a d) / (pos - a d) with hx1
    set x2 : ℚ := cc * (c d - a d) / (pos - a d) with hx2
    have hx1n : 0 ≤ x1 := div_nonneg (mul_nonneg hcb (le_of_lt hdb)) (le_of_lt hu)
    have hx2n : 0 ≤ x2 := div_nonneg (mul_nonneg hcc (le_of_lt hdc)) (le_of_lt hu)
    have hxa : 0 ≤ 1 - x1 - x2 := by
      have hsum12 : x1 + x2 = (cb * (b d - a d) + cc * (c d - a d)) / (pos - a d) :=
        div_add_div_same _ _ _
      have hpd' : (1 - cb - cc) * a d + cb * b d + cc * c d ≤ pos := by
        rw [← hca']; exact hpd
      have hle : (cb * (b d - a d) + cc * (c d - a d)) / (pos - a d) ≤ 1 := by
        rw [div_le_one hu]
        linarith [hpd']
      linarith [hsum12 ▸ hle]
    have hm := bx.mem_tcomb a (edgePoint a b d pos) (edgePoint a c d pos)
      (1 - x1 - x2) x1 x2 hxa hx1n hx2n (by ring) hma (hIb hstrict) (hIc hstrict)
    refine bx.mem_congr _ _ (fun j => ?_) hm
    simp only [tcomb, edgePoint, vmix, vadd, smul, vsub, hx1, hx2, hca']
    field_simp
    ring
  · -- the left vertex is on the plane: the right-vertex weights must vanish
    have haeq : a d = pos := le_antisymm had (not_lt.mp hstrict)
    have h1 : 0 ≤ cb * (b d - pos) := mul_nonneg hcb (by linarith)
    have h2 : 0 ≤ cc * (c d - pos) := mul_nonneg hcc (by linarith)
    have hze : cb * (b d - pos) + cc * (c d - pos) ≤ 0 := by
      have hpd2 := hpd
      rw [haeq] at hpd2
      have hpd3 : (1 - cb - cc) * pos + cb * b d + cc * c d ≤ pos := by
        rw [← hca']; exact hpd2
      linarith [hpd3]
    have hb0 : cb = 0 := by
      rcases mul_eq_zero.mp (le_antisymm (by linarith) h1) with h | h
      · exact h
      · exact absurd h (by intro hz; linarith)
    have hc0 : cc = 0 := by
      rcases mul_eq_zero.mp (le_antisymm (by linarith) h2) with h | h
      · exact h
      · exact absurd h (by intro hz; linarith)
    refine bx.mem_congr a _ (fun j => ?_) hma
    simp only [tcomb, hb0, hc0]
    have : ca = 1 := by linarith
    rw [this]
    ring

theorem cover_two_left (bx : BBox) (d : Fin 3) (pos : ℚ) (a b c : Vec3)
    (ca cb cc : ℚ) (hca : 0 ≤ ca) (hcb : 0 ≤ cb) (hcc : 0 ≤ cc)
    (hsum : ca + cb + cc = 1)
    (had : a d ≤ pos) (hbd : b d ≤ pos) (hcd : pos < c d)
    (hpd : ca * a d + cb * b d + cc * c d ≤ pos)
    (hma : bx.mem a) (hmb : bx.mem b)
    (hIa : a d < pos → bx.mem (edgePoint a c d pos))
    (hIb : b d < pos → bx.mem (edgePoint b c d pos)) :
    bx.mem (tcomb ca cb cc a b c) := by
  have hcc' : cc = 1 - ca - cb := by linarith
  by_cases haS : a d < pos
  · by_cases hbS : b d < pos
    · -- both left vertices strictly off the plane
      have hdca : (0:ℚ) < c d - a d := by linarith
      have hdcb : (0:ℚ) < c d - b d := by linarith
      have hDn : 0 ≤ ca * (pos - a d) + cb * (pos - b d) :=
        add_nonneg (mul_nonneg hca (by linarith)) (mul_nonneg hcb (by linarith))
      by_cases hD0 : ca * (pos - a d) + cb * (pos - b d) = 0
      · -- degenerate: all weight on the right vertex, contradiction
        have h1 : ca * (pos - a d) = 0 := by
          nlinarith [mul_nonneg hca (by linarith : (0:ℚ) ≤ pos - a d),
            mul_nonneg hcb (by linarith : (0:ℚ) ≤ pos - b d)]
        have h2 : cb * (pos - b d) = 0 := by linarith
        have hca0 : ca = 0 := by
          rcases mul_eq_zero.mp h1 with h | h
          · exact h
          · exact absurd h (by intro hz; linarith)
        have hcb0 : cb = 0 := by
          rcases mul_eq_zero.mp h2 with h | h
          · exact h
          · exact absurd h (by intro hz; linarith)
        have hc1 : cc = 1 := by rw [hca0, hcb0] at hsum; linarith
        rw [hca0, hcb0, hc1] at hpd
        exact absurd hpd (by push_neg; linarith [hcd])
      · have hD : 0 < ca * (pos - a d) + cb * (pos - b d) := lt_of_le_of_ne hDn (Ne.symm hD0)
        have hP : 0 ≤ pos - (ca * a d + cb * b d + cc * c d) := by linarith
        have hm := bx.mem_qcomb a b (edgePoint a c d pos) (edgePoint b c d pos)
          (ca * (pos - (ca * a d + cb * b d + cc * c d)) /
            (ca * (pos - a d) + cb * (pos - b d)))
          (cb * (pos - (ca * a d + cb * b d + cc * c d)) /
            (ca * (pos - a d) + cb * (pos - b d)))
          (ca * cc * (c d - a d) / (ca * (pos - a d) + cb * (pos - b d)))
          (cb * cc * (c d - b d) / (ca * (pos - a d) + cb * (pos - b d)))
          (div_nonneg (mul_nonneg hca hP) (le_of_lt hD))
          (div_nonneg (mul_nonneg hcb hP) (le_of_lt hD))
          (div_nonneg (mul_nonneg (mul_nonneg hca hcc) (le_of_lt hdca)) (le_of_lt hD))
          (div_nonneg (mul_nonneg (mul_nonneg hcb hcc) (le_of_lt hdcb)) (le_of_lt hD))
          (by rw [hcc']; field_simp; ring)
          hma hmb (hIa haS) (hIb hbS)
        refine bx.mem_congr _ _ (fun j => ?_) hm
        simp only [qcomb, tcomb, edgePoint, vmix, vadd, smul, vsub]
        rw [hcc']
        field_simp
        ring
    · -- `b` sits exactly on the plane
      have hbeq : b d = pos := le_antisymm hbd (not_lt.mp hbS)
      have hu : (0:ℚ) < pos - a d := by linarith
      have hdca : (0:ℚ) < c d - a d := by linarith
      have hxa : 0 ≤ ca - cc * (c d - pos) / (pos - a d) := by
        have hpd2 := hpd
        rw [hbeq] at hpd2
        have hpd3 : ca * a d + (1 - ca - cb) * c d + cb * pos ≤ pos := by
          rw [← hcc']; linarith [hpd2]
        rw [sub_nonneg, div_le_iff hu]
        have : cc * (c d - pos) = (1 - ca - cb) * (c d - pos) := by rw [hcc']
        rw [this]
        nlinarith [hpd3]
      have hm := bx.mem_tcomb a b (edgePoint a c d pos)
        (ca - cc * (c d - pos) / (pos - a d)) cb (cc * (c d - a d) / (pos - a d))
        hxa hcb
        (div_nonneg (mul_nonneg hcc (le_of_lt hdca)) (le_of_lt hu))
        (by field_simp; linear_combination (pos - a d) * hsum)
        hma hmb (hIa haS)
      refine bx.mem_congr _ _ (fun j => ?_) hm
      simp only [tcomb, edgePoint, vmix, vadd, smul, vsub]
      field_simp
      ring
  · -- `a` sits exactly on the plane
    have haeq : a d = pos := le_antisymm had (not_lt.mp haS)
    by_cases hbS : b d < pos
    · have hu : (0:ℚ) < pos - b d := by linarith
      have hdcb : (0:ℚ) < c d - b d := by linarith
      have hxb : 0 ≤ cb - cc * (c d - pos) / (pos - b d) := by
        have hpd2 := hpd
        rw [haeq] at hpd2
        have hpd3 : cb * b d + (1 - ca - cb) * c d + ca * pos ≤ pos := by
          rw [← hcc']; linarith [hpd2]
        rw [sub_nonneg, div_le_iff hu]
        have : cc * (c d - pos) = (1 - ca - cb) * (c d - pos) := by rw [hcc']
        rw [this]
        nlinarith [hpd3]
      have hm := bx.mem_tcomb a b (edgePoint b c d pos)
        ca (cb - cc * (c d - pos) / (pos - b d)) (cc * (c d - b d) / (pos - b d))
        hca hxb
        (div_nonneg (mul_nonneg hcc (le_of_lt hdcb)) (le_of_lt hu))
        (by field_simp; linear_combination (pos - b d) * hsum)
        hma hmb (hIb hbS)
      refine bx.mem_congr _ _ (fun j => ?_) hm
      simp only [tcomb, edgePoint, vmix, vadd, smul, vsub]
      field_simp
      ring
    · -- both left vertices on the plane: the right-vertex weight vanishes
      have hbeq : b d = pos := le_antisymm hbd (not_lt.mp hbS)
      have hcc0 : cc = 0 := by
        have hpd2 := hpd
        rw [haeq, hbeq] at hpd2
        have hpd3 : ca * pos + cb * pos + (1 - ca - cb) * c d ≤ pos := by
          rw [← hcc']; linarith [hpd2]
        have h1 : 0 ≤ cc * (c d - pos) := mul_nonneg hcc (by linarith)
        have h2 : cc * (c d - pos) ≤ 0 := by
          have : cc * (c d - pos) = (1 - ca - cb) * (c d - pos) := by rw [hcc']
          rw [this]
          nlinarith [hpd3]
        rcases mul_eq_zero.mp (le_antisymm h2 h1) with h | h
        · exact h
        · exact absurd h (by intro hz; linarith)
      have hm := bx.mem_tcomb a b a ca cb 0 hca hcb le_rfl (by linarith) hma hmb hma
      refine bx.mem_congr _ _ (fun j => ?_) hm
      simp only [tcomb, hcc0]
      ring

/-- Any triangle point on the left of the plane is inside a box that
contains the left vertices and the edge/plane intersection points. -/
theorem cover_left (bx : BBox) (d : Fin 3) (pos : ℚ) (V : Fin 3 → Vec3)
    (al be ga : ℚ) (ha : 0 ≤ al) (hb : 0 ≤ be) (hg : 0 ≤ ga)
    (hsum : al + be + ga = 1)
    (hL : ∀ k, V k d ≤ pos → bx.mem (V k))
    (hI : ∀ k l, V k d < pos → pos < V l d → bx.mem (edgePoint (V k) (V l) d pos))
    (hpd : al * V 0 d + be * V 1 d + ga * V 2 d ≤ pos) :
    bx.mem (tcomb al be ga (V 0) (V 1) (V 2)) := by
  by_cases h0 : V 0 d ≤ pos <;> by_cases h1 : V 1 d ≤ pos <;> by_cases h2 : V 2 d ≤ pos
  · exact bx.mem_tcomb _ _ _ _ _ _ ha hb hg hsum (hL 0 h0) (hL 1 h1) (hL 2 h2)
  · -- only V2 on the right
    exact cover_two_left bx d pos (V 0) (V 1) (V 2) al be ga ha hb hg hsum h0 h1
      (not_le.mp h2) hpd (hL 0 h0) (hL 1 h1)
      (fun hs => hI 0 2 hs (not_le.mp h2)) (fun hs => hI 1 2 hs (not_le.mp h2))
  · -- only V1 on the right
    have hm := cover_two_left bx d pos (V 0) (V 2) (V 1) al ga be ha hg hb
      (by linarith) h0 h2 (not_le.mp h1) (by linarith [hpd]) (hL 0 h0) (hL 2 h2)
      (fun hs => hI 0 1 hs (not_le.mp h1)) (fun hs => hI 2 1 hs (not_le.mp h1))
    exact bx.mem_congr _ _ (fun j => by simp only [tcomb]; ring) hm
  · -- V1 and V2 on the right
    exact cover_one_left bx d pos (V 0) (V 1) (V 2) al be ga ha hb hg hsum h0
      (not_le.mp h1) (not_le.mp h2) hpd (hL 0 h0)
      (fun hs => hI 0 1 hs (not_le.mp h1)) (fun hs => hI 0 2 hs (not_le.mp h2))
  · -- only V0 on the right
    have hm := cover_two_left bx d pos (V 1) (V 2) (V 0) be ga al hb hg ha
      (by linarith) h1 h2 (not_le.mp h0) (by linarith [hpd]) (hL 1 h1) (hL 2 h2)
      (fun hs => hI 1 0 hs (not_le.mp h0)) (fun hs => hI 2 0 hs (not_le.mp h0))
    exact bx.mem_congr _ _ (fun j => by simp only [tcomb]; ring) hm
  · -- V0 and V2 on the right
    have hm := cover_one_left bx d pos (V 1) (V 0) (V 2) be al ga hb ha hg
      (by linarith) h1 (not_le.mp h0) (not_le.mp h2) (by linarith [hpd]) (hL 1 h1)
      (fun hs => hI 1 0 hs (not_le.mp h0)) (fun hs => hI 1 2 hs (not_le.mp h2))
    exact bx.mem_congr _ _ (fun j => by simp only [tcomb]; ring) hm
  · -- V0 and V1 on the right
    have hm := cover_one_left bx d pos (V 2) (V 0) (V 1) ga al be hg ha hb
      (by linarith) h2 (not_le.mp h0) (not_le.mp h1) (by linarith [hpd]) (hL 2 h2)
      (fun hs => hI 2 0 hs (not_le.mp h0)) (fun hs => hI 2 1 hs (not_le.mp h1))
    exact bx.mem_congr _ _ (fun j => by simp only [tcomb]; ring) hm
  · -- all three on the right: impossible for a left point
    exfalso
    have e0 : 0 ≤ al * (V 0 d - pos) := mul_nonneg ha (by linarith [not_le.mp h0])
    have e1 : 0 ≤ be * (V 1 d - pos) := mul_nonneg hb (by linarith [not_le.mp h1])
    have e2 : 0 ≤ ga * (V 2 d - pos) := mul_nonneg hg (by linarith [not_le.mp h2])
    have esum : al * (V 0 d - pos) + be * (V 1 d - pos) + ga * (V 2 d - pos) ≤ 0 := by
      have : al * (V 0 d - pos) + be * (V 1 d - pos) + ga * (V 2 d - pos) =
          al * V 0 d + be * V 1 d + ga * V 2 d - (al + be + ga) * pos := by ring
      rw [this, hsum]
      linarith [hpd]
    have z0 : al * (V 0 d - pos) = 0 := by linarith
    have z1 : be * (V 1 d - pos) = 0 := by linarith
    have z2 : ga * (V 2 d - pos) = 0 := by linarith
    have a0 : al = 0 := by
      rcases mul_eq_zero.mp z0 with h | h
      · exact h
      · exact absurd h (by intro hz; linarith [not_le.mp h0])
    have b0 : be = 0 := by
      rcases mul_eq_zero.mp z1 with h | h
      · exact h
      · exact absurd h (by intro hz; linarith [not_le.mp h1])
    have g0 : ga = 0 := by
      rcases mul_eq_zero.mp z2 with h | h
      · exact h
      · exact absurd h (by intro hz; linarith [not_le.mp h2])
    rw [a0, b0, g0] at hsum
    norm_num at hsum

/-! ### Mirror argument for the right half -/

/-- Negate the `d`-th component of a point. -/
def reflV (d : Fin 3) (w : Vec3) : Vec3 := Function.update w d (-(w d))

/-- Negate (and swap) the `d`-th interval of a box. -/
def reflBox (d : Fin 3) (b : BBox) : BBox :=
  ⟨Function.update b.bmin d (-(b.bmax d)), Function.update b.bmax d (-(b.bmin d))⟩

theorem reflV_same (d : Fin 3) (w : Vec3) : reflV d w d = -(w d) :=
  Function.update_same _ _ _

theorem reflV_ne (d j : Fin 3) (w : Vec3) (h : j ≠ d) : reflV d w j = w j :=
  Function.update_noteq h _ _

theorem reflV_reflV (d : Fin 3) (w : Vec3) : reflV d (reflV d w) = w := by
  funext j
  by_cases hj : j = d
  · subst hj
    rw [reflV_same, reflV_same, neg_neg]
  · rw [reflV_ne _ _ _ hj, reflV_ne _ _ _ hj]

theorem mem_reflBox (d : Fin 3) (b : BBox) (q : Vec3) (h : b.mem q) :
    (reflBox d b).mem (reflV d q) := by
  intro j
  by_cases hj : j = d
  · subst hj
    show Function.update b.bmin j (-(b.bmax j)) j ≤ _ ∧ _ ≤ Function.update b.bmax j (-(b.bmin j)) j
    rw [Function.update_same, Function.update_same, reflV_same]
    exact ⟨neg_le_neg (h j).2, neg_le_neg (h j).1⟩
  · show Function.update b.bmin d (-(b.bmax d)) j ≤ _ ∧ _ ≤ Function.update b.bmax d (-(b.bmin d)) j
    rw [Function.update_noteq hj, Function.update_noteq hj, reflV_ne _ _ _ hj]
    exact h j

theorem BBox.ext' (x y : BBox) (h1 : x.bmin = y.bmin) (h2 : x.bmax = y.bmax) :
    x = y := by
  cases x
  cases y
  cases h1
  cases h2
  rfl

theorem reflBox_reflBox (d : Fin 3) (b : BBox) : reflBox d (reflBox d b) = b := by
  refine BBox.ext' _ _ (funext fun j => ?_) (funext fun j => ?_)
  · show Function.update (reflBox d b).bmin d (-((reflBox d b).bmax d)) j = b.bmin j
    by_cases hj : j = d
    · subst hj
      rw [Function.update_same]
      show -(Function.update b.bmax j (-(b.bmin j)) j) = b.bmin j
      rw [Function.update_same, neg_neg]
    · rw [Function.update_noteq hj]
      show Function.update b.bmin d (-(b.bmax d)) j = b.bmin j
      rw [Function.update_noteq hj]
  · show Function.update (reflBox d b).bmax d (-((reflBox d b).bmin d)) j = b.bmax j
    by_cases hj : j = d
    · subst hj
      rw [Function.update_same]
      show -(Function.update b.bmin j (-(b.bmax j)) j) = b.bmax j
      rw [Function.update_same, neg_neg]
    · rw [Function.update_noteq hj]
      show Function.update b.bmax d (-(b.bmin d)) j = b.bmax j
      rw [Function.update_noteq hj]

theorem mem_of_mem_reflBox (d : Fin 3) (b : BBox) (q : Vec3)
    (h : (reflBox d b).mem (reflV d q)) : b.mem q := by
  have h2 := mem_reflBox d (reflBox d b) (reflV d q) h
  rw [reflBox_reflBox, reflV_reflV] at h2
  exact h2

theorem reflV_vmix (d : Fin 3) (a b : Vec3) (t : ℚ) :
    vmix (reflV d a) (reflV d b) t = reflV d (vmix a b t) := by
  funext j
  by_cases hj : j = d
  · subst hj
    rw [reflV_same]
    show reflV j a j + t * (reflV j b j - reflV j a j) = -(vmix a b t j)
    rw [reflV_same, reflV_same]
    show -(a j) + t * (-(b j) - -(a j)) = -(a j + t * (b j - a j))
    ring
  · rw [reflV_ne _ _ _ hj]
    show reflV d a j + t * (reflV d b j - reflV d a j) = vmix a b t j
    rw [reflV_ne _ _ _ hj, reflV_ne _ _ _ hj]
    rfl

theorem reflV_edgePoint (d : Fin 3) (pos : ℚ) (a b : Vec3) :
    edgePoint (reflV d a) (reflV d b) d (-pos) = reflV d (edgePoint a b d pos) := by
  have hparam : (-pos - reflV d a d) / (reflV d b d - reflV d a d) =
      (pos - a d) / (b d - a d) := by
    rw [reflV_same, reflV_same]
    have h1 : -pos - -(a d) = -(pos - a d) := by ring
    have h2 : -(b d) - -(a d) = -(b d - a d) := by ring
    rw [h1, h2, neg_div_neg_eq]
  unfold edgePoint
  rw [hparam, reflV_vmix]

/-- The two orientations of a straddling edge give the same point. -/
theorem edgePoint_comm (a b : Vec3) (d : Fin 3) (pos : ℚ) (h : a d ≠ b d) :
    edgePoint a b d pos = edgePoint b a d pos := by
  have hd : b d - a d ≠ 0 := by intro hz; apply h; linarith
  have hd' : a d - b d ≠ 0 := by intro hz; apply h; linarith
  unfold edgePoint
  rw [vmix_rev]
  have hp : 1 - (pos - a d) / (b d - a d) = (pos - b d) / (a d - b d) := by
    field_simp
    ring
  rw [hp]

/-- Mirror image of `cover_left` for the right half. -/
theorem cover_right (bx : BBox) (d : Fin 3) (pos : ℚ) (V : Fin 3 → Vec3)
    (al be ga : ℚ) (ha : 0 ≤ al) (hb : 0 ≤ be) (hg : 0 ≤ ga)
    (hsum : al + be + ga = 1)
    (hR : ∀ k, pos ≤ V k d → bx.mem (V k))
    (hI : ∀ k l, V k d < pos → pos < V l d → bx.mem (edgePoint (V k) (V l) d pos))
    (hpd : pos ≤ al * V 0 d + be * V 1 d + ga * V 2 d) :
    bx.mem (tcomb al be ga (V 0) (V 1) (V 2)) := by
  have hcov := cover_left (reflBox d bx) d (-pos) (fun k => reflV d (V k))
    al be ga ha hb hg hsum
    (fun k hk => by
      have hk2 : reflV d (V k) d ≤ -pos := hk
      rw [reflV_same] at hk2
      exact mem_reflBox d bx (V k) (hR k (by linarith)))
    (fun k l hk hl => by
      have hk2 : reflV d (V k) d < -pos := hk
      have hl2 : -pos < reflV d (V l) d := hl
      rw [reflV_same] at hk2 hl2
      have hk' : pos < V k d := by linarith
      have hl' : V l d < pos := by linarith
      have hmem := hI l k hl' hk'
      rw [edgePoint_comm _ _ _ _ (by intro hz; linarith)] at hmem
      show (reflBox d bx).mem (edgePoint (reflV d (V k)) (reflV d (V l)) d (-pos))
      rw [reflV_edgePoint]
      exact mem_reflBox d bx _ hmem)
    (by
      show al * reflV d (V 0) d + be * reflV d (V 1) d + ga * reflV d (V 2) d ≤ -pos
      rw [reflV_same, reflV_same, reflV_same]
      linarith)
  have hcov' : (reflBox d bx).mem
      (tcomb al be ga (reflV d (V 0)) (reflV d (V 1)) (reflV d (V 2))) := hcov
  apply mem_of_mem_reflBox d bx
  refine (reflBox d bx).mem_congr _ _ (fun j => ?_) hcov'
  show al * reflV d (V 0) j + be * reflV d (V 1) j + ga * reflV d (V 2) j =
    reflV d (tcomb al be ga (V 0) (V 1) (V 2)) j
  by_cases hj : j = d
  · subst hj
    rw [reflV_same, reflV_same, reflV_same, reflV_same]
    show _ = -(al * V 0 j + be * V 1 j + ga * V 2 j)
    ring
  · rw [reflV_ne _ _ _ hj, reflV_ne _ _ _ hj, reflV_ne _ _ _ hj, reflV_ne _ _ _ hj]
    rfl

/-! ### Claim C1: containment and union coverage of the clipped references -/

theorem split_reference_containedIn (p : Prim) (refb : BBox) (dim : Fin 3)
    (pos : ℚ) :
    (split_reference p refb dim pos).1.containedIn refb ∧
    (split_reference p refb dim pos).2.containedIn refb := by
  constructor <;> intro i <;>
    simp only [split_reference, BBox.intersect, vmin, vmax] <;>
    rw [cclmax_eq_max, cclmin_eq_min] <;>
    exact ⟨le_max_right _ _, min_le_right _ _⟩

/-- **C1 (amended).** For every reference clipped by the spatial split at an
axis/position, each of the two resulting references' bounding boxes is
contained componentwise in the original reference's bounding box (for every
primitive kind).  For a *triangle* reference whose bounds contain its three
vertices, every point of the triangle (any convex combination of the
vertices) lies in the union of the two clipped boxes.  (For point references
— classified by center only — and curve references — whose width is ignored —
the union need not contain the whole primitive; see the counterexample.) -/
theorem split_reference_clip_correct (p : Prim) (v : Fin 3 → Vec3)
    (refb : BBox) (dim : Fin 3) (pos : ℚ)
    (hv : ∀ k, refb.mem (v k))
    (al be ga : ℚ) (hal : 0 ≤ al) (hbe : 0 ≤ be) (hga : 0 ≤ ga)
    (hsum : al + be + ga = 1) :
    (split_reference p refb dim pos).1.containedIn refb ∧
    (split_reference p refb dim pos).2.containedIn refb ∧
    ((split_reference (Prim.tri v) refb dim pos).1.mem
        (tcomb al be ga (v 0) (v 1) (v 2)) ∨
      (split_reference (Prim.tri v) refb dim pos).2.mem
        (tcomb al be ga (v 0) (v 1) (v 2))) := by
  refine ⟨(split_reference_containedIn p refb dim pos).1,
    (split_reference_containedIn p refb dim pos).2, ?_⟩
  have hrefb : refb.mem (tcomb al be ga (v 0) (v 1) (v 2)) :=
    refb.mem_tcomb _ _ _ _ _ _ hal hbe hga hsum (hv 0) (hv 1) (hv 2)
  by_cases hside : tcomb al be ga (v 0) (v 1) (v 2) dim ≤ pos
  · left
    have hcov := cover_left
      (split_triangle_primitive v dim pos BBox.empty BBox.empty).1 dim pos v
      al be ga hal hbe hga hsum
      (fun k hk => tri_left_mem_vertex v dim pos BBox.empty BBox.empty k hk)
      (fun k l hk hl => (tri_mem_edgepoint v dim pos BBox.empty BBox.empty k l hk hl).1)
      hside
    simp only [split_reference, splitPrimDispatch]
    exact BBox.mem_intersect _ _ _
      (BBox.mem_clampMax _ _ _ _ hcov hside) hrefb
  · right
    have hside' : pos ≤ tcomb al be ga (v 0) (v 1) (v 2) dim :=
      le_of_lt (not_le.mp hside)
    have hcov := cover_right
      (split_triangle_primitive v dim pos BBox.empty BBox.empty).2 dim pos v
      al be ga hal hbe hga hsum
      (fun k hk => tri_right_mem_vertex v dim pos BBox.empty BBox.empty k hk)
      (fun k l hk hl => (tri_mem_edgepoint v dim pos BBox.empty BBox.empty k l hk hl).2)
      hside'
    simp only [split_reference, splitPrimDispatch]
    exact BBox.mem_intersect _ _ _
      (BBox.mem_clampMin _ _ _ _ hcov hside') hrefb

/-- **C1, counterexample to the claim as stated.**  A point reference is
never clipped, only classified by its center: for the point primitive with
center the origin and radius `1`, reference bounds `[-1, 1]³`, split at
`x = 1/2`, the primitive point `(1, 0, 0)` lies in neither output box, so
the union of the clipped boxes does not contain the primitive. -/
theorem split_reference_point_union_gap :
    (BBox.mk (fun _ => (-1 : ℚ)) (fun _ => (1 : ℚ))).bmin 0 < 1/2 ∧
    (1/2 : ℚ) < (BBox.mk (fun _ => (-1 : ℚ)) (fun _ => (1 : ℚ))).bmax 0 ∧
    (∀ j : Fin 3, (fun _ => (0 : ℚ)) j - 1 ≤ mkVec3 1 0 0 j ∧
      mkVec3 1 0 0 j ≤ (fun _ => (0 : ℚ)) j + 1) ∧
    ¬ (split_reference (Prim.point (fun _ => 0) 1)
        (BBox.mk (fun _ => (-1 : ℚ)) (fun _ => (1 : ℚ))) 0 (1/2)).1.mem
        (mkVec3 1 0 0) ∧
    ¬ (split_reference (Prim.point (fun _ => 0) 1)
        (BBox.mk (fun _ => (-1 : ℚ)) (fun _ => (1 : ℚ))) 0 (1/2)).2.mem
        (mkVec3 1 0 0) := by
  refine ⟨by norm_num, by norm_num, ?_, ?_, ?_⟩
  · intro j
    fin_cases j <;> constructor <;> norm_num [mkVec3, Fin.ext_iff]
  · intro h
    have h2 := (h 0).2
    norm_num [split_reference, splitPrimDispatch, split_point_primitive,
      BBox.growBorder, BBox.empty, BBox.intersect, vmin, vmax, vadd, vsub,
      splatVec3, cclmin, cclmax, Function.update, mkVec3, FLT_MAX] at h2
  · intro h
    have h2 := (h 0).2
    norm_num [split_reference, splitPrimDispatch, split_point_primitive,
      BBox.growBorder, BBox.empty, BBox.intersect, vmin, vmax, vadd, vsub,
      splatVec3, cclmin, cclmax, Function.update, mkVec3, FLT_MAX] at h2

/-- Concrete triangle for the C1 witness. -/
def wTriC1 : Fin 3 → Vec3 := fun k =>
  if k = 0 then mkVec3 0 0 0 else if k = 1 then mkVec3 2 0 0 else mkVec3 0 2 2

/-- Concrete reference bounds for the C1 witness. -/
def wRefbC1 : BBox := ⟨fun _ => 0, fun _ => 2⟩

/-- Witness for `split_reference_clip_correct` at a concrete triangle,
reference bounds, split plane and convex-combination coefficients. -/
theorem split_reference_clip_correct_witness :
    (∀ k, wRefbC1.mem (wTriC1 k)) ∧ (0:ℚ) ≤ 1/3 ∧ (1/3 + 1/3 + 1/3 : ℚ) = 1 ∧
    ((split_reference (Prim.tri wTriC1) wRefbC1 0 1).1.containedIn wRefbC1 ∧
      (split_reference (Prim.tri wTriC1) wRefbC1 0 1).2.containedIn wRefbC1 ∧
      ((split_reference (Prim.tri wTriC1) wRefbC1 0 1).1.mem
          (tcomb (1/3) (1/3) (1/3) (wTriC1 0) (wTriC1 1) (wTriC1 2)) ∨
        (split_reference (Prim.tri wTriC1) wRefbC1 0 1).2.mem
          (tcomb (1/3) (1/3) (1/3) (wTriC1 0) (wTriC1 1) (wTriC1 2)))) :=
  ⟨by intro k i; fin_cases k <;> fin_cases i <;>
      norm_num [wTriC1, wRefbC1, mkVec3, BBox.mem, Fin.ext_iff],
    by norm_num, by norm_num,
    split_reference_clip_correct (Prim.tri wTriC1) wTriC1 wRefbC1 0 1
      (by intro k i; fin_cases k <;> fin_cases i <;>
        norm_num [wTriC1, wRefbC1, mkVec3, BBox.mem, Fin.ext_iff])
      (1/3) (1/3) (1/3) (by norm_num) (by norm_num) (by norm_num)
      (by norm_num)⟩

/-! ## `BVHObjectSplit` (`bvh/split.cpp`) and `bvh_reference_sort` (`bvh/sort.cpp`)

The exact (sort-based) object split: for each axis, sort the references by
the comparator of `sort.cpp`, sweep right-to-left accumulating suffix
bounds, then sweep left-to-right and keep the minimum-SAH candidate over
all three axes.  `bvh_reference_sort` (a threshold sequential/parallel
quicksort over `BVHReferenceCompare`) is modelled by a deterministic
insertion sort over the same comparator: the code's contract is a sorted
permutation of the sub-range, with ties (equal center and identity) in
unspecified order.  The embedding fixes the `aligned_space == nullptr`
path.  `BVHParams::primitive_cost` and the `nodeSAH` baseline live in the
absent `bvh/params.h` and are parameters of the embedding. -/

/-- A primitive reference: bounding box plus identity
(`bvh/params.h` `BVHReference`, reconstructed from its uses). -/
structure BVHReference where
  bounds : BBox
  prim_index : ℤ
  prim_object : ℤ
  prim_type : ℤ
deriving DecidableEq

/-- `BVHReferenceCompare::compare(ra, rb) < 0` (`sort.cpp`, null
`aligned_space`): compare centers (`min[dim] + max[dim]`) along the sort
axis, then object, index and type as tie-breaks. -/
def refCmpLt (dim : Fin 3) (ra rb : BVHReference) : Bool :=
  let ca := ra.bounds.bmin dim + ra.bounds.bmax dim
  let cb := rb.bounds.bmin dim + rb.bounds.bmax dim
  if ca < cb then true
  else if cb < ca then false
  else if ra.prim_object < rb.prim_object then true
  else if rb.prim_object < ra.prim_object then false
  else if ra.prim_index < rb.prim_index then true
  else if rb.prim_index < ra.prim_index then false
  else if ra.prim_type < rb.prim_type then true
  else if rb.prim_type < ra.prim_type then false
  else false

/-- Insert into a sorted list: before the first element not less than it. -/
def insertSorted (dim : Fin 3) (r : BVHReference) :
    List BVHReference → List BVHReference
  | [] => [r]
  | x :: xs => if refCmpLt dim x r then x :: insertSorted dim r xs else r :: x :: xs

/-- `bvh_reference_sort` modelled as insertion sort by
`BVHReferenceCompare` (a sorted permutation, as `std::sort` guarantees). -/
def bvhSort (dim : Fin 3) : List BVHReference → List BVHReference
  | [] => []
  | x :: xs => insertSorted dim x (bvhSort dim xs)

theorem insertSorted_length (dim : Fin 3) (r : BVHReference)
    (l : List BVHReference) : (insertSorted dim r l).length = l.length + 1 := by
  induction l with
  | nil => rfl
  | cons x xs ih =>
    simp only [insertSorted]
    split_ifs
    · simp [ih]
    · simp

theorem bvhSort_length (dim : Fin 3) (l : List BVHReference) :
    (bvhSort dim l).length = l.length := by
  induction l with
  | nil => rfl
  | cons x xs ih => simp [bvhSort, insertSorted_length, ih]

/-- State of `BVHObjectSplit`: best SAH, axis, left count, and the two
candidate bounds (member initialisation:
`sah(FLT_MAX), dim(0), num_left(0), left_bounds(empty), right_bounds(empty)`). -/
structure ObjectSplitState where
  sah : ℚ
  dim : Fin 3
  num_left : ℕ
  left_bounds : BBox
  right_bounds : BBox
deriving DecidableEq

/-- Fold `grow` over a list of reference bounds. -/
def growListB (b : BBox) (l : List BVHReference) : BBox :=
  l.foldl (fun acc r => acc.growBox r.bounds) b

/-- Bounds of the left candidate group `[0, i)` of the sorted range
(grown left to right, as in the sweep). -/
def objLeftBounds (sorted : List BVHReference) (i : ℕ) : BBox :=
  growListB BBox.empty (sorted.take i)

/-- Bounds of the right candidate group `[i, size)` of the sorted range
(grown right to left, as in the suffix sweep). -/
def objRightBounds (sorted : List BVHReference) (i : ℕ) : BBox :=
  growListB BBox.empty (sorted.drop i).reverse

/-- The SAH of splitting the sorted range before index `i`
(`nodeSAH + area(left) * primitive_cost(i) + area(right) * primitive_cost(size - i)`). -/
def objCandSah (cost : ℕ → ℚ) (nodeSAH : ℚ) (sorted : List BVHReference)
    (i : ℕ) : ℚ :=
  nodeSAH + (objLeftBounds sorted i).safe_area * cost i +
    (objRightBounds sorted i).safe_area * cost (sorted.length - i)

/-- One iteration of the left-to-right sweep: keep the candidate when its
SAH is strictly smaller than the best so far. -/
def objSweepStep (cost : ℕ → ℚ) (nodeSAH : ℚ) (sorted : List BVHReference)
    (dim : Fin 3) (st : ObjectSplitState) (i : ℕ) : ObjectSplitState :=
  if objCandSah cost nodeSAH sorted i < st.sah then
    ⟨objCandSah cost nodeSAH sorted i, dim, i,
      objLeftBounds sorted i, objRightBounds sorted i⟩
  else st

/-- The sweep over candidate positions `i = 1, …, size - 1` for one axis. -/
def objSweepDim (cost : ℕ → ℚ) (nodeSAH : ℚ) (sorted : List BVHReference)
    (dim : Fin 3) (st : ObjectSplitState) : ObjectSplitState :=
  (List.range' 1 (sorted.length - 1)).foldl
    (objSweepStep cost nodeSAH sorted dim) st

/-- The reference-array state after the successive in-place sorts for axes
`0, …, d` of the constructor loop. -/
def objSortedAt (refs : List BVHReference) (d : Fin 3) : List BVHReference :=
  if d = 0 then bvhSort 0 refs
  else if d = 1 then bvhSort 1 (bvhSort 0 refs)
  else bvhSort 2 (bvhSort 1 (bvhSort 0 refs))

/-- `BVHObjectSplit::BVHObjectSplit`: for each axis sort then sweep,
accumulating the best candidate.  Returns the final state together with the
reference array (sorted by the last axis) it leaves behind. -/
def objectSplitCtor (cost : ℕ → ℚ) (nodeSAH : ℚ) (refs : List BVHReference) :
    ObjectSplitState × List BVHReference :=
  let st0 : ObjectSplitState := ⟨FLT_MAX, 0, 0, BBox.empty, BBox.empty⟩
  let st1 := objSweepDim cost nodeSAH (objSortedAt refs 0) 0 st0
  let st2 := objSweepDim cost nodeSAH (objSortedAt refs 1) 1 st1
  let st3 := objSweepDim cost nodeSAH (objSortedAt refs 2) 2 st2
  (st3, objSortedAt refs 2)

/-- A `[start, start + size)` window of the reference array with cached
bounds (`bvh/params.h` `BVHRange`, reconstructed from its uses). -/
structure BVHRange where
  bounds : BBox
  start : ℕ
  size : ℕ
deriving DecidableEq

/-- `BVHObjectSplit::split` (null `aligned_space`): sort by the chosen
axis, then carve the range at `num_left`:
`left = (start, num_left)`, `right = (left.end, size - num_left)`. -/
def objectSplit_split (st : ObjectSplitState) (refsCur : List BVHReference)
    (range : BVHRange) : BVHRange × BVHRange × List BVHReference :=
  let sorted := bvhSort st.dim refsCur
  let num_right := range.size - st.num_left
  (⟨st.left_bounds, range.start, st.num_left⟩,
   ⟨st.right_bounds, range.start + st.num_left, num_right⟩,
   sorted)

/-! ### Claim C9: the object split always yields a proper two-sided partition -/

/-- Invariant of the sweep state: either nothing was ever selected (initial
state) or the selected `num_left` is a proper split position. -/
def objStInv (N : ℕ) (st : ObjectSplitState) : Prop :=
  (st.sah = FLT_MAX ∧ st.num_left = 0) ∨
  (st.sah < FLT_MAX ∧ 1 ≤ st.num_left ∧ st.num_left + 1 ≤ N)

theorem objSweepStep_inv (cost : ℕ → ℚ) (nodeSAH : ℚ)
    (sorted : List BVHReference) (dim : Fin 3) (st : ObjectSplitState)
    (i N : ℕ) (hi1 : 1 ≤ i) (hi2 : i + 1 ≤ N) (h : objStInv N st) :
    objStInv N (objSweepStep cost nodeSAH sorted dim st i) := by
  unfold objSweepStep
  split_ifs with hlt
  · right
    refine ⟨?_, hi1, hi2⟩
    rcases h with ⟨he, _⟩ | ⟨he, _⟩
    · exact he ▸ hlt
    · exact lt_trans hlt he
  · exact h

theorem objSweepStep_sah_mono (cost : ℕ → ℚ) (nodeSAH : ℚ)
    (sorted : List BVHReference) (dim : Fin 3) (st : ObjectSplitState) (i : ℕ) :
    (objSweepStep cost nodeSAH sorted dim st i).sah ≤ st.sah := by
  unfold objSweepStep
  split_ifs with hlt
  · exact le_of_lt hlt
  · exact le_rfl

theorem objSweepStep_sah_le_cand (cost : ℕ → ℚ) (nodeSAH : ℚ)
    (sorted : List BVHReference) (dim : Fin 3) (st : ObjectSplitState) (i : ℕ) :
    (objSweepStep cost nodeSAH sorted dim st i).sah ≤
      objCandSah cost nodeSAH sorted i := by
  unfold objSweepStep
  split_ifs with hlt
  · exact le_rfl
  · exact not_lt.mp hlt

theorem objFold_inv (cost : ℕ → ℚ) (nodeSAH : ℚ) (sorted : List BVHReference)
    (dim : Fin 3) (N : ℕ) (idxs : List ℕ)
    (hidx : ∀ i ∈ idxs, 1 ≤ i ∧ i + 1 ≤ N) :
    ∀ st, objStInv N st →
      objStInv N (idxs.foldl (objSweepStep cost nodeSAH sorted dim) st) := by
  induction idxs with
  | nil => exact fun st h => h
  | cons j rest ih =>
    intro st h
    simp only [List.foldl_cons]
    exact ih (fun i hi => hidx i (List.mem_cons_of_mem _ hi)) _
      (objSweepStep_inv cost nodeSAH sorted dim st j N
        (hidx j (List.mem_cons_self _ _)).1 (hidx j (List.mem_cons_self _ _)).2 h)

theorem objFold_sah_mono (cost : ℕ → ℚ) (nodeSAH : ℚ)
    (sorted : List BVHReference) (dim : Fin 3) (idxs : List ℕ) :
    ∀ st, (idxs.foldl (objSweepStep cost nodeSAH sorted dim) st).sah ≤ st.sah := by
  induction idxs with
  | nil => exact fun st => le_rfl
  | cons j rest ih =>
    intro st
    simp only [List.foldl_cons]
    exact le_trans (ih _) (objSweepStep_sah_mono cost nodeSAH sorted dim st j)

theorem objFold_sah_le_cand (cost : ℕ → ℚ) (nodeSAH : ℚ)
    (sorted : List BVHReference) (dim : Fin 3) (idxs : List ℕ) (i : ℕ)
    (hmem : i ∈ idxs) :
    ∀ st, (idxs.foldl (objSweepStep cost nodeSAH sorted dim) st).sah ≤
      objCandSah cost nodeSAH sorted i := by
  induction idxs with
  | nil => exact absurd hmem (List.not_mem_nil i)
  | cons j rest ih =>
    intro st
    simp only [List.foldl_cons]
    rcases List.mem_cons.mp hmem with rfl | hmem'
    · exact le_trans (objFold_sah_mono cost nodeSAH sorted dim rest _)
        (objSweepStep_sah_le_cand cost nodeSAH sorted dim st i)
    · exact ih hmem' _

theorem objSweepDim_inv (cost : ℕ → ℚ) (nodeSAH : ℚ)
    (sorted : List BVHReference) (dim : Fin 3) (st : ObjectSplitState)
    (h : objStInv sorted.length st) :
    objStInv sorted.length (objSweepDim cost nodeSAH sorted dim st) := by
  unfold objSweepDim
  refine objFold_inv cost nodeSAH sorted dim sorted.length _ (fun i hi => ?_) st h
  rw [List.mem_range'_1] at hi
  omega

theorem objSortedAt_length (refs : List BVHReference) (d : Fin 3) :
    (objSortedAt refs d).length = refs.length := by
  unfold objSortedAt
  split_ifs <;> simp [bvhSort_length]

/-- **C9.** For every range of size at least 2, provided some candidate
split along some axis has finite SAH (below the `FLT_MAX` sentinel),
the exact object split selects `1 ≤ num_left ≤ size - 1`, and the two
ranges returned by `BVHObjectSplit::split` are contiguous, disjoint, and
together cover exactly the input range. -/
theorem objectSplit_partition_valid (cost : ℕ → ℚ) (nodeSAH : ℚ)
    (refs : List BVHReference) (range : BVHRange)
    (h2 : 2 ≤ refs.length) (hrange : range.size = refs.length)
    (hfeas : ∃ d : Fin 3, ∃ i, 1 ≤ i ∧ i + 1 ≤ refs.length ∧
      objCandSah cost nodeSAH (objSortedAt refs d) i < FLT_MAX) :
    1 ≤ (objectSplitCtor cost nodeSAH refs).1.num_left ∧
    (objectSplitCtor cost nodeSAH refs).1.num_left + 1 ≤ refs.length ∧
    (objectSplit_split (objectSplitCtor cost nodeSAH refs).1
        (objectSplitCtor cost nodeSAH refs).2 range).1.start = range.start ∧
    (objectSplit_split (objectSplitCtor cost nodeSAH refs).1
        (objectSplitCtor cost nodeSAH refs).2 range).1.size =
      (objectSplitCtor cost nodeSAH refs).1.num_left ∧
    (objectSplit_split (objectSplitCtor cost nodeSAH refs).1
        (objectSplitCtor cost nodeSAH refs).2 range).2.1.start =
      range.start + (objectSplitCtor cost nodeSAH refs).1.num_left ∧
    (objectSplit_split (objectSplitCtor cost nodeSAH refs).1
        (objectSplitCtor cost nodeSAH refs).2 range).1.size +
      (objectSplit_split (objectSplitCtor cost nodeSAH refs).1
        (objectSplitCtor cost nodeSAH refs).2 range).2.1.size = range.size := by
  have hlen0 := objSortedAt_length refs 0
  have hlen1 := objSortedAt_length refs 1
  have hlen2 := objSortedAt_length refs 2
  -- the final state satisfies the invariant
  have hinv : objStInv refs.length (objectSplitCtor cost nodeSAH refs).1 := by
    have h0 : objStInv refs.length
        (⟨FLT_MAX, 0, 0, BBox.empty, BBox.empty⟩ : ObjectSplitState) :=
      Or.inl ⟨rfl, rfl⟩
    have i0 := objSweepDim_inv cost nodeSAH (objSortedAt refs 0) 0 _ (hlen0 ▸ h0)
    rw [hlen0] at i0
    have i1 := objSweepDim_inv cost nodeSAH (objSortedAt refs 1) 1 _ (hlen1 ▸ i0)
    rw [hlen1] at i1
    have i2 := objSweepDim_inv cost nodeSAH (objSortedAt refs 2) 2 _ (hlen2 ▸ i1)
    rw [hlen2] at i2
    exact i2
  -- the final SAH is bounded by the feasible candidate
  have hsah : (objectSplitCtor cost nodeSAH refs).1.sah < FLT_MAX := by
    obtain ⟨d, i, hi1, hi2, hcand⟩ := hfeas
    have hmem : i ∈ List.range' 1 ((objSortedAt refs d).length - 1) := by
      rw [List.mem_range'_1, objSortedAt_length]
      omega
    have hbound : ∀ st, (objSweepDim cost nodeSAH (objSortedAt refs d) d st).sah ≤
        objCandSah cost nodeSAH (objSortedAt refs d) i :=
      fun st => objFold_sah_le_cand cost nodeSAH (objSortedAt refs d) d _ i hmem st
    have hmono := fun (dim : Fin 3) (sorted : List BVHReference) st =>
      objFold_sah_mono cost nodeSAH sorted dim (List.range' 1 (sorted.length - 1)) st
    rcases fin3_cases d with rfl | rfl | rfl
    · calc (objectSplitCtor cost nodeSAH refs).1.sah
          ≤ (objSweepDim cost nodeSAH (objSortedAt refs 0) 0
              ⟨FLT_MAX, 0, 0, BBox.empty, BBox.empty⟩).sah := by
            exact le_trans (hmono 2 (objSortedAt refs 2) _) (hmono 1 (objSortedAt refs 1) _)
        _ ≤ objCandSah cost nodeSAH (objSortedAt refs 0) i := hbound _
        _ < FLT_MAX := hcand
    · calc (objectSplitCtor cost nodeSAH refs).1.sah
          ≤ (objSweepDim cost nodeSAH (objSortedAt refs 1) 1
              (objSweepDim cost nodeSAH (objSortedAt refs 0) 0
                ⟨FLT_MAX, 0, 0, BBox.empty, BBox.empty⟩)).sah :=
            hmono 2 (objSortedAt refs 2) _
        _ ≤ objCandSah cost nodeSAH (objSortedAt refs 1) i := hbound _
        _ < FLT_MAX := hcand
    · calc (objectSplitCtor cost nodeSAH refs).1.sah
          ≤ objCandSah cost nodeSAH (objSortedAt refs 2) i := hbound _
        _ < FLT_MAX := hcand
  have hnum : 1 ≤ (objectSplitCtor cost nodeSAH refs).1.num_left ∧
      (objectSplitCtor cost nodeSAH refs).1.num_left + 1 ≤ refs.length := by
    rcases hinv with ⟨he, _⟩ | ⟨_, h1, hN⟩
    · exact absurd (he ▸ hsah) (lt_irrefl _)
    · exact ⟨h1, hN⟩
  refine ⟨hnum.1, hnum.2, rfl, rfl, rfl, ?_⟩
  show (objectSplitCtor cost nodeSAH refs).1.num_left +
    (range.size - (objectSplitCtor cost nodeSAH refs).1.num_left) = range.size
  omega

/-- Concrete two-reference array for the C9 witness. -/
def wRefsC9 : List BVHReference :=
  [⟨⟨fun _ => 0, fun _ => 1⟩, 0, 0, 1⟩, ⟨⟨fun _ => 2, fun _ => 3⟩, 1, 0, 1⟩]

/-- Concrete range for the C9 witness. -/
def wRangeC9 : BVHRange := ⟨⟨fun _ => 0, fun _ => 3⟩, 0, 2⟩

/-- Witness for `objectSplit_partition_valid` on two disjoint unit-ish boxes
with unit primitive cost and zero node SAH. -/
theorem objectSplit_partition_valid_witness :
    2 ≤ wRefsC9.length ∧ wRangeC9.size = wRefsC9.length ∧
    (∃ d : Fin 3, ∃ i, 1 ≤ i ∧ i + 1 ≤ wRefsC9.length ∧
      objCandSah (fun n => (n : ℚ)) 0 (objSortedAt wRefsC9 d) i < FLT_MAX) ∧
    (1 ≤ (objectSplitCtor (fun n => (n : ℚ)) 0 wRefsC9).1.num_left ∧
      (objectSplitCtor (fun n => (n : ℚ)) 0 wRefsC9).1.num_left + 1 ≤ wRefsC9.length ∧
      (objectSplit_split (objectSplitCtor (fun n => (n : ℚ)) 0 wRefsC9).1
          (objectSplitCtor (fun n => (n : ℚ)) 0 wRefsC9).2 wRangeC9).1.start =
        wRangeC9.start ∧
      (objectSplit_split (objectSplitCtor (fun n => (n : ℚ)) 0 wRefsC9).1
          (objectSplitCtor (fun n => (n : ℚ)) 0 wRefsC9).2 wRangeC9).1.size =
        (objectSplitCtor (fun n => (n : ℚ)) 0 wRefsC9).1.num_left ∧
      (objectSplit_split (objectSplitCtor (fun n => (n : ℚ)) 0 wRefsC9).1
          (objectSplitCtor (fun n => (n : ℚ)) 0 wRefsC9).2 wRangeC9).2.1.start =
        wRangeC9.start + (objectSplitCtor (fun n => (n : ℚ)) 0 wRefsC9).1.num_left ∧
      (objectSplit_split (objectSplitCtor (fun n => (n : ℚ)) 0 wRefsC9).1
          (objectSplitCtor (fun n => (n : ℚ)) 0 wRefsC9).2 wRangeC9).1.size +
        (objectSplit_split (objectSplitCtor (fun n => (n : ℚ)) 0 wRefsC9).1
          (objectSplitCtor (fun n => (n : ℚ)) 0 wRefsC9).2 wRangeC9).2.1.size =
        wRangeC9.size) := by
  have hfeas : ∃ d : Fin 3, ∃ i, 1 ≤ i ∧ i + 1 ≤ wRefsC9.length ∧
      objCandSah (fun n => (n : ℚ)) 0 (objSortedAt wRefsC9 d) i < FLT_MAX := by
    refine ⟨0, 1, by norm_num [wRefsC9], by norm_num [wRefsC9], ?_⟩
    norm_num [objCandSah, objSortedAt, bvhSort, insertSorted, refCmpLt,
      objLeftBounds, objRightBounds, growListB, BBox.growBox, BBox.empty,
      BBox.safe_area, BBox.area, BBox.half_area, vmin, vmax, vsub, splatVec3,
      cclmin, cclmax, wRefsC9, FLT_MAX]
  exact ⟨by norm_num [wRefsC9], by norm_num [wRangeC9, wRefsC9], hfeas,
    objectSplit_partition_valid (fun n => (n : ℚ)) 0 wRefsC9 wRangeC9
      (by norm_num [wRefsC9]) (by norm_num [wRangeC9, wRefsC9]) hfeas⟩

/-! ## `BVHSpatialSplit::split` — the straddling-reference loop
(`bvh/split.cpp:275-328`)

After the categorisation pass, references in `[left_end, right_start)`
straddle the plane.  For each, three placements are costed — unsplit-left,
unsplit-right, duplicate — and the cheapest is applied; `unsplit-right`
swaps the current reference with the one before `right_start`, so the loop
re-examines the swapped-in reference next.  Duplicated right halves go to a
side list that is inserted after the right region once the loop ends.
`split_reference` (with the builder's geometry baked in) is a function
parameter of the loop. -/

/-- The three candidate placements for a straddling reference. -/
inductive SpatPlacement where
  | unsplitLeft
  | unsplitRight
  | duplicate
deriving DecidableEq

/-- Loop state: the left region `[left_start, left_end)`, the right region
`[right_start, right_end)` (front = `right_start`), the pending duplicate
list (`storage_->new_references`, cleared on entry), the running bounds,
and the number of duplications so far. -/
structure SpatState where
  leftRefs : List BVHReference
  rightRefs : List BVHReference
  newRefs : List BVHReference
  left_bounds : BBox
  right_bounds : BBox
  dups : ℕ
deriving DecidableEq

/-- SAH of applying one placement to the straddling reference `r` in state
`st` (the code's `unsplitLeftSAH` / `unsplitRightSAH` / `duplicateSAH`). -/
def spatPlacementSah (cost : ℕ → ℚ)
    (splitRef : BVHReference → BVHReference × BVHReference)
    (st : SpatState) (r : BVHReference) : SpatPlacement → ℚ
  | SpatPlacement.unsplitLeft =>
      (st.left_bounds.growBox r.bounds).safe_area * cost (st.leftRefs.length + 1) +
        st.right_bounds.safe_area * cost (st.rightRefs.length + st.newRefs.length)
  | SpatPlacement.unsplitRight =>
      st.left_bounds.safe_area * cost st.leftRefs.length +
        (st.right_bounds.growBox r.bounds).safe_area *
          cost (st.rightRefs.length + st.newRefs.length + 1)
  | SpatPlacement.duplicate =>
      (st.left_bounds.growBox (splitRef r).1.bounds).safe_area *
          cost (st.leftRefs.length + 1) +
        (st.right_bounds.growBox (splitRef r).2.bounds).safe_area *
          cost (st.rightRefs.length + st.newRefs.length + 1)

/-- One straddling reference: cost the three placements, apply the one with
minimal SAH (ties resolved `unsplit-left`, then `unsplit-right`, then
`duplicate`, matching the `==` chain of the code).  Returns the new state
and which placement was applied. -/
def spatStepFull (cost : ℕ → ℚ)
    (splitRef : BVHReference → BVHReference × BVHReference)
    (st : SpatState) (r : BVHReference) : SpatState × SpatPlacement :=
  let uLS := spatPlacementSah cost splitRef st r SpatPlacement.unsplitLeft
  let uRS := spatPlacementSah cost splitRef st r SpatPlacement.unsplitRight
  let dS := spatPlacementSah cost splitRef st r SpatPlacement.duplicate
  let m := min (min uLS uRS) dS
  if m = uLS then
    ({ st with
        leftRefs := st.leftRefs ++ [r]
        left_bounds := st.left_bounds.growBox r.bounds },
      SpatPlacement.unsplitLeft)
  else if m = uRS then
    ({ st with
        rightRefs := r :: st.rightRefs
        right_bounds := st.right_bounds.growBox r.bounds },
      SpatPlacement.unsplitRight)
  else
    ({ st with
        leftRefs := st.leftRefs ++ [(splitRef r).1]
        newRefs := st.newRefs ++ [(splitRef r).2]
        left_bounds := st.left_bounds.growBox (splitRef r).1.bounds
        right_bounds := st.right_bounds.growBox (splitRef r).2.bounds
        dups := st.dups + 1 },
      SpatPlacement.duplicate)

/-- After `swap(refs[left_end], refs[--right_start])` the loop re-examines
the swapped-in reference: the last middle element moves to the front. -/
def rotateMiddle : List BVHReference → List BVHReference
  | [] => []
  | y :: ys => (y :: ys).getLast (List.cons_ne_nil y ys) :: (y :: ys).dropLast

/-- The `while (left_end < right_start)` loop over the straddling middle
region (fuelled by the middle length, which each iteration decreases). -/
def spatLoop (cost : ℕ → ℚ)
    (splitRef : BVHReference → BVHReference × BVHReference) :
    ℕ → List BVHReference → SpatState → SpatState
  | 0, _, st => st
  | _ + 1, [], st => st
  | fuel + 1, r :: rest, st =>
    let sp := spatStepFull cost splitRef st r
    match sp.2 with
    | SpatPlacement.unsplitRight => spatLoop cost splitRef fuel (rotateMiddle rest) sp.1
    | _ => spatLoop cost splitRef fuel rest sp.1

/-- The whole straddle phase on the middle region. -/
def spatialSplitLoop (cost : ℕ → ℚ)
    (splitRef : BVHReference → BVHReference × BVHReference)
    (middle : List BVHReference) (st : SpatState) : SpatState :=
  spatLoop cost splitRef middle.length middle st

/-- `refs.insert(refs.begin() + (right_end - new_refs.size()), …)`:
the pending duplicates are appended after the right region. -/
def spatialSplitFinalize (st : SpatState) : List BVHReference :=
  st.leftRefs ++ st.rightRefs ++ st.newRefs

theorem rotateMiddle_length (l : List BVHReference) :
    (rotateMiddle l).length = l.length := by
  cases l with
  | nil => rfl
  | cons y ys => simp [rotateMiddle]

theorem spatStepFull_argmin (cost : ℕ → ℚ)
    (splitRef : BVHReference → BVHReference × BVHReference)
    (st : SpatState) (r : BVHReference) (p : SpatPlacement) :
    spatPlacementSah cost splitRef st r (spatStepFull cost splitRef st r).2 ≤
      spatPlacementSah cost splitRef st r p := by
  simp only [spatStepFull]
  set uLS := spatPlacementSah cost splitRef st r SpatPlacement.unsplitLeft with hu
  set uRS := spatPlacementSah cost splitRef st r SpatPlacement.unsplitRight with hr
  set dS := spatPlacementSah cost splitRef st r SpatPlacement.duplicate with hd
  have hmL : min (min uLS uRS) dS ≤ uLS :=
    le_trans (min_le_left _ _) (min_le_left _ _)
  have hmR : min (min uLS uRS) dS ≤ uRS :=
    le_trans (min_le_left _ _) (min_le_right _ _)
  have hmD : min (min uLS uRS) dS ≤ dS := min_le_right _ _
  split_ifs with h1 h2
  · show uLS ≤ spatPlacementSah cost splitRef st r p
    cases p
    · exact le_rfl
    · exact h1 ▸ hmR
    · exact h1 ▸ hmD
  · show uRS ≤ spatPlacementSah cost splitRef st r p
    cases p
    · exact h2 ▸ hmL
    · exact le_rfl
    · exact h2 ▸ hmD
  · show dS ≤ spatPlacementSah cost splitRef st r p
    have hmd : min (min uLS uRS) dS = dS := by
      rcases min_cases (min uLS uRS) dS with ⟨he, _⟩ | ⟨he, _⟩
      · rcases min_cases uLS uRS with ⟨he2, _⟩ | ⟨he2, _⟩
        · exact absurd (he.trans he2) h1
        · exact absurd (he.trans he2) h2
      · exact he
    cases p
    · exact hmd ▸ hmL
    · exact hmd ▸ hmR
    · exact le_rfl

theorem spatStepFull_newRefs (cost : ℕ → ℚ)
    (splitRef : BVHReference → BVHReference × BVHReference)
    (st : SpatState) (r : BVHReference) :
    (spatStepFull cost splitRef st r).1.newRefs.length =
      st.newRefs.length +
        if (spatStepFull cost splitRef st r).2 = SpatPlacement.duplicate
        then 1 else 0 := by
  simp only [spatStepFull]
  split_ifs <;> simp_all

theorem spatStepFull_effect (cost : ℕ → ℚ)
    (splitRef : BVHReference → BVHReference × BVHReference)
    (st : SpatState) (r : BVHReference) :
    ((spatStepFull cost splitRef st r).1.leftRefs.length +
        (spatStepFull cost splitRef st r).1.rightRefs.length =
      st.leftRefs.length + st.rightRefs.length + 1) ∧
    ((spatStepFull cost splitRef st r).1.newRefs.length + st.dups =
      st.newRefs.length + (spatStepFull cost splitRef st r).1.dups) := by
  simp only [spatStepFull]
  split_ifs <;> simp <;> omega

theorem spatLoop_counts (cost : ℕ → ℚ)
    (splitRef : BVHReference → BVHReference × BVHReference) :
    ∀ (fuel : ℕ) (middle : List BVHReference) (st : SpatState),
      middle.length ≤ fuel →
      ((spatLoop cost splitRef fuel middle st).leftRefs.length +
          (spatLoop cost splitRef fuel middle st).rightRefs.length =
        st.leftRefs.length + st.rightRefs.length + middle.length) ∧
      ((spatLoop cost splitRef fuel middle st).newRefs.length + st.dups =
        st.newRefs.length + (spatLoop cost splitRef fuel middle st).dups) := by
  intro fuel
  induction fuel with
  | zero =>
    intro middle st hle
    have : middle = [] := List.length_eq_zero.mp (Nat.le_zero.mp hle)
    subst this
    simp [spatLoop]
  | succ n ih =>
    intro middle st hle
    cases middle with
    | nil => simp [spatLoop]
    | cons r rest =>
      have hrest : rest.length ≤ n := by
        simp only [List.length_cons] at hle
        omega
      have hrot : (rotateMiddle rest).length ≤ n := by
        rw [rotateMiddle_length]
        exact hrest
      obtain ⟨e1, e2⟩ := spatStepFull_effect cost splitRef st r
      rcases hp : (spatStepFull cost splitRef st r).2 with _ | _ | _
      · simp only [spatLoop, hp]
        obtain ⟨c1, c2⟩ := ih rest (spatStepFull cost splitRef st r).1 hrest
        simp only [List.length_cons]
        exact ⟨by omega, by omega⟩
      · simp only [spatLoop, hp]
        obtain ⟨c1, c2⟩ := ih (rotateMiddle rest) (spatStepFull cost splitRef st r).1 hrot
        rw [rotateMiddle_length] at c1
        simp only [List.length_cons]
        exact ⟨by omega, by omega⟩
      · simp only [spatLoop, hp]
        obtain ⟨c1, c2⟩ := ih rest (spatStepFull cost splitRef st r).1 hrest
        simp only [List.length_cons]
        exact ⟨by omega, by omega⟩

/-- **C2.** For every straddling reference, exactly three candidate
placements are costed — unsplit-left, unsplit-right, duplicate — and the
placement with the minimum combined SAH is applied (the applied placement's
SAH is at most each candidate's); a `duplicate` decision appends exactly
one reference to the pending list (others none); over the loop each middle
reference lands on exactly one side, and the final reference array grows by
exactly one per duplicated primitive. -/
theorem spatialSplit_three_candidates (cost : ℕ → ℚ)
    (splitRef : BVHReference → BVHReference × BVHReference)
    (st : SpatState) (r : BVHReference) (middle : List BVHReference) :
    (∀ p : SpatPlacement,
      spatPlacementSah cost splitRef st r (spatStepFull cost splitRef st r).2 ≤
        spatPlacementSah cost splitRef st r p) ∧
    ((spatStepFull cost splitRef st r).1.newRefs.length =
      st.newRefs.length +
        if (spatStepFull cost splitRef st r).2 = SpatPlacement.duplicate
        then 1 else 0) ∧
    ((spatialSplitLoop cost splitRef middle st).leftRefs.length +
        (spatialSplitLoop cost splitRef middle st).rightRefs.length =
      st.leftRefs.length + st.rightRefs.length + middle.length) ∧
    ((spatialSplitFinalize (spatialSplitLoop cost splitRef middle st)).length +
        st.dups =
      st.leftRefs.length + st.rightRefs.length + st.newRefs.length +
        middle.length + (spatialSplitLoop cost splitRef middle st).dups) := by
  obtain ⟨c1, c2⟩ := spatLoop_counts cost splitRef middle.length middle st le_rfl
  refine ⟨spatStepFull_argmin cost splitRef st r,
    spatStepFull_newRefs cost splitRef st r,
    by simp only [spatialSplitLoop]; exact c1, ?_⟩
  simp only [spatialSplitLoop, spatialSplitFinalize, List.length_append]
  omega

/-! ## `BVHSpatialSplit::BVHSpatialSplit` (`bvh/split.cpp:129-232`)

The spatial-split evaluator: chop every reference of the range into
`NUM_SPATIAL_BINS` bins per axis (clipping with `split_reference` at each
crossed bin boundary), then sweep the bins to select the minimum-SAH plane.
`BVHParams::NUM_SPATIAL_BINS` lives in the absent `bvh/params.h` and is a
parameter, as are `primitive_cost` and the geometry-resolving
`split_reference`.  The embedding fixes the `aligned_space == nullptr`
path. -/

/-- `(int)` cast of a float: truncation toward zero. -/
def ratTrunc (q : ℚ) : ℤ := q.num / (q.den : ℤ)

/-- `safe_divide` componentwise (`util/math`, absent from the tree).
Modelled from the spec: a division that yields `0` for a zero divisor, used
to precompute the per-axis binning scale. -/
def safe_divide (a b : Vec3) : Vec3 := fun i => if b i = 0 then 0 else a i / b i

/-- One spatial bin: clipped bounds plus enter/exit counters. -/
structure BVHSpatialBin where
  bounds : BBox
  enter : ℕ
  exit : ℕ
deriving DecidableEq

/-- The per-axis bin arrays (`storage_->bins`). -/
def SpatialBins : Type := Fin 3 → ℕ → BVHSpatialBin

/-- Update one bin. -/
def updateBin (bins : SpatialBins) (d : Fin 3) (i : ℕ)
    (f : BVHSpatialBin → BVHSpatialBin) : SpatialBins :=
  fun d' i' => if d' = d ∧ i' = i then f (bins d' i') else bins d' i'

/-- `clamp` on the truncated bin index (`clamp(firstBin, 0, NUM-1)` /
`clamp(lastBin, firstBin, NUM-1)`), already in `ℕ`. -/
def clampBin (x lo hi : ℤ) : ℤ := min (max x lo) hi

/-- Chop one reference into the bins of one axis: clip at every crossed bin
boundary, growing each crossed bin with the left part and carrying the
right part; the last bin receives the remainder, and the enter/exit
counters bracket the reference's bin span. -/
def spatChopDim (splitRefAt : BVHReference → Fin 3 → ℚ → BVHReference × BVHReference)
    (origin binSize : Vec3) (fb lb : ℕ) (d : Fin 3) (r : BVHReference)
    (bins : SpatialBins) : SpatialBins :=
  let chopped := (List.range' fb (lb - fb)).foldl
    (fun (acc : SpatialBins × BVHReference) (i : ℕ) =>
      let pr := splitRefAt acc.2 d (origin d + binSize d * (((i : ℚ)) + 1))
      (updateBin acc.1 d i
        (fun bin => { bin with bounds := bin.bounds.growBox pr.1.bounds }), pr.2))
    (bins, r)
  let bins2 := updateBin chopped.1 d lb
    (fun bin => { bin with bounds := bin.bounds.growBox chopped.2.bounds })
  let bins3 := updateBin bins2 d fb (fun bin => { bin with enter := bin.enter + 1 })
  updateBin bins3 d lb (fun bin => { bin with exit := bin.exit + 1 })

/-- Chop one reference into the bins of all three axes
(`split.cpp:169-198`). -/
def spatChopRef (numBins : ℕ)
    (splitRefAt : BVHReference → Fin 3 → ℚ → BVHReference × BVHReference)
    (origin binSize invBinSize : Vec3) (bins : SpatialBins)
    (r : BVHReference) : SpatialBins :=
  let firstBinf : Vec3 := vmul (vsub r.bounds.bmin origin) invBinSize
  let lastBinf : Vec3 := vmul (vsub r.bounds.bmax origin) invBinSize
  let fb : Fin 3 → ℤ := fun d => clampBin (ratTrunc (firstBinf d)) 0 (numBins - 1)
  let lb : Fin 3 → ℤ := fun d => clampBin (ratTrunc (lastBinf d)) (fb d) (numBins - 1)
  (List.finRange 3).foldl
    (fun acc d => spatChopDim splitRefAt origin binSize (fb d).toNat (lb d).toNat d r acc)
    bins

/-- Result of `BVHSpatialSplit::BVHSpatialSplit`: best SAH, axis, plane. -/
structure SpatialSplitState where
  sah : ℚ
  dim : Fin 3
  pos : ℚ
deriving DecidableEq

/-- Left-to-right union of the bin bounds `[0, i)` of one axis. -/
def spatLeftBoundsAt (bins : SpatialBins) (d : Fin 3) (i : ℕ) : BBox :=
  (List.range i).foldl (fun acc j => acc.growBox (bins d j).bounds) BBox.empty

/-- Right-to-left union of the bin bounds `[i, numBins)` of one axis
(grown from the last bin backwards, as in the suffix sweep). -/
def spatRightBoundsAt (bins : SpatialBins) (d : Fin 3) (numBins i : ℕ) : BBox :=
  (List.range' i (numBins - i)).reverse.foldl
    (fun acc j => acc.growBox (bins d j).bounds) BBox.empty

/-- Number of references entering bins `[0, i)`. -/
def spatLeftNum (bins : SpatialBins) (d : Fin 3) (i : ℕ) : ℕ :=
  (List.range i).foldl (fun acc j => acc + (bins d j).enter) 0

/-- Number of references remaining on the right of bin boundary `i`. -/
def spatRightNum (bins : SpatialBins) (d : Fin 3) (total i : ℕ) : ℕ :=
  total - (List.range i).foldl (fun acc j => acc + (bins d j).exit) 0

/-- The sweep selecting the lowest-SAH bin boundary over all axes
(`split.cpp:200-231`), starting from the member initialisation
`sah(FLT_MAX), dim(0), pos(0)`. -/
def spatialSplitCtor (cost : ℕ → ℚ) (nodeSAH : ℚ) (numBins : ℕ)
    (splitRefAt : BVHReference → Fin 3 → ℚ → BVHReference × BVHReference)
    (rangeBounds : BBox) (refs : List BVHReference) : SpatialSplitState :=
  let origin := rangeBounds.bmin
  let binSize := smul (1 / (numBins : ℚ)) (vsub rangeBounds.bmax origin)
  let invBinSize := safe_divide (splatVec3 1) binSize
  let bins0 : SpatialBins := fun _ _ => ⟨BBox.empty, 0, 0⟩
  let bins := refs.foldl (spatChopRef numBins splitRefAt origin binSize invBinSize) bins0
  let total := refs.length
  (List.finRange 3).foldl
    (fun st d =>
      (List.range' 1 (numBins - 1)).foldl
        (fun st i =>
          let sah := nodeSAH +
            (spatLeftBoundsAt bins d i).safe_area * cost (spatLeftNum bins d i) +
            (spatRightBoundsAt bins d numBins i).safe_area *
              cost (spatRightNum bins d total i)
          if sah < st.sah then ⟨sah, d, origin d + binSize d * i⟩ else st)
        st)
    ⟨FLT_MAX, 0, 0⟩

/-! ## `BVHMixedSplit` (`bvh/split.h:166-232`) -/

/-- The builder configuration consumed by `BVHMixedSplit`
(`BVHParams` fields and constants; `primitive_cost`, `node_cost`,
`MAX_SPATIAL_DEPTH` and `NUM_SPATIAL_BINS` live in the absent
`bvh/params.h` and are carried abstractly; `spatial_min_overlap` is the
builder field set up from `params.spatial_split_alpha`). -/
structure BVHBuildParams where
  use_spatial_split : Bool
  maxSpatialDepth : ℕ
  spatialMinOverlap : ℚ
  primitiveCost : ℕ → ℚ
  nodeCost : ℕ → ℚ
  numSpatialBins : ℕ

/-- `BVHMixedSplit` members.  The default-constructed
`BVHSpatialSplit()` (with `sah = FLT_MAX`) is modelled by `none`. -/
structure BVHMixedSplit where
  object : ObjectSplitState
  spatial : Option SpatialSplitState
  leafSAH : ℚ
  nodeSAH : ℚ
  minSAH : ℚ
  no_split : Bool
deriving DecidableEq

/-- The SAH of the spatial member (`FLT_MAX` when never constructed). -/
def spatialSahOf : Option SpatialSplitState → ℚ
  | none => FLT_MAX
  | some s => s.sah

/-- `BVHMixedSplit::BVHMixedSplit` (null `aligned_space`): compute leaf and
inner-node SAH baselines, run the object split, and run the spatial split
only when spatial splitting is enabled, the level is below
`MAX_SPATIAL_DEPTH`, and the object split's left/right bounds overlap by at
least `spatial_min_overlap` of area.  `withinMaxLeafSize` stands for the
`builder->range_within_max_leaf_size(range, references)` call. -/
def BVHMixedSplitCtor (P : BVHBuildParams)
    (splitRefAt : BVHReference → Fin 3 → ℚ → BVHReference × BVHReference)
    (range : BVHRange) (refs : List BVHReference) (level : ℕ)
    (withinMaxLeafSize : Bool) : BVHMixedSplit :=
  let bounds := range.bounds
  let area := bounds.safe_area
  let leafSAH := area * P.primitiveCost range.size
  let nodeSAH := area * P.nodeCost 2
  let object := (objectSplitCtor P.primitiveCost nodeSAH refs).1
  let spatial :=
    if P.use_spatial_split ∧ level < P.maxSpatialDepth ∧
        (object.left_bounds.intersect object.right_bounds).safe_area ≥
          P.spatialMinOverlap
    then some (spatialSplitCtor P.primitiveCost nodeSAH P.numSpatialBins
      splitRefAt bounds refs)
    else none
  let minSAH := min (min leafSAH object.sah) (spatialSahOf spatial)
  { object := object
    spatial := spatial
    leafSAH := leafSAH
    nodeSAH := nodeSAH
    minSAH := minSAH
    no_split := decide (minSAH = leafSAH) && withinMaxLeafSize }

/-- **C5 (amended).** The spatial-split evaluator is invoked iff spatial
splitting is enabled, the recursion level is below the maximum
spatial-split depth, and the object split's left/right bounds overlap by
*at least* (`>=`, not strictly more than) the configured minimum-overlap
area; when the condition fails, the minimum is taken over the leaf SAH, the
object-split SAH and the `FLT_MAX` sentinel of the default spatial split
only. -/
theorem mixedSplit_spatial_trigger (P : BVHBuildParams)
    (splitRefAt : BVHReference → Fin 3 → ℚ → BVHReference × BVHReference)
    (range : BVHRange) (refs : List BVHReference) (level : ℕ)
    (withinMaxLeafSize : Bool) :
    ((BVHMixedSplitCtor P splitRefAt range refs level withinMaxLeafSize).spatial.isSome
      ↔ (P.use_spatial_split = true ∧ level < P.maxSpatialDepth ∧
        P.spatialMinOverlap ≤
          (((BVHMixedSplitCtor P splitRefAt range refs level
              withinMaxLeafSize).object.left_bounds).intersect
            (BVHMixedSplitCtor P splitRefAt range refs level
              withinMaxLeafSize).object.right_bounds).safe_area)) ∧
    ((BVHMixedSplitCtor P splitRefAt range refs level
        withinMaxLeafSize).spatial.isSome = false →
      (BVHMixedSplitCtor P splitRefAt range refs level withinMaxLeafSize).minSAH =
        min (min (BVHMixedSplitCtor P splitRefAt range refs level
            withinMaxLeafSize).leafSAH
          (BVHMixedSplitCtor P splitRefAt range refs level
            withinMaxLeafSize).object.sah) FLT_MAX) := by
  constructor
  · show (if P.use_spatial_split ∧ level < P.maxSpatialDepth ∧ _ then some _
        else none).isSome ↔ _
    split_ifs with hc
    · simpa using hc
    · simp only [Option.isSome_none, Bool.false_eq_true, false_iff]
      intro hcon
      exact hc ⟨hcon.1, hcon.2.1, hcon.2.2⟩
  · intro hnone
    have hs : spatialSahOf (BVHMixedSplitCtor P splitRefAt range refs level
        withinMaxLeafSize).spatial = FLT_MAX := by
      rcases h : (BVHMixedSplitCtor P splitRefAt range refs level
          withinMaxLeafSize).spatial with _ | s
      · rfl
      · rw [h] at hnone
        simp at hnone
    have hmin : (BVHMixedSplitCtor P splitRefAt range refs level
          withinMaxLeafSize).minSAH =
        min (min (BVHMixedSplitCtor P splitRefAt range refs level
            withinMaxLeafSize).leafSAH
          (BVHMixedSplitCtor P splitRefAt range refs level
            withinMaxLeafSize).object.sah)
          (spatialSahOf (BVHMixedSplitCtor P splitRefAt range refs level
            withinMaxLeafSize).spatial) := rfl
    rw [hmin, hs]

/-- Two overlapping references for the C5 counterexample. -/
def wRefsC5 : List BVHReference :=
  [⟨⟨fun _ => 0, fun _ => 1⟩, 0, 0, 1⟩,
   ⟨⟨mkVec3 (1/2) 0 0, mkVec3 (3/2) 1 1⟩, 1, 0, 1⟩]

/-- Range holding the two references. -/
def wRangeC5 : BVHRange := ⟨⟨fun _ => 0, mkVec3 (3/2) 1 1⟩, 0, 2⟩

/-- A trivial reference splitter for instantiating the geometry parameter. -/
def wSplitRefC5 : BVHReference → Fin 3 → ℚ → BVHReference × BVHReference :=
  fun r _ _ => (r, r)

/-- Builder parameters with overlap threshold exactly 4 (the area by which
the object split's halves overlap on `wRefsC5`). -/
def wPC5 : BVHBuildParams := ⟨true, 48, 4, fun n => (n : ℚ), fun _ => 0, 32⟩

/-- **C5, counterexample to the claim as stated.**  When the object split's
left/right boxes overlap by an area exactly equal to the configured
minimum-overlap threshold — not strictly more — the spatial-split evaluator
is still invoked (`>=` in `split.h:209`). -/
theorem mixedSplit_trigger_at_threshold_equality :
    (BVHMixedSplitCtor wPC5 wSplitRefC5 wRangeC5 wRefsC5 0 false).spatial.isSome =
      true ∧
    (((BVHMixedSplitCtor wPC5 wSplitRefC5 wRangeC5 wRefsC5 0
          false).object.left_bounds.intersect
        (BVHMixedSplitCtor wPC5 wSplitRefC5 wRangeC5 wRefsC5 0
          false).object.right_bounds).safe_area = wPC5.spatialMinOverlap) ∧
    ¬ (wPC5.spatialMinOverlap <
      (((BVHMixedSplitCtor wPC5 wSplitRefC5 wRangeC5 wRefsC5 0
            false).object.left_bounds.intersect
          (BVHMixedSplitCtor wPC5 wSplitRefC5 wRangeC5 wRefsC5 0
            false).object.right_bounds).safe_area)) := by
  have hover : ((objectSplitCtor wPC5.primitiveCost
        (wRangeC5.bounds.safe_area * wPC5.nodeCost 2) wRefsC5).1.left_bounds.intersect
      (objectSplitCtor wPC5.primitiveCost
        (wRangeC5.bounds.safe_area * wPC5.nodeCost 2) wRefsC5).1.right_bounds).safe_area
      = 4 := by
    norm_num [objectSplitCtor, objSweepDim, objSweepStep, objSortedAt, bvhSort,
      insertSorted, refCmpLt, objCandSah, objLeftBounds, objRightBounds,
      growListB, BBox.growBox, BBox.empty, BBox.safe_area, BBox.area,
      BBox.half_area, BBox.intersect, vmin, vmax, vsub, splatVec3, cclmin,
      cclmax, wRefsC5, wRangeC5, wPC5, mkVec3, FLT_MAX, Fin.ext_iff]
  refine ⟨?_, ?_, ?_⟩
  · show (if wPC5.use_spatial_split ∧ 0 < wPC5.maxSpatialDepth ∧ _ ≥ _
        then some _ else none).isSome = true
    rw [if_pos]
    · rfl
    · refine ⟨by norm_num [wPC5], by norm_num [wPC5], ?_⟩
      show _ ≥ _
      rw [hover]
      norm_num [wPC5]
  · exact hover.trans (by norm_num [wPC5])
  · show ¬ wPC5.spatialMinOverlap <
      ((objectSplitCtor wPC5.primitiveCost
          (wRangeC5.bounds.safe_area * wPC5.nodeCost 2) wRefsC5).1.left_bounds.intersect
        (objectSplitCtor wPC5.primitiveCost
          (wRangeC5.bounds.safe_area * wPC5.nodeCost 2) wRefsC5).1.right_bounds).safe_area
    rw [hover]
    norm_num [wPC5]

/-- Parameters with spatial splitting disabled, for the C5 witness. -/
def wPC5off : BVHBuildParams := ⟨false, 48, 4, fun n => (n : ℚ), fun _ => 0, 32⟩

/-- Witness for `mixedSplit_spatial_trigger`: with spatial splitting
disabled the evaluator is not invoked and only leaf and object SAH (plus
the `FLT_MAX` sentinel) are compared. -/
theorem mixedSplit_spatial_trigger_witness :
    (BVHMixedSplitCtor wPC5off wSplitRefC5 wRangeC5 wRefsC5 0 false).spatial.isSome =
      false ∧
    (BVHMixedSplitCtor wPC5off wSplitRefC5 wRangeC5 wRefsC5 0 false).minSAH =
      min (min (BVHMixedSplitCtor wPC5off wSplitRefC5 wRangeC5 wRefsC5 0
          false).leafSAH
        (BVHMixedSplitCtor wPC5off wSplitRefC5 wRangeC5 wRefsC5 0
          false).object.sah) FLT_MAX := by
  have hfalse : (BVHMixedSplitCtor wPC5off wSplitRefC5 wRangeC5 wRefsC5 0
      false).spatial.isSome = false := by
    show (if wPC5off.use_spatial_split ∧ 0 < wPC5off.maxSpatialDepth ∧
        ((objectSplitCtor wPC5off.primitiveCost
            (wRangeC5.bounds.safe_area * wPC5off.nodeCost 2)
            wRefsC5).1.left_bounds.intersect
          (objectSplitCtor wPC5off.primitiveCost
            (wRangeC5.bounds.safe_area * wPC5off.nodeCost 2)
            wRefsC5).1.right_bounds).safe_area ≥ wPC5off.spatialMinOverlap
      then some (spatialSplitCtor wPC5off.primitiveCost
        (wRangeC5.bounds.safe_area * wPC5off.nodeCost 2) wPC5off.numSpatialBins
        wSplitRefC5 wRangeC5.bounds wRefsC5)
      else none).isSome = false
    rw [if_neg]
    · rfl
    · intro hcon
      have := hcon.1
      simp [wPC5off] at this
  exact ⟨hfalse,
    (mixedSplit_spatial_trigger wPC5off wSplitRefC5 wRangeC5 wRefsC5 0 false).2
      hfalse⟩

/-! ## `BVHObjectBinning` (`bvh/binning.cpp`)

The approximate O(n) object split: bucket the references of a range into
`num_bins` bins per axis by `get_bin` of their bounds, sweep suffix then
prefix accumulating merged bounds and `blocks`-scaled counts, select per
axis the minimal-SAH boundary, force axes with non-positive centroid extent
to `FLT_MAX`, and pick the first axis attaining the minimum
(`get_best_dimension`).  `get_bin`, `blocks` and `MAX_BINS` live in the
absent `bvh/binning.h` and are parameters of the embedding; the claims
proved here do not depend on their values.  The unrolled-by-two binning
loop is modelled by its per-reference effect. -/

/-- `num_bins = min(size_t(MAX_BINS), size_t(4.0f + 0.05f * size))`
(the float literal `0.05f` taken as `1/20`). -/
def numBinsOf (maxBins size : ℕ) : ℕ :=
  min maxBins (ratTrunc (4 + (size : ℚ) / 20)).toNat

/-- Number of references of the range binned into bin `j` on axis `d`. -/
def binCountAt (getBinB : BBox → Fin 3 → ℤ) (prims : List BVHReference)
    (d : Fin 3) (j : ℤ) : ℕ :=
  prims.foldl (fun acc r => if getBinB r.bounds d = j then acc + 1 else acc) 0

/-- Merged bounds of the references binned into bin `j` on axis `d`. -/
def binBoundsAt (getBinB : BBox → Fin 3 → ℤ) (prims : List BVHReference)
    (d : Fin 3) (j : ℤ) : BBox :=
  prims.foldl (fun acc r => if getBinB r.bounds d = j then acc.growBox r.bounds
    else acc) BBox.empty

/-- Left-to-right merged bounds of bins `[0, i)` on axis `d`. -/
def binPrefixBounds (getBinB : BBox → Fin 3 → ℤ) (prims : List BVHReference)
    (d : Fin 3) (i : ℕ) : BBox :=
  (List.range i).foldl (fun acc j => mergeB acc (binBoundsAt getBinB prims d j))
    BBox.empty

/-- Count of references in bins `[0, i)` on axis `d`. -/
def binPrefixCount (getBinB : BBox → Fin 3 → ℤ) (prims : List BVHReference)
    (d : Fin 3) (i : ℕ) : ℕ :=
  (List.range i).foldl (fun acc j => acc + binCountAt getBinB prims d j) 0

/-- Right-to-left merged bounds of bins `[i, numBins)` on axis `d`. -/
def binSuffixBounds (getBinB : BBox → Fin 3 → ℤ) (prims : List BVHReference)
    (d : Fin 3) (numBins i : ℕ) : BBox :=
  (List.range' i (numBins - i)).reverse.foldl
    (fun acc j => mergeB acc (binBoundsAt getBinB prims d j)) BBox.empty

/-- Count of references in bins `[i, numBins)` on axis `d`. -/
def binSuffixCount (getBinB : BBox → Fin 3 → ℤ) (prims : List BVHReference)
    (d : Fin 3) (numBins i : ℕ) : ℕ :=
  (List.range' i (numBins - i)).foldl
    (fun acc j => acc + binCountAt getBinB prims d j) 0

/-- SAH of splitting axis `d` at bin boundary `i`
(`lArea * lCount + r_area[i] * r_count[i]`, with `half_area` and `blocks`). -/
def binSahAt (getBinB : BBox → Fin 3 → ℤ) (blocksF : ℕ → ℚ)
    (prims : List BVHReference) (d : Fin 3) (numBins i : ℕ) : ℚ :=
  (binPrefixBounds getBinB prims d i).half_area *
      blocksF (binPrefixCount getBinB prims d i) +
    (binSuffixBounds getBinB prims d numBins i).half_area *
      blocksF (binSuffixCount getBinB prims d numBins i)

/-- The per-axis sweep `i = 1, …, numBins - 1` accumulating
`(bestSAH, bestSplit)` from `(FLT_MAX, -1)` with a strict `<` update
(`select(sah < bestSAH, ii, bestSplit)`). -/
def binBestForAxis (getBinB : BBox → Fin 3 → ℤ) (blocksF : ℕ → ℚ)
    (prims : List BVHReference) (d : Fin 3) (numBins : ℕ) : ℚ × ℤ :=
  (List.range' 1 (numBins - 1)).foldl
    (fun (acc : ℚ × ℤ) i =>
      if binSahAt getBinB blocksF prims d numBins i < acc.1
      then (binSahAt getBinB blocksF prims d numBins i, (i : ℤ))
      else acc)
    (FLT_MAX, -1)

/-- The mask step `bestSAH = select(cent_bounds_.size() <= 0, FLT_MAX, bestSAH)`:
axes with non-positive centroid extent are forced infeasible. -/
def binBestSahForced (getBinB : BBox → Fin 3 → ℤ) (blocksF : ℕ → ℚ)
    (prims : List BVHReference) (cent_bounds : BBox) (numBins : ℕ)
    (d : Fin 3) : ℚ :=
  if cent_bounds.size d ≤ 0 then FLT_MAX
  else (binBestForAxis getBinB blocksF prims d numBins).1

/-- `get_best_dimension(bestSAH)` (`binning.cpp:1261-1274`): the first axis
attaining the minimum of the three per-axis SAH values. -/
def get_best_dimension (f : Fin 3 → ℚ) : Fin 3 :=
  let minSAH := min (f 0) (min (f 1) (f 2))
  if f 0 = minSAH then 0
  else if f 1 = minSAH then 1
  else 2

/-- The axis selected by the `BVHObjectBinning` constructor. -/
def objectBinningDim (getBinB : BBox → Fin 3 → ℤ) (blocksF : ℕ → ℚ)
    (prims : List BVHReference) (cent_bounds : BBox) (numBins : ℕ) : Fin 3 :=
  get_best_dimension (binBestSahForced getBinB blocksF prims cent_bounds numBins)

/-- **C6.** In binned object splitting, every axis whose centroid-bounds
extent is non-positive has its best SAH forced to `FLT_MAX`; the chosen
axis attains the minimum of the three per-axis values; and whenever some
axis has a feasible (`< FLT_MAX`) best SAH, the chosen axis has strictly
positive centroid extent — a zero-width axis is never selected. -/
theorem objectBinning_zero_extent_not_selected (getBinB : BBox → Fin 3 → ℤ)
    (blocksF : ℕ → ℚ) (prims : List BVHReference) (cent_bounds : BBox)
    (numBins : ℕ)
    (hfeas : ∃ d : Fin 3,
      binBestSahForced getBinB blocksF prims cent_bounds numBins d < FLT_MAX) :
    (∀ d : Fin 3, cent_bounds.size d ≤ 0 →
      binBestSahForced getBinB blocksF prims cent_bounds numBins d = FLT_MAX) ∧
    (binBestSahForced getBinB blocksF prims cent_bounds numBins
        (objectBinningDim getBinB blocksF prims cent_bounds numBins) =
      min (binBestSahForced getBinB blocksF prims cent_bounds numBins 0)
        (min (binBestSahForced getBinB blocksF prims cent_bounds numBins 1)
          (binBestSahForced getBinB blocksF prims cent_bounds numBins 2))) ∧
    ¬ (cent_bounds.size
        (objectBinningDim getBinB blocksF prims cent_bounds numBins) ≤ 0) := by
  set f := binBestSahForced getBinB blocksF prims cent_bounds numBins with hf
  have hforce : ∀ d : Fin 3, cent_bounds.size d ≤ 0 → f d = FLT_MAX := by
    intro d hd
    rw [hf]
    unfold binBestSahForced
    rw [if_pos hd]
  have hdim : f (objectBinningDim getBinB blocksF prims cent_bounds numBins) =
      min (f 0) (min (f 1) (f 2)) := by
    show f (get_best_dimension f) = _
    simp only [get_best_dimension]
    split_ifs with h0 h1
    · exact h0
    · exact h1
    · rcases min_cases (f 0) (min (f 1) (f 2)) with ⟨he, _⟩ | ⟨he, _⟩
      · exact absurd he.symm h0
      · rcases min_cases (f 1) (f 2) with ⟨he2, _⟩ | ⟨he2, _⟩
        · exact absurd (he.trans he2).symm h1
        · rw [he, he2]
  refine ⟨hforce, hdim, fun hle => ?_⟩
  obtain ⟨d, hd⟩ := hfeas
  have h1 : f (objectBinningDim getBinB blocksF prims cent_bounds numBins) ≤ f d := by
    rw [hdim]
    rcases fin3_cases d with rfl | rfl | rfl
    · exact min_le_left _ _
    · exact le_trans (min_le_right _ _) (min_le_left _ _)
    · exact le_trans (min_le_right _ _) (min_le_right _ _)
  have h2 := hforce _ hle
  rw [h2] at h1
  exact absurd (lt_of_le_of_lt h1 hd) (lt_irrefl _)

/-- Bin classifier for the binning witness: bin `0` when the reference box's
min on the requested axis is at most `0`, bin `1` otherwise. -/
def wGetBinC6 : BBox → Fin 3 → ℤ := fun b d => if b.bmin d ≤ 0 then 0 else 1

/-- `blocks` for the binning witness: the plain count. -/
def wBlocksC6 : ℕ → ℚ := fun n => (n : ℚ)

/-- References for the binning witness: the unit cube at the origin and a
unit cube shifted by `2` along `y` and `z` but not along `x`, so the
centroid bounds have zero extent on axis `0`. -/
def wRefsC6 : List BVHReference :=
  [⟨⟨fun _ => 0, fun _ => 1⟩, 0, 0, 1⟩,
   ⟨⟨mkVec3 0 2 2, mkVec3 1 3 3⟩, 1, 0, 1⟩]

/-- Centroid bounds (`center2` range) of the two witness references:
`center2` is `(1,1,1)` and `(1,5,5)`, zero extent on axis `0`. -/
def wCentC6 : BBox := ⟨mkVec3 1 1 1, mkVec3 1 5 5⟩

/-- Witness for `objectBinning_zero_extent_not_selected`: with two bins,
axis `1` separates the two cubes at SAH `6 < FLT_MAX`, so the feasibility
hypothesis holds and the degenerate axis `0` is not selected. -/
theorem objectBinning_zero_extent_not_selected_witness :
    (∃ d : Fin 3,
      binBestSahForced wGetBinC6 wBlocksC6 wRefsC6 wCentC6 2 d < FLT_MAX) ∧
    ((∀ d : Fin 3, wCentC6.size d ≤ 0 →
        binBestSahForced wGetBinC6 wBlocksC6 wRefsC6 wCentC6 2 d = FLT_MAX) ∧
      (binBestSahForced wGetBinC6 wBlocksC6 wRefsC6 wCentC6 2
          (objectBinningDim wGetBinC6 wBlocksC6 wRefsC6 wCentC6 2) =
        min (binBestSahForced wGetBinC6 wBlocksC6 wRefsC6 wCentC6 2 0)
          (min (binBestSahForced wGetBinC6 wBlocksC6 wRefsC6 wCentC6 2 1)
            (binBestSahForced wGetBinC6 wBlocksC6 wRefsC6 wCentC6 2 2))) ∧
      ¬ (wCentC6.size
          (objectBinningDim wGetBinC6 wBlocksC6 wRefsC6 wCentC6 2) ≤ 0)) := by
  have hfeas : ∃ d : Fin 3,
      binBestSahForced wGetBinC6 wBlocksC6 wRefsC6 wCentC6 2 d < FLT_MAX := by
    refine ⟨1, ?_⟩
    norm_num [binBestSahForced, binBestForAxis, binSahAt, binPrefixBounds,
      binPrefixCount, binSuffixBounds, binSuffixCount, binBoundsAt, binCountAt,
      wGetBinC6, wBlocksC6, wRefsC6, wCentC6, BBox.empty, BBox.growBox, mergeB,
      BBox.half_area, BBox.size, vmin, vmax, vsub, cclmin, cclmax, splatVec3,
      mkVec3, FLT_MAX, List.range_succ, Fin.ext_iff]
  exact ⟨hfeas, objectBinning_zero_extent_not_selected wGetBinC6 wBlocksC6
    wRefsC6 wCentC6 2 hfeas⟩

/-! ## `BVHObjectBinning::split` (`bvh/binning.cpp:1435-1498`)

The two-pointer partition loop over `prims[start, start + N)`:
`l` starts at `0`, `r` at `N - 1`; while `l <= r` the reference at `l`
either goes left (`get_bin(center)[dim] < pos`, `l++`) or is swapped with
the reference at `r` (`r--`).  The predicate `get_bin(...)[dim] < pos` is a
parameter `goesLeft` of the embedding (`get_bin` lives in the absent
`bvh/binning.h`).  The slice `[l, r]` is modelled as a list: moving the
reference at `l` right swaps it with the last slice element, so the new
slice is `rotateMiddle` of the tail and the moved reference joins the right
suffix at its front.  At loop exit `l` is the length of the left part and
`N - 1 - r` the length of the right part; the source guard
`l != 0 && N - 1 - r != 0` is the non-emptiness of both parts, and
otherwise the split falls back to the median by index
(`left = [start, start + N/2)`, `right = [start + N/2, start + N)`). -/

/-- The `while (l <= r)` partition loop, fuelled by the slice length (each
iteration shrinks the slice by one). -/
def partitionLoop (goesLeft : BVHReference → Bool) :
    ℕ → List BVHReference → List BVHReference → List BVHReference →
    List BVHReference × List BVHReference
  | 0, left, _, right => (left, right)
  | fuel + 1, left, region, right =>
    match region with
    | [] => (left, right)
    | x :: xs =>
      if goesLeft x then partitionLoop goesLeft fuel (left ++ [x]) xs right
      else partitionLoop goesLeft fuel left (rotateMiddle xs) (x :: right)

/-- `BVHObjectBinning::split`: the returned
`((left.start, left.size), (right.start, right.size))` ranges plus a flag
marking the median fallback branch. -/
def objectBinningSplit (goesLeft : BVHReference → Bool) (start : ℕ)
    (prims : List BVHReference) : ((ℕ × ℕ) × (ℕ × ℕ)) × Bool :=
  let N := prims.length
  let p := partitionLoop goesLeft N [] prims []
  if p.1.length ≠ 0 ∧ p.2.length ≠ 0 then
    (((start, p.1.length), (start + p.1.length, p.2.length)), false)
  else
    (((start, N / 2), (start + N / 2, N / 2 + N % 2)), true)

theorem partitionLoop_length (goesLeft : BVHReference → Bool) :
    ∀ (fuel : ℕ) (left region right : List BVHReference),
      region.length ≤ fuel →
      (partitionLoop goesLeft fuel left region right).1.length +
        (partitionLoop goesLeft fuel left region right).2.length =
      left.length + region.length + right.length := by
  intro fuel
  induction fuel with
  | zero =>
    intro left region right h
    have hnil : region = [] := List.eq_nil_of_length_eq_zero (Nat.le_zero.mp h)
    subst hnil
    simp [partitionLoop]
  | succ n ih =>
    intro left region right h
    cases region with
    | nil => simp [partitionLoop]
    | cons x xs =>
      simp only [partitionLoop]
      by_cases hx : goesLeft x = true
      · rw [if_pos hx]
        have hxs : xs.length ≤ n := by
          simp only [List.length_cons] at h
          omega
        have hrec := ih (left ++ [x]) xs right hxs
        simp only [List.length_append, List.length_cons, List.length_nil]
          at hrec ⊢
        omega
      · rw [if_neg hx]
        have hxs : (rotateMiddle xs).length ≤ n := by
          rw [rotateMiddle_length]
          simp only [List.length_cons] at h
          omega
        have hrec := ih left (rotateMiddle xs) (x :: right) hxs
        rw [rotateMiddle_length] at hrec
        simp only [List.length_cons] at hrec ⊢
        omega

/-- **C7.** For every range of at least two references, the binned object
split returns contiguous left/right sub-ranges covering the range with both
sides non-empty; and whenever the partition made no progress (all
references landed on one side), the result is the plain median split by
index: the left sub-range holds the first `N / 2` references and the right
sub-range the remaining `N / 2 + N % 2`. -/
theorem objectBinning_split_median_fallback (goesLeft : BVHReference → Bool)
    (start : ℕ) (prims : List BVHReference) (h2 : 2 ≤ prims.length) :
    ((objectBinningSplit goesLeft start prims).2 = true →
      (objectBinningSplit goesLeft start prims).1.1 =
        (start, prims.length / 2) ∧
      (objectBinningSplit goesLeft start prims).1.2 =
        (start + prims.length / 2,
          prims.length / 2 + prims.length % 2)) ∧
    (objectBinningSplit goesLeft start prims).1.1.1 = start ∧
    (objectBinningSplit goesLeft start prims).1.2.1 =
      start + (objectBinningSplit goesLeft start prims).1.1.2 ∧
    (objectBinningSplit goesLeft start prims).1.1.2 +
      (objectBinningSplit goesLeft start prims).1.2.2 = prims.length ∧
    1 ≤ (objectBinningSplit goesLeft start prims).1.1.2 ∧
    1 ≤ (objectBinningSplit goesLeft start prims).1.2.2 := by
  have hlen := partitionLoop_length goesLeft prims.length [] prims [] le_rfl
  simp only [List.length_nil] at hlen
  simp only [objectBinningSplit]
  split_ifs with hc
  · obtain ⟨hl, hr⟩ := hc
    refine ⟨by simp, rfl, rfl, ?_, ?_, ?_⟩
    · show (partitionLoop goesLeft prims.length [] prims []).1.length +
        (partitionLoop goesLeft prims.length [] prims []).2.length =
          prims.length
      omega
    · show 1 ≤ (partitionLoop goesLeft prims.length [] prims []).1.length
      omega
    · show 1 ≤ (partitionLoop goesLeft prims.length [] prims []).2.length
      omega
  · refine ⟨fun _ => ⟨rfl, rfl⟩, rfl, rfl, ?_, ?_, ?_⟩
    · show prims.length / 2 + (prims.length / 2 + prims.length % 2) =
        prims.length
      omega
    · show 1 ≤ prims.length / 2
      omega
    · show 1 ≤ prims.length / 2 + prims.length % 2
      omega

/-- References for the median-fallback witness: two identical unit cubes. -/
def wRefsC7 : List BVHReference :=
  [⟨⟨fun _ => 0, fun _ => 1⟩, 0, 0, 1⟩,
   ⟨⟨fun _ => 0, fun _ => 1⟩, 1, 0, 1⟩]

/-- Witness for `objectBinning_split_median_fallback`: with a predicate
sending every reference right, the partition makes no progress and the
median fallback splits the two references one-and-one. -/
theorem objectBinning_split_median_fallback_witness :
    2 ≤ wRefsC7.length ∧
    (((objectBinningSplit (fun _ => false) 5 wRefsC7).2 = true →
      (objectBinningSplit (fun _ => false) 5 wRefsC7).1.1 =
        (5, wRefsC7.length / 2) ∧
      (objectBinningSplit (fun _ => false) 5 wRefsC7).1.2 =
        (5 + wRefsC7.length / 2,
          wRefsC7.length / 2 + wRefsC7.length % 2)) ∧
    (objectBinningSplit (fun _ => false) 5 wRefsC7).1.1.1 = 5 ∧
    (objectBinningSplit (fun _ => false) 5 wRefsC7).1.2.1 =
      5 + (objectBinningSplit (fun _ => false) 5 wRefsC7).1.1.2 ∧
    (objectBinningSplit (fun _ => false) 5 wRefsC7).1.1.2 +
      (objectBinningSplit (fun _ => false) 5 wRefsC7).1.2.2 =
        wRefsC7.length ∧
    1 ≤ (objectBinningSplit (fun _ => false) 5 wRefsC7).1.1.2 ∧
    1 ≤ (objectBinningSplit (fun _ => false) 5 wRefsC7).1.2.2) := by
  have h2 : 2 ≤ wRefsC7.length := by norm_num [wRefsC7]
  exact ⟨h2, objectBinning_split_median_fallback (fun _ => false) 5 wRefsC7 h2⟩

/-! ## Packed arrays and `BVH2::refit_node` (`bvh/bvh2.cpp:868-925`)

The packed `pack.nodes` / `pack.leaf_nodes` arrays are lists of `int4`
words.  A word component is either an integer (child indices, primitive
ranges, types), an unsigned visibility value, or the bit pattern of a float
(`__float_as_int` of a box coordinate, or a transform row entry), modelled
by the inductive `PW`.  `BVH_NODE_SIZE`/`BVH_UNALIGNED_NODE_SIZE`/
`BVH_NODE_LEAF_SIZE` are the strides from `kernel/bvh/...` headers used by
`bvh2.cpp`.  `refit_primitives` (growing a box and OR-ing visibilities over
geometry data held outside the packed node arrays) is a parameter of the
embedding, as is `compute_node_transform` of `BVHUnaligned` (the transform
rows written by `pack_unaligned_node`); neither reads or writes the node
arrays. -/

/-- One component of a packed `int4` word. -/
inductive PW where
  | iw : ℤ → PW
  | uw : ℕ → PW
  | fw : ℚ → PW
deriving DecidableEq

/-- A packed `int4` word. -/
structure I4 where
  x : PW
  y : PW
  z : PW
  w : PW
deriving DecidableEq

/-- The packed node arrays of `PackedBVH` touched by refit. -/
structure PackS where
  nodes : List I4
  leaf_nodes : List I4
deriving DecidableEq

/-- `BVH_NODE_SIZE` (aligned inner node stride, in `int4` words). -/
def BVH_NODE_SIZE : ℕ := 4

/-- `BVH_UNALIGNED_NODE_SIZE` (unaligned inner node stride). -/
def BVH_UNALIGNED_NODE_SIZE : ℕ := 7

/-- `BVH_NODE_LEAF_SIZE` (leaf node stride). -/
def BVH_NODE_LEAF_SIZE : ℕ := 1

/-- `PATH_RAY_NODE_UNALIGNED` (kernel `types.h`, absent from the tree).
Modelled from the spec: the visibility bit that marks unaligned inner
nodes; only its being a fixed single bit matters here. -/
def PATH_RAY_NODE_UNALIGNED : ℕ := 2 ^ 26

/-- `visibility & ~PATH_RAY_NODE_UNALIGNED` on a 32-bit unsigned value. -/
def clearUnalignedVis (v : ℕ) : ℕ := v &&& (2 ^ 32 - 1 - PATH_RAY_NODE_UNALIGNED)

/-- `visibility | PATH_RAY_NODE_UNALIGNED`. -/
def setUnalignedVis (v : ℕ) : ℕ := v ||| PATH_RAY_NODE_UNALIGNED

/-- `BVH2::pack_aligned_node`: writes the four words of an aligned inner
node at `idx` (word `0` holds the masked visibilities and the child
indices `c0`, `c1`; words `1`-`3` the two boxes' coordinates). -/
def pack_aligned_node (nodes : List I4) (idx : ℕ) (b0 b1 : BBox)
    (c0 c1 : ℤ) (vis0 vis1 : ℕ) : List I4 :=
  (((nodes.set idx
    ⟨PW.uw (clearUnalignedVis vis0), PW.uw (clearUnalignedVis vis1),
      PW.iw c0, PW.iw c1⟩).set
    (idx + 1) ⟨PW.fw (b0.bmin 0), PW.fw (b1.bmin 0),
      PW.fw (b0.bmax 0), PW.fw (b1.bmax 0)⟩).set
    (idx + 2) ⟨PW.fw (b0.bmin 1), PW.fw (b1.bmin 1),
      PW.fw (b0.bmax 1), PW.fw (b1.bmax 1)⟩).set
    (idx + 3) ⟨PW.fw (b0.bmin 2), PW.fw (b1.bmin 2),
      PW.fw (b0.bmax 2), PW.fw (b1.bmax 2)⟩

/-- `BVH2::pack_unaligned_node`: writes the seven words of an unaligned
inner node at `idx`; `xr b i` stands for row `i` of
`BVHUnaligned::compute_node_transform(b, transform_identity())` (the
transform computation is a parameter; it does not read the arrays). -/
def pack_unaligned_node (xr : BBox → Fin 3 → I4) (nodes : List I4) (idx : ℕ)
    (b0 b1 : BBox) (c0 c1 : ℤ) (vis0 vis1 : ℕ) : List I4 :=
  ((((((nodes.set idx
    ⟨PW.uw (setUnalignedVis vis0), PW.uw (setUnalignedVis vis1),
      PW.iw c0, PW.iw c1⟩).set
    (idx + 1) (xr b0 0)).set (idx + 2) (xr b0 1)).set (idx + 3) (xr b0 2)).set
    (idx + 4) (xr b1 0)).set (idx + 5) (xr b1 1)).set (idx + 6) (xr b1 2)

/-- Decoded child index: `(c < 0) ? -c - 1 : c`. -/
def childIdx (c : ℤ) : ℕ := (if c < 0 then -c - 1 else c).toNat

/-- Decoded child leaf flag: `c < 0`. -/
def childLeaf (c : ℤ) : Bool := decide (c < 0)

/-- `BVH2::refit_node` (`bvh2.cpp:877-925`), fuelled by recursion depth.
`refitPrims c0 c1` stands for `refit_primitives(c0, c1, bbox, visibility)`
run on an empty box and zero visibility (it reads only geometry data).
Returns the updated arrays plus the grown box and visibility handed back
through the reference parameters; `none` on fuel exhaustion or a malformed
word. -/
def refit_node (refitPrims : ℤ → ℤ → BBox × ℕ) (xr : BBox → Fin 3 → I4) :
    ℕ → PackS → ℕ → Bool → Option (PackS × BBox × ℕ)
  | 0, _, _, _ => none
  | _ + 1, st, idx, true =>
    match st.leaf_nodes[idx]? with
    | some ⟨PW.iw c0, PW.iw c1, _, w⟩ =>
      some ({ st with leaf_nodes := (st.leaf_nodes.set idx
          ⟨PW.iw c0, PW.iw c1, PW.uw (refitPrims c0 c1).2, w⟩) },
        refitPrims c0 c1)
    | _ => none
  | fuel + 1, st, idx, false =>
    match st.nodes[idx]? with
    | some ⟨PW.uw vx, _, PW.iw c0, PW.iw c1⟩ =>
      match refit_node refitPrims xr fuel st (childIdx c0) (childLeaf c0) with
      | some (st0, b0, v0) =>
        match refit_node refitPrims xr fuel st0 (childIdx c1) (childLeaf c1) with
        | some (st1, b1, v1) =>
          some ({ st1 with nodes :=
              if vx &&& PATH_RAY_NODE_UNALIGNED ≠ 0 then
                pack_unaligned_node xr st1.nodes idx b0 b1 c0 c1 v0 v1
              else pack_aligned_node st1.nodes idx b0 b1 c0 c1 v0 v1 },
            (BBox.empty.growBox b0).growBox b1, v0 ||| v1)
        | none => none
      | none => none
    | _ => none

/-- `BVH2::refit_nodes` (`bvh2.cpp:868-875`): start at index `0`, leaf
exactly when `pack.root_index == -1`; the fuel bound covers any packed
tree (each recursive level consumes at least one distinct word). -/
def refit_nodes (refitPrims : ℤ → ℤ → BBox × ℕ) (xr : BBox → Fin 3 → I4)
    (st : PackS) (root_index : ℤ) : Option (PackS × BBox × ℕ) :=
  refit_node refitPrims xr (st.nodes.length + st.leaf_nodes.length + 1) st 0
    (root_index == -1)

/-- The topology of the packed structure: child index words with their
leaf-flag signs, the per-node unaligned bit, and the leaf primitive-range
words. -/
inductive Topo where
  | leaf : ℤ → ℤ → Topo
  | node : ℤ → ℤ → Bool → Topo → Topo → Topo
deriving DecidableEq

/-- Read the topology reachable from `(idx, leaf)` out of the packed
arrays, returning also the visited spans `(isLeaf, start, stride)` of the
two arrays.  Reads exactly the words `refit_node` reads for its control
flow. -/
def topoOf : ℕ → PackS → ℕ → Bool → Option (Topo × List (Bool × ℕ × ℕ))
  | 0, _, _, _ => none
  | _ + 1, st, idx, true =>
    match st.leaf_nodes[idx]? with
    | some ⟨PW.iw c0, PW.iw c1, _, _⟩ =>
      some (Topo.leaf c0 c1, [(true, idx, BVH_NODE_LEAF_SIZE)])
    | _ => none
  | fuel + 1, st, idx, false =>
    match st.nodes[idx]? with
    | some ⟨PW.uw vx, _, PW.iw c0, PW.iw c1⟩ =>
      match topoOf fuel st (childIdx c0) (childLeaf c0),
            topoOf fuel st (childIdx c1) (childLeaf c1) with
      | some (t0, s0), some (t1, s1) =>
        some (Topo.node c0 c1 (decide (vx &&& PATH_RAY_NODE_UNALIGNED ≠ 0)) t0 t1,
          (false, idx,
            if vx &&& PATH_RAY_NODE_UNALIGNED ≠ 0 then BVH_UNALIGNED_NODE_SIZE
            else BVH_NODE_SIZE) :: (s0 ++ s1))
      | _, _ => none
    | _ => none

/-- Membership of word `j` of the array selected by `isLeaf` in span `s`. -/
def inSpan (isLeaf : Bool) (j : ℕ) (s : Bool × ℕ × ℕ) : Prop :=
  s.1 = isLeaf ∧ s.2.1 ≤ j ∧ j < s.2.1 + s.2.2

/-- Word `j` of the array selected by `isLeaf` lies in one of the spans. -/
def writesAt (spans : List (Bool × ℕ × ℕ)) (isLeaf : Bool) (j : ℕ) : Prop :=
  ∃ s ∈ spans, inSpan isLeaf j s

/-- Two spans do not overlap (vacuous across the two arrays). -/
def spanDisjoint (a b : Bool × ℕ × ℕ) : Prop :=
  a.1 = b.1 → (a.2.1 + a.2.2 ≤ b.2.1 ∨ b.2.1 + b.2.2 ≤ a.2.1)

/-- All spans of a visit are pairwise disjoint (the packed layout produced
by `pack_nodes`, where each node owns its stride of words). -/
def Sep (spans : List (Bool × ℕ × ℕ)) : Prop := spans.Pairwise spanDisjoint

/-- The word-`0` slot of span `s` holds the same topology-relevant data in
`st'` as in `st`: for a leaf, components `x`, `y`, `w`; for an inner node,
the child words `z`, `w` and the unaligned bit of `x`. -/
def w0AgreeAt (st st' : PackS) : Bool × ℕ × ℕ → Prop
  | (true, i, _) => ∀ d, st.leaf_nodes[i]? = some d →
      ∃ d', st'.leaf_nodes[i]? = some d' ∧ d'.x = d.x ∧ d'.y = d.y ∧ d'.w = d.w
  | (false, i, _) => ∀ d, st.nodes[i]? = some d →
      ∃ d', st'.nodes[i]? = some d' ∧ d'.z = d.z ∧ d'.w = d.w ∧
        ∀ vx, d.x = PW.uw vx → ∃ vx', d'.x = PW.uw vx' ∧
          ((vx' &&& PATH_RAY_NODE_UNALIGNED ≠ 0) ↔
            (vx &&& PATH_RAY_NODE_UNALIGNED ≠ 0))

/-- The word-`0` slot of span `s` is identical in `st'` and `st`. -/
def slotEq (st st' : PackS) : Bool × ℕ × ℕ → Prop
  | (true, i, _) => st'.leaf_nodes[i]? = st.leaf_nodes[i]?
  | (false, i, _) => st'.nodes[i]? = st.nodes[i]?

theorem clearUnalignedVis_bit (v : ℕ) :
    clearUnalignedVis v &&& PATH_RAY_NODE_UNALIGNED = 0 := by
  unfold clearUnalignedVis PATH_RAY_NODE_UNALIGNED
  rw [Nat.land_assoc]
  have h : (2 ^ 32 - 1 - 2 ^ 26 : ℕ) &&& 2 ^ 26 = 0 := by decide
  rw [h]
  simp

theorem setUnalignedVis_bit (v : ℕ) :
    setUnalignedVis v &&& PATH_RAY_NODE_UNALIGNED ≠ 0 := by
  unfold setUnalignedVis PATH_RAY_NODE_UNALIGNED
  have h : ((v ||| 2 ^ 26) &&& 2 ^ 26).testBit 26 = true := by
    simp [Nat.testBit_and, Nat.testBit_lor]
    exact ⟨Or.inr (by decide), by decide⟩
  intro hc
  rw [hc] at h
  simp at h

theorem pack_aligned_node_length (nodes : List I4) (idx : ℕ) (b0 b1 : BBox)
    (c0 c1 : ℤ) (v0 v1 : ℕ) :
    (pack_aligned_node nodes idx b0 b1 c0 c1 v0 v1).length = nodes.length := by
  simp [pack_aligned_node]

theorem pack_unaligned_node_length (xr : BBox → Fin 3 → I4) (nodes : List I4)
    (idx : ℕ) (b0 b1 : BBox) (c0 c1 : ℤ) (v0 v1 : ℕ) :
    (pack_unaligned_node xr nodes idx b0 b1 c0 c1 v0 v1).length =
      nodes.length := by
  simp [pack_unaligned_node]

theorem pack_aligned_node_frame (nodes : List I4) (idx : ℕ) (b0 b1 : BBox)
    (c0 c1 : ℤ) (v0 v1 : ℕ) (j : ℕ) (hj : j < idx ∨ idx + BVH_NODE_SIZE ≤ j) :
    (pack_aligned_node nodes idx b0 b1 c0 c1 v0 v1)[j]? = nodes[j]? := by
  simp only [BVH_NODE_SIZE] at hj
  unfold pack_aligned_node
  rw [List.getElem?_set_ne (by omega), List.getElem?_set_ne (by omega),
    List.getElem?_set_ne (by omega), List.getElem?_set_ne (by omega)]

theorem pack_unaligned_node_frame (xr : BBox → Fin 3 → I4) (nodes : List I4)
    (idx : ℕ) (b0 b1 : BBox) (c0 c1 : ℤ) (v0 v1 : ℕ) (j : ℕ)
    (hj : j < idx ∨ idx + BVH_UNALIGNED_NODE_SIZE ≤ j) :
    (pack_unaligned_node xr nodes idx b0 b1 c0 c1 v0 v1)[j]? = nodes[j]? := by
  simp only [BVH_UNALIGNED_NODE_SIZE] at hj
  unfold pack_unaligned_node
  rw [List.getElem?_set_ne (by omega), List.getElem?_set_ne (by omega),
    List.getElem?_set_ne (by omega), List.getElem?_set_ne (by omega),
    List.getElem?_set_ne (by omega), List.getElem?_set_ne (by omega),
    List.getElem?_set_ne (by omega)]

theorem pack_aligned_node_self (nodes : List I4) (idx : ℕ) (b0 b1 : BBox)
    (c0 c1 : ℤ) (v0 v1 : ℕ) (h : idx < nodes.length) :
    (pack_aligned_node nodes idx b0 b1 c0 c1 v0 v1)[idx]? =
      some ⟨PW.uw (clearUnalignedVis v0), PW.uw (clearUnalignedVis v1),
        PW.iw c0, PW.iw c1⟩ := by
  unfold pack_aligned_node
  rw [List.getElem?_set_ne (by omega), List.getElem?_set_ne (by omega),
    List.getElem?_set_ne (by omega)]
  exact List.getElem?_set_eq h

theorem pack_unaligned_node_self (xr : BBox → Fin 3 → I4) (nodes : List I4)
    (idx : ℕ) (b0 b1 : BBox) (c0 c1 : ℤ) (v0 v1 : ℕ) (h : idx < nodes.length) :
    (pack_unaligned_node xr nodes idx b0 b1 c0 c1 v0 v1)[idx]? =
      some ⟨PW.uw (setUnalignedVis v0), PW.uw (setUnalignedVis v1),
        PW.iw c0, PW.iw c1⟩ := by
  unfold pack_unaligned_node
  rw [List.getElem?_set_ne (by omega), List.getElem?_set_ne (by omega),
    List.getElem?_set_ne (by omega), List.getElem?_set_ne (by omega),
    List.getElem?_set_ne (by omega), List.getElem?_set_ne (by omega)]
  exact List.getElem?_set_eq h

theorem spanDisjoint_symm (a b : Bool × ℕ × ℕ) (h : spanDisjoint a b) :
    spanDisjoint b a := by
  intro hab
  rcases h hab.symm with h1 | h1
  · exact Or.inr h1
  · exact Or.inl h1

theorem writesAt_mono (spans spans' : List (Bool × ℕ × ℕ)) (isLeaf : Bool)
    (j : ℕ) (hsub : ∀ x ∈ spans, x ∈ spans') (h : writesAt spans isLeaf j) :
    writesAt spans' isLeaf j := by
  obtain ⟨s, hs, hin⟩ := h
  exact ⟨s, hsub s hs, hin⟩

theorem not_writesAt_of_disjoint (spansA : List (Bool × ℕ × ℕ))
    (s : Bool × ℕ × ℕ) (hpos : 0 < s.2.2)
    (hdis : ∀ a ∈ spansA, spanDisjoint a s) : ¬ writesAt spansA s.1 s.2.1 := by
  rintro ⟨a, ha, hab, h1, h2⟩
  rcases hdis a ha hab with h3 | h3 <;> omega

theorem slotEq_of_frame (st st' : PackS) (spansA : List (Bool × ℕ × ℕ))
    (s : Bool × ℕ × ℕ)
    (hn : ∀ j, ¬ writesAt spansA false j → st'.nodes[j]? = st.nodes[j]?)
    (hl : ∀ j, ¬ writesAt spansA true j → st'.leaf_nodes[j]? = st.leaf_nodes[j]?)
    (hpos : 0 < s.2.2) (hdis : ∀ a ∈ spansA, spanDisjoint a s) :
    slotEq st st' s := by
  have hnw := not_writesAt_of_disjoint spansA s hpos hdis
  obtain ⟨b, i, k⟩ := s
  cases b
  · exact hn i hnw
  · exact hl i hnw

theorem w0AgreeAt_of_slotEq (st st' : PackS) (s : Bool × ℕ × ℕ)
    (h : slotEq st st' s) : w0AgreeAt st st' s := by
  obtain ⟨b, i, k⟩ := s
  cases b
  · simp only [slotEq] at h
    simp only [w0AgreeAt]
    intro d hd
    exact ⟨d, by rw [h, hd], rfl, rfl, fun vx hvx => ⟨vx, hvx, Iff.rfl⟩⟩
  · simp only [slotEq] at h
    simp only [w0AgreeAt]
    intro d hd
    exact ⟨d, by rw [h, hd], rfl, rfl, rfl⟩

theorem w0AgreeAt_trans (st st' st'' : PackS) (s : Bool × ℕ × ℕ)
    (h1 : w0AgreeAt st st' s) (h2 : w0AgreeAt st' st'' s) :
    w0AgreeAt st st'' s := by
  obtain ⟨b, i, k⟩ := s
  cases b
  · simp only [w0AgreeAt] at h1 h2 ⊢
    intro d hd
    obtain ⟨d', hd', hz, hw, hx⟩ := h1 d hd
    obtain ⟨d'', hd'', hz', hw', hx'⟩ := h2 d' hd'
    refine ⟨d'', hd'', hz'.trans hz, hw'.trans hw, fun vx hvx => ?_⟩
    obtain ⟨vx', hvx', hiff⟩ := hx vx hvx
    obtain ⟨vx'', hvx'', hiff'⟩ := hx' vx' hvx'
    exact ⟨vx'', hvx'', hiff'.trans hiff⟩
  · simp only [w0AgreeAt] at h1 h2 ⊢
    intro d hd
    obtain ⟨d', hd', hx, hy, hw⟩ := h1 d hd
    obtain ⟨d'', hd'', hx', hy', hw'⟩ := h2 d' hd'
    exact ⟨d'', hd'', hx'.trans hx, hy'.trans hy, hw'.trans hw⟩

theorem topoOf_spans_pos : ∀ (fuel : ℕ) (st : PackS) (idx : ℕ) (leaf : Bool)
    (t : Topo) (spans : List (Bool × ℕ × ℕ)),
    topoOf fuel st idx leaf = some (t, spans) → ∀ s ∈ spans, 0 < s.2.2 := by
  intro fuel
  induction fuel with
  | zero =>
    intro st idx leaf t spans h
    simp [topoOf] at h
  | succ n ih =>
    intro st idx leaf t spans h
    cases leaf
    · simp only [topoOf] at h
      split at h
      · split at h
        · obtain ⟨rfl, rfl⟩ := Prod.mk.injEq _ _ _ _ ▸ Option.some.inj h
          intro s hs
          rcases List.mem_cons.mp hs with rfl | hs'
          · simp only
            split <;> simp [BVH_UNALIGNED_NODE_SIZE, BVH_NODE_SIZE]
          · rcases List.mem_append.mp hs' with h0 | h1
            · have := ih st _ _ _ _ (by assumption) _ h0
              exact this
            · have := ih st _ _ _ _ (by assumption) _ h1
              exact this
        · exact absurd h (by simp)
      · exact absurd h (by simp)
    · simp only [topoOf] at h
      split at h
      · obtain ⟨rfl, rfl⟩ := Prod.mk.injEq _ _ _ _ ▸ Option.some.inj h
        intro s hs
        rcases List.mem_cons.mp hs with rfl | hs'
        · simp [BVH_NODE_LEAF_SIZE]
        · simp at hs'
      · exact absurd h (by simp)

/-- Reading the topology depends only on the topology-relevant projections
of the visited word-`0` slots. -/
theorem topoOf_congr : ∀ (fuel : ℕ) (st st' : PackS) (idx : ℕ) (leaf : Bool)
    (t : Topo) (spans : List (Bool × ℕ × ℕ)),
    topoOf fuel st idx leaf = some (t, spans) →
    (∀ s ∈ spans, w0AgreeAt st st' s) →
    topoOf fuel st' idx leaf = some (t, spans) := by
  intro fuel
  induction fuel with
  | zero =>
    intro st st' idx leaf t spans h _
    simp [topoOf] at h
  | succ n ih =>
    intro st st' idx leaf t spans h hag
    cases leaf
    · -- inner node
      simp only [topoOf] at h ⊢
      split at h
      case _ vx y c0 c1 heq =>
        split at h
        case _ t0 s0 t1 s1 heqT0 heqT1 =>
          obtain ⟨rfl, rfl⟩ := Prod.mk.injEq _ _ _ _ ▸ Option.some.inj h
          have hagP := hag _ (List.mem_cons_self _ _)
          simp only [w0AgreeAt] at hagP
          obtain ⟨d', hd', hz, hw, hx⟩ := hagP _ heq
          obtain ⟨vx', hvx', hiff⟩ := hx vx rfl
          obtain ⟨dx', dy', dz', dw'⟩ := d'
          simp only at hz hw hvx'
          subst hz hw hvx'
          rw [hd']
          dsimp only
          have hrec0 := ih st st' (childIdx c0) (childLeaf c0) t0 s0 heqT0
            (fun s hs => hag s (List.mem_cons_of_mem _
              (List.mem_append_left _ hs)))
          have hrec1 := ih st st' (childIdx c1) (childLeaf c1) t1 s1 heqT1
            (fun s hs => hag s (List.mem_cons_of_mem _
              (List.mem_append_right _ hs)))
          rw [hrec0, hrec1]
          simp only [hiff]
        · exact absurd h (by simp)
      · exact absurd h (by simp)
    · -- leaf node
      simp only [topoOf] at h ⊢
      split at h
      case _ c0 c1 z w heq =>
        obtain ⟨rfl, rfl⟩ := Prod.mk.injEq _ _ _ _ ▸ Option.some.inj h
        have hagP := hag _ (List.mem_cons_self _ _)
        simp only [w0AgreeAt] at hagP
        obtain ⟨d', hd', hx, hy, hw⟩ := hagP _ heq
        obtain ⟨dx', dy', dz', dw'⟩ := d'
        simp only at hx hy hw
        subst hx hy hw
        rw [hd']
      · exact absurd h (by simp)

/-- The workhorse induction: a successful refit preserves the array
lengths, writes only inside the visited spans, and preserves the
topology-relevant projections of every visited word-`0` slot. -/
theorem refit_node_frame (refitPrims : ℤ → ℤ → BBox × ℕ)
    (xr : BBox → Fin 3 → I4) :
    ∀ (fuel : ℕ) (st : PackS) (idx : ℕ) (leaf : Bool)
      (res : PackS × BBox × ℕ) (t : Topo) (spans : List (Bool × ℕ × ℕ)),
      refit_node refitPrims xr fuel st idx leaf = some res →
      topoOf fuel st idx leaf = some (t, spans) →
      Sep spans →
      (res.1.nodes.length = st.nodes.length ∧
        res.1.leaf_nodes.length = st.leaf_nodes.length) ∧
      (∀ j, ¬ writesAt spans false j → res.1.nodes[j]? = st.nodes[j]?) ∧
      (∀ j, ¬ writesAt spans true j → res.1.leaf_nodes[j]? = st.leaf_nodes[j]?) ∧
      (∀ s ∈ spans, w0AgreeAt st res.1 s) := by
  intro fuel
  induction fuel with
  | zero =>
    intro st idx leaf res t spans hrun htopo hsep
    simp [refit_node] at hrun
  | succ n ih =>
    intro st idx leaf res t spans hrun htopo hsep
    cases leaf
    · -- inner node
      simp only [refit_node] at hrun
      split at hrun
      case _ vx y c0 c1 heq =>
        split at hrun
        case _ st0 b0 v0 heqL =>
          split at hrun
          case _ st1 b1 v1 heqR =>
            obtain rfl := Option.some.inj hrun
            dsimp only
            simp only [topoOf] at htopo
            rw [heq] at htopo
            dsimp only at htopo
            split at htopo
            case _ t0 s0 t1 s1 heqT0 heqT1 =>
              obtain ⟨rfl, rfl⟩ := Prod.mk.injEq _ _ _ _ ▸ Option.some.inj htopo
              set K : ℕ := if vx &&& PATH_RAY_NODE_UNALIGNED ≠ 0 then
                BVH_UNALIGNED_NODE_SIZE else BVH_NODE_SIZE with hK
              set N2 : List I4 := if vx &&& PATH_RAY_NODE_UNALIGNED ≠ 0 then
                pack_unaligned_node xr st1.nodes idx b0 b1 c0 c1 v0 v1
                else pack_aligned_node st1.nodes idx b0 b1 c0 c1 v0 v1 with hN2
              obtain ⟨hpar, hrest⟩ := List.pairwise_cons.mp hsep
              obtain ⟨hsep0, hsep1, hcross⟩ := List.pairwise_append.mp hrest
              obtain ⟨⟨hLn, hLl⟩, hLfn, hLfl, hLag⟩ :=
                ih st (childIdx c0) (childLeaf c0) (st0, b0, v0) t0 s0
                  heqL heqT0 hsep0
              have hpos0 := topoOf_spans_pos n st _ _ t0 s0 heqT0
              have hpos1 := topoOf_spans_pos n st _ _ t1 s1 heqT1
              have hagR : ∀ s ∈ s1, w0AgreeAt st st0 s := fun s hs =>
                w0AgreeAt_of_slotEq st st0 s (slotEq_of_frame st st0 s0 s
                  hLfn hLfl (hpos1 s hs) (fun a ha => hcross a ha s hs))
              have heqT1' := topoOf_congr n st st0 (childIdx c1) (childLeaf c1)
                t1 s1 heqT1 hagR
              obtain ⟨⟨hRn, hRl⟩, hRfn, hRfl, hRag⟩ :=
                ih st0 (childIdx c1) (childLeaf c1) (st1, b1, v1) t1 s1
                  heqR heqT1' hsep1
              have hKpos : 0 < K := by
                rw [hK]
                split <;> simp [BVH_UNALIGNED_NODE_SIZE, BVH_NODE_SIZE]
              have hN2len : N2.length = st1.nodes.length := by
                rw [hN2]
                split
                · exact pack_unaligned_node_length xr st1.nodes idx b0 b1 c0 c1 v0 v1
                · exact pack_aligned_node_length st1.nodes idx b0 b1 c0 c1 v0 v1
              have hN2frame : ∀ j, j < idx ∨ idx + K ≤ j →
                  N2[j]? = st1.nodes[j]? := by
                intro j hj
                rw [hK] at hj
                rw [hN2]
                by_cases hU : vx &&& PATH_RAY_NODE_UNALIGNED ≠ 0
                · rw [if_pos hU]
                  rw [if_pos hU] at hj
                  exact pack_unaligned_node_frame xr st1.nodes idx b0 b1 c0 c1 v0 v1 j hj
                · rw [if_neg hU]
                  rw [if_neg hU] at hj
                  exact pack_aligned_node_frame st1.nodes idx b0 b1 c0 c1 v0 v1 j hj
              have hN2self : idx < st1.nodes.length → ∃ xv0 xv1 : ℕ,
                  N2[idx]? = some ⟨PW.uw xv0, PW.uw xv1, PW.iw c0, PW.iw c1⟩ ∧
                  ((xv0 &&& PATH_RAY_NODE_UNALIGNED ≠ 0) ↔
                    (vx &&& PATH_RAY_NODE_UNALIGNED ≠ 0)) := by
                intro hlt
                rw [hN2]
                by_cases hU : vx &&& PATH_RAY_NODE_UNALIGNED ≠ 0
                · refine ⟨setUnalignedVis v0, setUnalignedVis v1, ?_, ?_⟩
                  · rw [if_pos hU]
                    exact pack_unaligned_node_self xr st1.nodes idx b0 b1 c0 c1 v0 v1 hlt
                  · exact ⟨fun _ => hU, fun _ => setUnalignedVis_bit v0⟩
                · refine ⟨clearUnalignedVis v0, clearUnalignedVis v1, ?_, ?_⟩
                  · rw [if_neg hU]
                    exact pack_aligned_node_self st1.nodes idx b0 b1 c0 c1 v0 v1 hlt
                  · constructor
                    · intro hc
                      exact absurd (clearUnalignedVis_bit v0) hc
                    · intro hc
                      exact absurd hc hU
              have hsub0 : ∀ x ∈ s0, x ∈ (false, idx, K) :: (s0 ++ s1) :=
                fun x hx => List.mem_cons_of_mem _ (List.mem_append_left _ hx)
              have hsub1 : ∀ x ∈ s1, x ∈ (false, idx, K) :: (s0 ++ s1) :=
                fun x hx => List.mem_cons_of_mem _ (List.mem_append_right _ hx)
              have hidxlt : idx < st.nodes.length := (List.getElem?_eq_some.mp heq).1
              have hnwP0 : ¬ writesAt s0 false idx :=
                not_writesAt_of_disjoint s0 (false, idx, K) hKpos
                  (fun a ha => spanDisjoint_symm _ _ (hpar a (List.mem_append_left _ ha)))
              have hnwP1 : ¬ writesAt s1 false idx :=
                not_writesAt_of_disjoint s1 (false, idx, K) hKpos
                  (fun a ha => spanDisjoint_symm _ _ (hpar a (List.mem_append_right _ ha)))
              have hslot01 : st1.nodes[idx]? = st.nodes[idx]? := by
                rw [hRfn idx hnwP1, hLfn idx hnwP0]
              have hslotF : ∀ s ∈ s0 ++ s1, slotEq st1
                  ({ nodes := N2, leaf_nodes := st1.leaf_nodes } : PackS) s := by
                intro s hs
                have hdisP : spanDisjoint (false, idx, K) s := hpar s hs
                have hspos : 0 < s.2.2 := by
                  rcases List.mem_append.mp hs with h0 | h1
                  · exact hpos0 s h0
                  · exact hpos1 s h1
                obtain ⟨sb, si, sk⟩ := s
                cases sb
                · have hcase := hdisP rfl
                  dsimp only at hcase hspos
                  exact hN2frame si (by omega)
                · rfl
              refine ⟨⟨?_, ?_⟩, ?_, ?_, ?_⟩
              · show N2.length = st.nodes.length
                rw [hN2len, hRn, hLn]
              · show st1.leaf_nodes.length = st.leaf_nodes.length
                rw [hRl, hLl]
              · intro j hnw
                show N2[j]? = st.nodes[j]?
                have hnwp : ¬ inSpan false j (false, idx, K) := fun hin =>
                  hnw ⟨_, List.mem_cons_self _ _, hin⟩
                have hb : j < idx ∨ idx + K ≤ j := by
                  by_contra hcon
                  push_neg at hcon
                  refine hnwp ⟨rfl, ?_, ?_⟩ <;> dsimp only <;> omega
                rw [hN2frame j hb, hRfn j (fun hw => hnw (writesAt_mono s1 _ _ _ hsub1 hw)),
                  hLfn j (fun hw => hnw (writesAt_mono s0 _ _ _ hsub0 hw))]
              · intro j hnw
                show st1.leaf_nodes[j]? = st.leaf_nodes[j]?
                rw [hRfl j (fun hw => hnw (writesAt_mono s1 _ _ _ hsub1 hw)),
                  hLfl j (fun hw => hnw (writesAt_mono s0 _ _ _ hsub0 hw))]
              · intro s hs
                rcases List.mem_cons.mp hs with rfl | hs'
                · simp only [w0AgreeAt]
                  intro d hd
                  obtain rfl := Option.some.inj (heq.symm.trans hd)
                  have hlt1 : idx < st1.nodes.length := by
                    rw [hRn, hLn]
                    exact hidxlt
                  obtain ⟨xv0, xv1, hself, hiff⟩ := hN2self hlt1
                  refine ⟨⟨PW.uw xv0, PW.uw xv1, PW.iw c0, PW.iw c1⟩, hself, rfl, rfl, ?_⟩
                  intro vx0 hvx0
                  simp only at hvx0
                  obtain rfl : vx = vx0 := PW.uw.inj hvx0
                  exact ⟨xv0, rfl, hiff⟩
                · have ha3 : w0AgreeAt st1
                      ({ nodes := N2, leaf_nodes := st1.leaf_nodes } : PackS) s :=
                    w0AgreeAt_of_slotEq _ _ s (hslotF s hs')
                  rcases List.mem_append.mp hs' with h0 | h1
                  · have ha1 : w0AgreeAt st st0 s := hLag s h0
                    have ha2 : w0AgreeAt st0 st1 s :=
                      w0AgreeAt_of_slotEq st0 st1 s (slotEq_of_frame st0 st1 s1 s
                        hRfn hRfl (hpos0 s h0)
                        (fun a ha => spanDisjoint_symm _ _ (hcross s h0 a ha)))
                    exact w0AgreeAt_trans _ _ _ s (w0AgreeAt_trans _ _ _ s ha1 ha2) ha3
                  · have ha1 : w0AgreeAt st st0 s := hagR s h1
                    have ha2 : w0AgreeAt st0 st1 s := hRag s h1
                    exact w0AgreeAt_trans _ _ _ s (w0AgreeAt_trans _ _ _ s ha1 ha2) ha3
            · exact absurd htopo (by simp)
          · exact absurd hrun (by simp)
        · exact absurd hrun (by simp)
      · exact absurd hrun (by simp)
    · -- leaf node
      simp only [refit_node] at hrun
      split at hrun
      case _ c0 c1 z w heq =>
        obtain rfl := Option.some.inj hrun
        dsimp only
        simp only [topoOf] at htopo
        rw [heq] at htopo
        dsimp only at htopo
        obtain ⟨rfl, rfl⟩ := Prod.mk.injEq _ _ _ _ ▸ Option.some.inj htopo
        refine ⟨⟨rfl, by simp⟩, fun j _ => rfl, ?_, ?_⟩
        · intro j hnw
          show (st.leaf_nodes.set idx _)[j]? = st.leaf_nodes[j]?
          apply List.getElem?_set_ne
          intro hij
          subst hij
          refine hnw ⟨(true, idx, BVH_NODE_LEAF_SIZE), List.mem_cons_self _ _, rfl, le_rfl, ?_⟩
          simp [BVH_NODE_LEAF_SIZE]
        · intro s hs
          rcases List.mem_cons.mp hs with rfl | hs'
          · simp only [w0AgreeAt]
            intro d hd
            obtain rfl := Option.some.inj (heq.symm.trans hd)
            have hlt : idx < st.leaf_nodes.length := (List.getElem?_eq_some.mp heq).1
            exact ⟨⟨PW.iw c0, PW.iw c1, PW.uw (refitPrims c0 c1).2, w⟩,
              List.getElem?_set_eq hlt, rfl, rfl, rfl⟩
          · simp at hs'
      · exact absurd hrun (by simp)

/-- **C3.** For a packed structure whose visited node spans are pairwise
disjoint (the layout `pack_nodes` produces), a successful refit leaves both
array lengths unchanged, preserves for every visited inner node the child
index words (`c0`, `c1`, leaf-flag signs included) and the unaligned bit,
preserves for every leaf node the primitive-range words and the type word,
and hence reads back the identical tree topology afterwards. -/
theorem refit_nodes_preserves_topology (refitPrims : ℤ → ℤ → BBox × ℕ)
    (xr : BBox → Fin 3 → I4) (st : PackS) (root_index : ℤ)
    (res : PackS × BBox × ℕ) (t : Topo) (spans : List (Bool × ℕ × ℕ))
    (hrun : refit_nodes refitPrims xr st root_index = some res)
    (htopo : topoOf (st.nodes.length + st.leaf_nodes.length + 1) st 0
      (root_index == -1) = some (t, spans))
    (hsep : Sep spans) :
    res.1.nodes.length = st.nodes.length ∧
    res.1.leaf_nodes.length = st.leaf_nodes.length ∧
    (∀ s ∈ spans, w0AgreeAt st res.1 s) ∧
    topoOf (st.nodes.length + st.leaf_nodes.length + 1) res.1 0
      (root_index == -1) = some (t, spans) := by
  obtain ⟨⟨h1, h2⟩, _, _, hag⟩ := refit_node_frame refitPrims xr
    (st.nodes.length + st.leaf_nodes.length + 1) st 0 (root_index == -1)
    res t spans hrun htopo hsep
  exact ⟨h1, h2, hag, topoOf_congr _ st res.1 0 _ t spans htopo hag⟩

/-- Constant primitive-refit result for the refit witness. -/
def wPrimsC3 : ℤ → ℤ → BBox × ℕ := fun _ _ => (⟨fun _ => 0, fun _ => 1⟩, 3)

/-- Constant transform rows for the refit witness. -/
def wXrC3 : BBox → Fin 3 → I4 := fun _ _ => ⟨PW.fw 0, PW.fw 0, PW.fw 0, PW.fw 0⟩

/-- Packed arrays for the refit witness: one aligned inner node (four
words, children the two leaves encoded `-1` and `-2`) and two leaf words. -/
def wPackC3 : PackS :=
  ⟨[⟨PW.uw 0, PW.uw 0, PW.iw (-1), PW.iw (-2)⟩,
    ⟨PW.fw 0, PW.fw 0, PW.fw 0, PW.fw 0⟩,
    ⟨PW.fw 0, PW.fw 0, PW.fw 0, PW.fw 0⟩,
    ⟨PW.fw 0, PW.fw 0, PW.fw 0, PW.fw 0⟩],
   [⟨PW.iw 0, PW.iw 1, PW.uw 0, PW.iw 4⟩,
    ⟨PW.iw 1, PW.iw 2, PW.uw 0, PW.iw 4⟩]⟩

/-- Topology of `wPackC3`. -/
def wTopoC3 : Topo := Topo.node (-1) (-2) false (Topo.leaf 0 1) (Topo.leaf 1 2)

/-- Visited spans of `wPackC3`. -/
def wSpansC3 : List (Bool × ℕ × ℕ) := [(false, 0, 4), (true, 0, 1), (true, 1, 1)]

/-- Witness for `refit_nodes_preserves_topology` on the one-inner-node,
two-leaf pack. -/
theorem refit_nodes_preserves_topology_witness :
    ∃ res : PackS × BBox × ℕ,
      refit_nodes wPrimsC3 wXrC3 wPackC3 0 = some res ∧
      topoOf (wPackC3.nodes.length + wPackC3.leaf_nodes.length + 1) wPackC3 0
        ((0 : ℤ) == -1) = some (wTopoC3, wSpansC3) ∧
      Sep wSpansC3 ∧
      res.1.nodes.length = wPackC3.nodes.length ∧
      res.1.leaf_nodes.length = wPackC3.leaf_nodes.length ∧
      (∀ s ∈ wSpansC3, w0AgreeAt wPackC3 res.1 s) ∧
      topoOf (wPackC3.nodes.length + wPackC3.leaf_nodes.length + 1) res.1 0
        ((0 : ℤ) == -1) = some (wTopoC3, wSpansC3) := by
  obtain ⟨res, hrun⟩ : ∃ res, refit_nodes wPrimsC3 wXrC3 wPackC3 0 = some res :=
    ⟨_, rfl⟩
  have htopo : topoOf (wPackC3.nodes.length + wPackC3.leaf_nodes.length + 1)
      wPackC3 0 ((0 : ℤ) == -1) = some (wTopoC3, wSpansC3) := rfl
  have hsep : Sep wSpansC3 := by
    refine List.Pairwise.cons ?_ (List.Pairwise.cons ?_ (List.pairwise_singleton _ _))
    · intro b hb hc
      rcases List.mem_cons.mp hb with rfl | hb'
      · exact absurd hc (by decide)
      · rcases List.mem_cons.mp hb' with rfl | hb''
        · exact absurd hc (by decide)
        · simp at hb''
    · intro b hb
      rcases List.mem_cons.mp hb with rfl | hb'
      · intro _
        left
        decide
      · simp at hb'
  obtain ⟨h1, h2, h3, h4⟩ := refit_nodes_preserves_topology wPrimsC3 wXrC3
    wPackC3 0 res wTopoC3 wSpansC3 hrun htopo hsep
  exact ⟨res, hrun, htopo, hsep, h1, h2, h3, h4⟩

/-! ## `BVH2::pack_instances` (`bvh/bvh2.cpp:1045-1221`)

The top-level merge loop over the scene objects.  Geometries are
identified by an index (standing for the `Geometry *` key of the
`unordered_map`); `geomOf` gives each geometry's packed arrays,
`root_index`, `prim_offset` and `need_build_bvh` result.  The global
arrays are modelled as append-lists (the source writes sequentially at
the running offsets into pre-resized arrays); the conditional `prim_time`
copy (motion blur only) is outside the model.  The node-copy loop walks
the source nodes in strides of `BVH_NODE_SIZE` or
`BVH_UNALIGNED_NODE_SIZE` by the unaligned bit of the stride's first word
(`nsize_bbox` is `0` in both branches), offsetting the child words
`z`/`w` by `noffset` or `-noffset_leaf` and copying the remaining words
verbatim. -/

/-- One geometry's packed data as seen by `pack_instances`. -/
structure GeomPack where
  prim_index : List ℤ
  prim_type : List ℤ
  prim_visibility : List ℕ
  nodes : List I4
  leaf_nodes : List I4
  root_index : ℤ
  prim_offset : ℤ
  need_build : Bool

/-- `data.z += (data.z < 0) ? -noffset_leaf : noffset` on a child word. -/
def adjustChildW (no lo : ℕ) : PW → PW
  | PW.iw n => PW.iw (n + (if n < 0 then -(lo : ℤ) else (no : ℤ)))
  | p => p

/-- `data.x += prim_offset; data.y += prim_offset` on a leaf word. -/
def adjustLeafWord (po : ℕ) (d : I4) : I4 :=
  ⟨(match d.x with | PW.iw n => PW.iw (n + (po : ℤ)) | p => p),
   (match d.y with | PW.iw n => PW.iw (n + (po : ℤ)) | p => p), d.z, d.w⟩

/-- Unaligned-bit test `bvh_nodes[i].x & PATH_RAY_NODE_UNALIGNED`. -/
def uBitSet (d : I4) : Bool :=
  match d.x with
  | PW.uw v => decide (v &&& PATH_RAY_NODE_UNALIGNED ≠ 0)
  | _ => false

/-- The node-copy loop of `pack_instances` (fuelled by the list length). -/
def copyNodes (no lo : ℕ) : ℕ → List I4 → List I4
  | 0, _ => []
  | _ + 1, [] => []
  | fuel + 1, d :: rest =>
    let nsize := if uBitSet d then BVH_UNALIGNED_NODE_SIZE else BVH_NODE_SIZE
    (⟨d.x, d.y, adjustChildW no lo d.z, adjustChildW no lo d.w⟩ ::
        rest.take (nsize - 1)) ++
      copyNodes no lo fuel (rest.drop (nsize - 1))

/-- The state threaded through the merge loop of `pack_instances`. -/
structure MergeState where
  object_node : List ℤ
  geometry_map : List (ℕ × ℤ)
  prim_index : List ℤ
  prim_type : List ℤ
  prim_visibility : List ℕ
  prim_object : List ℤ
  nodes : List I4
  leaf_nodes : List I4
  prim_offset : ℕ
  nodes_offset : ℕ
  nodes_leaf_offset : ℕ

/-- One iteration of the `for (Object *ob : objects)` merge loop
(`bvh2.cpp:1108-1220`). -/
def pack_instances_step (geomOf : ℕ → GeomPack) (st : MergeState) (g : ℕ) :
    MergeState :=
  if (geomOf g).need_build = false then
    { st with object_node := st.object_node ++ [0] }
  else
    match st.geometry_map.lookup g with
    | some noffset => { st with object_node := st.object_node ++ [noffset] }
    | none =>
      let gp := geomOf g
      let entry : ℤ := if gp.root_index = -1 then
        -(st.nodes_leaf_offset : ℤ) - 1 else (st.nodes_offset : ℤ)
      { object_node := st.object_node ++ [entry]
        geometry_map := (g, entry) :: st.geometry_map
        prim_index := st.prim_index ++ gp.prim_index.map (fun n => n + gp.prim_offset)
        prim_type := st.prim_type ++ gp.prim_type
        prim_visibility := st.prim_visibility ++ gp.prim_visibility
        prim_object := st.prim_object ++ gp.prim_index.map (fun _ => 0)
        nodes := st.nodes ++
          copyNodes st.nodes_offset st.nodes_leaf_offset gp.nodes.length gp.nodes
        leaf_nodes := st.leaf_nodes ++
          gp.leaf_nodes.map (adjustLeafWord st.prim_offset)
        prim_offset := st.prim_offset + gp.prim_index.length
        nodes_offset := st.nodes_offset + gp.nodes.length
        nodes_leaf_offset := st.nodes_leaf_offset + gp.leaf_nodes.length }

/-- The whole merge loop. -/
def pack_instances_merge (geomOf : ℕ → GeomPack) (objects : List ℕ)
    (st0 : MergeState) : MergeState :=
  objects.foldl (pack_instances_step geomOf) st0

/-- The geometries that get copied: first occurrences of geometries that
need their own BVH, in object order, starting from `seen`. -/
def firstSeenFrom (geomOf : ℕ → GeomPack) (seen : List ℕ)
    (objects : List ℕ) : List ℕ :=
  objects.foldl (fun acc g =>
    if (geomOf g).need_build = true ∧ ¬ g ∈ acc then acc ++ [g] else acc) seen

/-- Total packed node words of the geometries in `l`. -/
def sumNodes (geomOf : ℕ → GeomPack) (l : List ℕ) : ℕ :=
  (l.map (fun g => (geomOf g).nodes.length)).sum

/-- Total packed leaf words of the geometries in `l`. -/
def sumLeaf (geomOf : ℕ → GeomPack) (l : List ℕ) : ℕ :=
  (l.map (fun g => (geomOf g).leaf_nodes.length)).sum

/-- Total primitives of the geometries in `l`. -/
def sumPrims (geomOf : ℕ → GeomPack) (l : List ℕ) : ℕ :=
  (l.map (fun g => (geomOf g).prim_index.length)).sum

theorem copyNodes_length (no lo : ℕ) : ∀ (fuel : ℕ) (l : List I4),
    l.length ≤ fuel → (copyNodes no lo fuel l).length = l.length := by
  intro fuel
  induction fuel with
  | zero =>
    intro l h
    have hnil : l = [] := List.eq_nil_of_length_eq_zero (Nat.le_zero.mp h)
    subst hnil
    rfl
  | succ n ih =>
    intro l h
    cases l with
    | nil => rfl
    | cons d rest =>
      have h' : rest.length ≤ n := by
        simp only [List.length_cons] at h
        omega
      simp only [copyNodes]
      set k : ℕ := if uBitSet d then BVH_UNALIGNED_NODE_SIZE else BVH_NODE_SIZE
        with hk
      have hrec := ih (rest.drop (k - 1)) (by rw [List.length_drop]; omega)
      rw [List.length_append, hrec]
      simp only [List.length_cons, List.length_take, List.length_drop]
      omega

theorem pack_instances_step_not_needed (geomOf : ℕ → GeomPack)
    (st : MergeState) (g : ℕ) (h : (geomOf g).need_build = false) :
    pack_instances_step geomOf st g =
      { st with object_node := st.object_node ++ [0] } := by
  simp only [pack_instances_step]
  rw [if_pos h]

theorem pack_instances_step_seen (geomOf : ℕ → GeomPack) (st : MergeState)
    (g : ℕ) (e : ℤ) (hn : (geomOf g).need_build = true)
    (hl : st.geometry_map.lookup g = some e) :
    pack_instances_step geomOf st g =
      { st with object_node := st.object_node ++ [e] } := by
  simp only [pack_instances_step]
  rw [if_neg (by rw [hn]; simp), hl]

theorem pack_instances_step_new (geomOf : ℕ → GeomPack) (st : MergeState)
    (g : ℕ) (hn : (geomOf g).need_build = true)
    (hl : st.geometry_map.lookup g = none) :
    pack_instances_step geomOf st g =
      { object_node := st.object_node ++
          [if (geomOf g).root_index = -1 then -(st.nodes_leaf_offset : ℤ) - 1
            else (st.nodes_offset : ℤ)]
        geometry_map := (g, if (geomOf g).root_index = -1 then
            -(st.nodes_leaf_offset : ℤ) - 1 else (st.nodes_offset : ℤ)) ::
          st.geometry_map
        prim_index := st.prim_index ++
          (geomOf g).prim_index.map (fun n => n + (geomOf g).prim_offset)
        prim_type := st.prim_type ++ (geomOf g).prim_type
        prim_visibility := st.prim_visibility ++ (geomOf g).prim_visibility
        prim_object := st.prim_object ++ (geomOf g).prim_index.map (fun _ => 0)
        nodes := st.nodes ++ copyNodes st.nodes_offset st.nodes_leaf_offset
          (geomOf g).nodes.length (geomOf g).nodes
        leaf_nodes := st.leaf_nodes ++
          (geomOf g).leaf_nodes.map (adjustLeafWord st.prim_offset)
        prim_offset := st.prim_offset + (geomOf g).prim_index.length
        nodes_offset := st.nodes_offset + (geomOf g).nodes.length
        nodes_leaf_offset :=
          st.nodes_leaf_offset + (geomOf g).leaf_nodes.length } := by
  simp only [pack_instances_step]
  rw [if_neg (by rw [hn]; simp), hl]

/-- Size bookkeeping of the merge loop: the map keys are exactly the
first-seen geometries, and every array and offset grows by the summed
sizes of the first-seen geometries — each distinct geometry contributing
exactly once. -/
theorem merge_sizes (geomOf : ℕ → GeomPack) : ∀ (objects : List ℕ)
    (st : MergeState) (seen : List ℕ),
    (∀ g, ((st.geometry_map.lookup g).isSome = true) ↔ g ∈ seen) →
    (∀ g, (((pack_instances_merge geomOf objects st).geometry_map.lookup g).isSome
      = true) ↔ g ∈ firstSeenFrom geomOf seen objects) ∧
    (pack_instances_merge geomOf objects st).nodes.length + sumNodes geomOf seen =
      st.nodes.length + sumNodes geomOf (firstSeenFrom geomOf seen objects) ∧
    (pack_instances_merge geomOf objects st).leaf_nodes.length + sumLeaf geomOf seen =
      st.leaf_nodes.length + sumLeaf geomOf (firstSeenFrom geomOf seen objects) ∧
    (pack_instances_merge geomOf objects st).prim_index.length + sumPrims geomOf seen =
      st.prim_index.length + sumPrims geomOf (firstSeenFrom geomOf seen objects) ∧
    (pack_instances_merge geomOf objects st).nodes_offset + sumNodes geomOf seen =
      st.nodes_offset + sumNodes geomOf (firstSeenFrom geomOf seen objects) ∧
    (pack_instances_merge geomOf objects st).nodes_leaf_offset + sumLeaf geomOf seen =
      st.nodes_leaf_offset + sumLeaf geomOf (firstSeenFrom geomOf seen objects) ∧
    (pack_instances_merge geomOf objects st).prim_offset + sumPrims geomOf seen =
      st.prim_offset + sumPrims geomOf (firstSeenFrom geomOf seen objects) := by
  intro objects
  induction objects with
  | nil =>
    intro st seen hmap
    exact ⟨hmap, rfl, rfl, rfl, rfl, rfl, rfl⟩
  | cons g rest ih =>
    intro st seen hmap
    by_cases hn : (geomOf g).need_build = true
    · by_cases hg : g ∈ seen
      · -- already copied: only the object_node entry is appended
        obtain ⟨e, hl⟩ := Option.isSome_iff_exists.mp ((hmap g).mpr hg)
        have hstep := pack_instances_step_seen geomOf st g e hn hl
        have hfold : pack_instances_merge geomOf (g :: rest) st =
            pack_instances_merge geomOf rest (pack_instances_step geomOf st g) :=
          rfl
        have hseen : firstSeenFrom geomOf seen (g :: rest) =
            firstSeenFrom geomOf seen rest := by
          simp only [firstSeenFrom, List.foldl_cons]
          rw [if_neg (by intro hc; exact hc.2 hg)]
        rw [hfold, hstep, hseen]
        exact ih _ seen hmap
      · -- first occurrence: copy the arrays and advance the offsets
        have hl : st.geometry_map.lookup g = none := by
          cases hcase : st.geometry_map.lookup g
          · rfl
          · exact absurd ((hmap g).mp (by rw [hcase]; rfl)) hg
        have hstep := pack_instances_step_new geomOf st g hn hl
        have hfold : pack_instances_merge geomOf (g :: rest) st =
            pack_instances_merge geomOf rest (pack_instances_step geomOf st g) :=
          rfl
        have hseen : firstSeenFrom geomOf seen (g :: rest) =
            firstSeenFrom geomOf (seen ++ [g]) rest := by
          simp only [firstSeenFrom, List.foldl_cons]
          rw [if_pos ⟨hn, hg⟩]
        have hcons : ∀ g', g' ≠ g →
            ((g, if (geomOf g).root_index = -1 then
                -(st.nodes_leaf_offset : ℤ) - 1 else (st.nodes_offset : ℤ)) ::
              st.geometry_map).lookup g' = st.geometry_map.lookup g' := by
          intro g' hgg
          simp [List.lookup, beq_eq_false_iff_ne.mpr hgg]
        have hmap' : ∀ g',
            (((pack_instances_step geomOf st g).geometry_map.lookup g').isSome
              = true) ↔ g' ∈ seen ++ [g] := by
          intro g'
          rw [hstep]
          by_cases hgg : g' = g
          · subst hgg
            simp [List.lookup]
          · show ((((g, _) :: st.geometry_map).lookup g').isSome = true) ↔ _
            rw [hcons g' hgg]
            constructor
            · intro hs
              exact List.mem_append_left _ ((hmap g').mp hs)
            · intro hmem
              rcases List.mem_append.mp hmem with hm | hm
              · exact (hmap g').mpr hm
              · simp at hm
                exact absurd hm hgg
        obtain ⟨ihmap, ihn, ihl, ihp, ihno, ihlo, ihpo⟩ :=
          ih (pack_instances_step geomOf st g) (seen ++ [g]) hmap'
        have hsn : (pack_instances_step geomOf st g).nodes.length =
            st.nodes.length + (geomOf g).nodes.length := by
          rw [hstep]
          simp only [List.length_append]
          rw [copyNodes_length _ _ _ _ le_rfl]
        have hsl : (pack_instances_step geomOf st g).leaf_nodes.length =
            st.leaf_nodes.length + (geomOf g).leaf_nodes.length := by
          rw [hstep]
          simp
        have hsp : (pack_instances_step geomOf st g).prim_index.length =
            st.prim_index.length + (geomOf g).prim_index.length := by
          rw [hstep]
          simp
        have hon : (pack_instances_step geomOf st g).nodes_offset =
            st.nodes_offset + (geomOf g).nodes.length := by
          rw [hstep]
        have hol : (pack_instances_step geomOf st g).nodes_leaf_offset =
            st.nodes_leaf_offset + (geomOf g).leaf_nodes.length := by
          rw [hstep]
        have hop : (pack_instances_step geomOf st g).prim_offset =
            st.prim_offset + (geomOf g).prim_index.length := by
          rw [hstep]
        have hsumn : sumNodes geomOf (seen ++ [g]) =
            sumNodes geomOf seen + (geomOf g).nodes.length := by
          simp [sumNodes]
        have hsuml : sumLeaf geomOf (seen ++ [g]) =
            sumLeaf geomOf seen + (geomOf g).leaf_nodes.length := by
          simp [sumLeaf]
        have hsump : sumPrims geomOf (seen ++ [g]) =
            sumPrims geomOf seen + (geomOf g).prim_index.length := by
          simp [sumPrims]
        rw [hfold, hseen]
        exact ⟨ihmap, by omega, by omega, by omega, by omega, by omega, by omega⟩
    · -- geometry without own BVH: entry 0 only
      have hb : (geomOf g).need_build = false := by
        cases hcase : (geomOf g).need_build
        · rfl
        · exact absurd hcase hn
      have hstep := pack_instances_step_not_needed geomOf st g hb
      have hfold : pack_instances_merge geomOf (g :: rest) st =
          pack_instances_merge geomOf rest (pack_instances_step geomOf st g) :=
        rfl
      have hseen : firstSeenFrom geomOf seen (g :: rest) =
          firstSeenFrom geomOf seen rest := by
        simp only [firstSeenFrom, List.foldl_cons]
        rw [if_neg (by intro hc; rw [hb] at hc; exact absurd hc.1 (by simp))]
      rw [hfold, hstep, hseen]
      exact ih _ seen hmap

/-- Entry bookkeeping of the merge loop: map entries are stable, existing
`object_node` entries are preserved, every object whose geometry needs its
own BVH gets the map's entry for that geometry, and every other object
gets `0`. -/
theorem merge_entries (geomOf : ℕ → GeomPack) : ∀ (objects : List ℕ)
    (st : MergeState),
    (pack_instances_merge geomOf objects st).object_node.length =
      st.object_node.length + objects.length ∧
    (∀ g e, st.geometry_map.lookup g = some e →
      (pack_instances_merge geomOf objects st).geometry_map.lookup g = some e) ∧
    (∀ k, k < st.object_node.length →
      (pack_instances_merge geomOf objects st).object_node[k]? =
        st.object_node[k]?) ∧
    (∀ k g, objects[k]? = some g → (geomOf g).need_build = true →
      ∃ e, (pack_instances_merge geomOf objects st).geometry_map.lookup g =
          some e ∧
        (pack_instances_merge geomOf objects st).object_node[
          st.object_node.length + k]? = some e) ∧
    (∀ k g, objects[k]? = some g → (geomOf g).need_build = false →
      (pack_instances_merge geomOf objects st).object_node[
        st.object_node.length + k]? = some 0) := by
  intro objects
  induction objects with
  | nil =>
    intro st
    refine ⟨by simp [pack_instances_merge], fun g e h => h, fun k _ => rfl,
      ?_, ?_⟩
    · intro k g hk
      simp at hk
    · intro k g hk
      simp at hk
  | cons gh rest ih =>
    intro st
    have key : ∀ (st1 : MergeState) (x : ℤ),
        st1.object_node = st.object_node ++ [x] →
        (∀ g' e, st.geometry_map.lookup g' = some e →
          st1.geometry_map.lookup g' = some e) →
        ((geomOf gh).need_build = true → st1.geometry_map.lookup gh = some x) →
        ((geomOf gh).need_build = false → x = 0) →
        (pack_instances_merge geomOf rest st1).object_node.length =
          st.object_node.length + (gh :: rest).length ∧
        (∀ g e, st.geometry_map.lookup g = some e →
          (pack_instances_merge geomOf rest st1).geometry_map.lookup g =
            some e) ∧
        (∀ k, k < st.object_node.length →
          (pack_instances_merge geomOf rest st1).object_node[k]? =
            st.object_node[k]?) ∧
        (∀ k g, (gh :: rest)[k]? = some g → (geomOf g).need_build = true →
          ∃ e, (pack_instances_merge geomOf rest st1).geometry_map.lookup g =
              some e ∧
            (pack_instances_merge geomOf rest st1).object_node[
              st.object_node.length + k]? = some e) ∧
        (∀ k g, (gh :: rest)[k]? = some g → (geomOf g).need_build = false →
          (pack_instances_merge geomOf rest st1).object_node[
            st.object_node.length + k]? = some 0) := by
      intro st1 x f1 f2 f3 f4
      obtain ⟨ihlen, ihstab, ihpres, ihneed, ihnot⟩ := ih st1
      have hlen1 : st1.object_node.length = st.object_node.length + 1 := by
        rw [f1]
        simp
      refine ⟨?_, ?_, ?_, ?_, ?_⟩
      · rw [ihlen, hlen1]
        simp only [List.length_cons]
        omega
      · exact fun g e h => ihstab g e (f2 g e h)
      · intro k hk
        rw [ihpres k (by omega), f1, List.getElem?_append_left hk]
      · intro k g hk hneed
        cases k with
        | zero =>
          rw [List.getElem?_cons_zero] at hk
          obtain rfl := Option.some.inj hk
          refine ⟨x, ihstab gh x (f3 hneed), ?_⟩
          rw [Nat.add_zero, ihpres st.object_node.length (by omega), f1,
            List.getElem?_concat_length]
        | succ k' =>
          rw [List.getElem?_cons_succ] at hk
          obtain ⟨e, he1, he2⟩ := ihneed k' g hk hneed
          refine ⟨e, he1, ?_⟩
          rw [show st.object_node.length + (k' + 1) =
            st1.object_node.length + k' from by omega]
          exact he2
      · intro k g hk hneed
        cases k with
        | zero =>
          rw [List.getElem?_cons_zero] at hk
          obtain rfl := Option.some.inj hk
          obtain rfl := f4 hneed
          rw [Nat.add_zero, ihpres st.object_node.length (by omega), f1,
            List.getElem?_concat_length]
        | succ k' =>
          rw [List.getElem?_cons_succ] at hk
          have he2 := ihnot k' g hk hneed
          rw [show st.object_node.length + (k' + 1) =
            st1.object_node.length + k' from by omega]
          exact he2
    show (pack_instances_merge geomOf rest
        (pack_instances_step geomOf st gh)).object_node.length = _ ∧ _
    by_cases hn : (geomOf gh).need_build = true
    · cases hcase : st.geometry_map.lookup gh with
      | some e =>
        have hstep := pack_instances_step_seen geomOf st gh e hn hcase
        refine key (pack_instances_step geomOf st gh) e ?_ ?_ ?_ ?_
        · rw [hstep]
        · intro g' e' h
          rw [hstep]
          exact h
        · intro _
          rw [hstep]
          exact hcase
        · intro hb
          rw [hn] at hb
          simp at hb
      | none =>
        have hstep := pack_instances_step_new geomOf st gh hn hcase
        refine key (pack_instances_step geomOf st gh)
          (if (geomOf gh).root_index = -1 then -(st.nodes_leaf_offset : ℤ) - 1
            else (st.nodes_offset : ℤ)) ?_ ?_ ?_ ?_
        · rw [hstep]
        · intro g' e' h
          rw [hstep]
          by_cases hgg : g' = gh
          · subst hgg
            rw [h] at hcase
            exact absurd hcase (by simp)
          · show ((gh, _) :: st.geometry_map).lookup g' = some e'
            rw [show ((gh, if (geomOf gh).root_index = -1 then
                -(st.nodes_leaf_offset : ℤ) - 1 else (st.nodes_offset : ℤ)) ::
                st.geometry_map).lookup g' = st.geometry_map.lookup g' from by
              simp [List.lookup, beq_eq_false_iff_ne.mpr hgg]]
            exact h
        · intro _
          rw [hstep]
          show ((gh, _) :: st.geometry_map).lookup gh = _
          simp [List.lookup]
        · intro hb
          rw [hn] at hb
          simp at hb
    · have hb : (geomOf gh).need_build = false := by
        cases hcase : (geomOf gh).need_build
        · rfl
        · exact absurd hcase hn
      have hstep := pack_instances_step_not_needed geomOf st gh hb
      refine key (pack_instances_step geomOf st gh) 0 ?_ ?_ ?_ ?_
      · rw [hstep]
      · intro g' e' h
        rw [hstep]
        exact h
      · intro hc
        rw [hb] at hc
        simp at hc
      · intro _
        rfl

/-- **C4.** Starting the merge loop with a fresh geometry map: (a) any two
objects referencing the same geometry that needs its own BVH receive the
identical `object_node` entry; (b) the global node, leaf-node and
primitive arrays and the three running offsets each grow by the summed
sizes of the distinct first-seen geometries — every shared geometry is
copied exactly once; (c) a first-seen geometry advances the arrays and the
running offsets by exactly the sizes of its packed arrays, and (d) an
already-seen geometry only appends its map entry to `object_node`. -/
theorem pack_instances_structural_sharing (geomOf : ℕ → GeomPack)
    (objects : List ℕ) (st0 : MergeState) (hmap0 : st0.geometry_map = []) :
    (∀ i j g, objects[i]? = some g → objects[j]? = some g →
      (geomOf g).need_build = true →
      ∃ e, (pack_instances_merge geomOf objects st0).object_node[
          st0.object_node.length + i]? = some e ∧
        (pack_instances_merge geomOf objects st0).object_node[
          st0.object_node.length + j]? = some e) ∧
    ((pack_instances_merge geomOf objects st0).nodes.length =
        st0.nodes.length + sumNodes geomOf (firstSeenFrom geomOf [] objects) ∧
      (pack_instances_merge geomOf objects st0).leaf_nodes.length =
        st0.leaf_nodes.length + sumLeaf geomOf (firstSeenFrom geomOf [] objects) ∧
      (pack_instances_merge geomOf objects st0).prim_index.length =
        st0.prim_index.length + sumPrims geomOf (firstSeenFrom geomOf [] objects) ∧
      (pack_instances_merge geomOf objects st0).nodes_offset =
        st0.nodes_offset + sumNodes geomOf (firstSeenFrom geomOf [] objects) ∧
      (pack_instances_merge geomOf objects st0).nodes_leaf_offset =
        st0.nodes_leaf_offset + sumLeaf geomOf (firstSeenFrom geomOf [] objects) ∧
      (pack_instances_merge geomOf objects st0).prim_offset =
        st0.prim_offset + sumPrims geomOf (firstSeenFrom geomOf [] objects)) ∧
    (∀ st g, (geomOf g).need_build = true → st.geometry_map.lookup g = none →
      (pack_instances_step geomOf st g).nodes.length =
        st.nodes.length + (geomOf g).nodes.length ∧
      (pack_instances_step geomOf st g).leaf_nodes.length =
        st.leaf_nodes.length + (geomOf g).leaf_nodes.length ∧
      (pack_instances_step geomOf st g).prim_index.length =
        st.prim_index.length + (geomOf g).prim_index.length ∧
      (pack_instances_step geomOf st g).nodes_offset =
        st.nodes_offset + (geomOf g).nodes.length ∧
      (pack_instances_step geomOf st g).nodes_leaf_offset =
        st.nodes_leaf_offset + (geomOf g).leaf_nodes.length ∧
      (pack_instances_step geomOf st g).prim_offset =
        st.prim_offset + (geomOf g).prim_index.length) ∧
    (∀ st g e, (geomOf g).need_build = true →
      st.geometry_map.lookup g = some e →
      pack_instances_step geomOf st g =
        { st with object_node := st.object_node ++ [e] }) := by
  refine ⟨?_, ?_, ?_, ?_⟩
  · intro i j g hi hj hn
    obtain ⟨_, _, _, hneed, _⟩ := merge_entries geomOf objects st0
    obtain ⟨ei, hei1, hei2⟩ := hneed i g hi hn
    obtain ⟨ej, hej1, hej2⟩ := hneed j g hj hn
    refine ⟨ei, hei2, ?_⟩
    rw [Option.some.inj (hej1.symm.trans hei1)] at hej2
    exact hej2
  · have hmap : ∀ g, ((st0.geometry_map.lookup g).isSome = true) ↔ g ∈
        ([] : List ℕ) := by
      intro g
      rw [hmap0]
      simp [List.lookup]
    obtain ⟨_, h1, h2, h3, h4, h5, h6⟩ := merge_sizes geomOf objects st0 [] hmap
    have hz1 : sumNodes geomOf [] = 0 := rfl
    have hz2 : sumLeaf geomOf [] = 0 := rfl
    have hz3 : sumPrims geomOf [] = 0 := rfl
    exact ⟨by omega, by omega, by omega, by omega, by omega, by omega⟩
  · intro st g hn hl
    rw [pack_instances_step_new geomOf st g hn hl]
    refine ⟨?_, ?_, ?_, rfl, rfl, rfl⟩
    · simp only [List.length_append]
      rw [copyNodes_length _ _ _ _ le_rfl]
    · simp
    · simp
  · intro st g e hn hl
    exact pack_instances_step_seen geomOf st g e hn hl

/-- Geometries for the instance-merge witness: geometry `0` an
inner-node-plus-two-leaves pack, geometry `1` a single-leaf pack. -/
def wGeomC4 : ℕ → GeomPack := fun g =>
  if g = 0 then
    ⟨[0, 1], [4, 4], [1, 1],
     [⟨PW.uw 0, PW.uw 0, PW.iw (-1), PW.iw (-2)⟩,
      ⟨PW.fw 0, PW.fw 0, PW.fw 0, PW.fw 0⟩,
      ⟨PW.fw 0, PW.fw 0, PW.fw 0, PW.fw 0⟩,
      ⟨PW.fw 0, PW.fw 0, PW.fw 0, PW.fw 0⟩],
     [⟨PW.iw 0, PW.iw 1, PW.uw 0, PW.iw 4⟩,
      ⟨PW.iw 1, PW.iw 2, PW.uw 0, PW.iw 4⟩],
     0, 0, true⟩
  else
    ⟨[7], [4], [1], [], [⟨PW.iw 0, PW.iw 1, PW.uw 0, PW.iw 4⟩], -1, 2, true⟩

/-- Objects for the instance-merge witness: the first and third share
geometry `0`. -/
def wObjsC4 : List ℕ := [0, 1, 0]

/-- Fresh merge state for the instance-merge witness. -/
def wSt0C4 : MergeState := ⟨[], [], [], [], [], [], [], [], 0, 0, 0⟩

/-- Witness for `pack_instances_structural_sharing`: objects `0` and `2`
share geometry `0` and receive the identical entry, and the node array
grows by the sizes of the two distinct geometries only. -/
theorem pack_instances_structural_sharing_witness :
    wSt0C4.geometry_map = [] ∧
    (∃ e, (pack_instances_merge wGeomC4 wObjsC4 wSt0C4).object_node[
        wSt0C4.object_node.length + 0]? = some e ∧
      (pack_instances_merge wGeomC4 wObjsC4 wSt0C4).object_node[
        wSt0C4.object_node.length + 2]? = some e) ∧
    (pack_instances_merge wGeomC4 wObjsC4 wSt0C4).nodes.length =
      wSt0C4.nodes.length +
        sumNodes wGeomC4 (firstSeenFrom wGeomC4 [] wObjsC4) := by
  have hmap0 : wSt0C4.geometry_map = [] := rfl
  obtain ⟨ha, hb, _, _⟩ :=
    pack_instances_structural_sharing wGeomC4 wObjsC4 wSt0C4 hmap0
  exact ⟨hmap0, ha 0 2 0 rfl rfl rfl, hb.1⟩

end Cycles
